import Mathlib

/-!
# Huffman compressor: shallow embedding and verified properties

Embedding of `HuffmanTree.h`, `HuffmanTree.cpp` and `Compressor.cpp`.

Modelling conventions
* A `BitNode*` is a value of `BitNodePtr`: `nullptr`, or a node together with the
  (exclusively owned) subtrees its `left` and `right` fields point to.
* `unsigned char` values are natural numbers below 256; `'0'` is 48 and `'1'` is 49.
* `int` is 32-bit two's complement: every `int` addition is followed by `wrapInt32`.
* `std::priority_queue` is library code; it is taken as a parameter
  (`PriorityQueue`) constrained only by what the C++ standard promises, so
  every theorem holds for each tie-breaking behaviour of the heap.
* `std::unordered_map<unsigned char, std::vector<bool>>` is a function from keys
  to optional values; `operator[]` on an absent key yields the empty vector.
* Dereferencing a null `BitNode*`, or a string iterator beyond the string's
  terminator, is a fault (`Except.error`).
-/

namespace Huffman

/-! ## HuffmanTree.h -/

/-- A `BitNode*`: null, or a `BitNode` with its five fields. -/
inductive BitNodePtr where
  | nullptr : BitNodePtr
  | node (frequency : Int) (terminal : Bool) (byte : Nat)
      (left right : BitNodePtr) : BitNodePtr
  deriving DecidableEq

namespace BitNodePtr

/-- Field `frequency` (0 is returned for `nullptr`, which the code never dereferences here). -/
def frequency : BitNodePtr → Int
  | nullptr => 0
  | node f _ _ _ _ => f

/-- Field `terminal`. -/
def terminal : BitNodePtr → Bool
  | nullptr => false
  | node _ t _ _ _ => t

/-- Field `byte`. -/
def byte : BitNodePtr → Nat
  | nullptr => 0
  | node _ _ b _ _ => b

/-- Field `left`. -/
def left : BitNodePtr → BitNodePtr
  | nullptr => nullptr
  | node _ _ _ l _ => l

/-- Field `right`. -/
def right : BitNodePtr → BitNodePtr
  | nullptr => nullptr
  | node _ _ _ _ r => r

/-- Test `p == nullptr`. -/
def isNull : BitNodePtr → Bool
  | nullptr => true
  | node _ _ _ _ _ => false

end BitNodePtr

open BitNodePtr

/-- The value `new BitNode()` with all constructor defaults:
frequency 0, terminal `true`, byte `'\0'`, both children null. -/
def newBitNode : BitNodePtr := node 0 true 0 nullptr nullptr

/-- Two's-complement wrap of a mathematical integer into the range of a 32-bit `int`. -/
def wrapInt32 (x : Int) : Int := (x + 2147483648) % 4294967296 - 2147483648

/-- The comparison `BitNodePtrComp::operator()`: `lhs->frequency > rhs->frequency`. -/
def BitNodePtrComp (lhs rhs : BitNodePtr) : Bool :=
  decide (lhs.frequency > rhs.frequency)

/-- The interface of
`std::priority_queue<BitNode*, std::vector<BitNode*>, BitNodePtrComp>`,
with the guarantees of the C++ standard: the queue holds a multiset of elements,
`top` is an element that the comparison ranks below no other element, `pop`
removes it, `push` adds one element.  Which of several equal-frequency nodes is
on top is left to the implementation. -/
structure PriorityQueue where
  /-- Internal state of the queue. -/
  Q : Type
  /-- Range constructor `pq(v.begin(), v.end())`. -/
  make : List BitNodePtr → Q
  /-- The elements held (specification only). -/
  contents : Q → Multiset BitNodePtr
  /-- Member `size()`. -/
  size : Q → Nat
  /-- Member `top()`. -/
  top : Q → BitNodePtr
  /-- Member `pop()`. -/
  pop : Q → Q
  /-- Member `push(x)`. -/
  push : Q → BitNodePtr → Q
  contents_make : ∀ v, contents (make v) = (v : Multiset BitNodePtr)
  size_eq : ∀ q, size q = Multiset.card (contents q)
  top_pop : ∀ q, contents q ≠ 0 → top q ::ₘ contents (pop q) = contents q
  top_min : ∀ q, ∀ y ∈ contents q, BitNodePtrComp (top q) y = false
  contents_push : ∀ q x, contents (push q x) = x ::ₘ contents q

/-! ## HuffmanTree.cpp -/

/-- Class `HuffmanTree`: its only data member is `root_`. -/
structure HuffmanTree where
  root_ : BitNodePtr
  deriving DecidableEq

/-- The vector `v` filled by the first loop of the constructor: one terminal node
for each byte value 0..255 whose frequency is positive, in increasing byte order. -/
def leafVector (byte_frequencies : Nat → Int) : List BitNodePtr :=
  (List.range 256).filterMap fun byte =>
    if byte_frequencies byte > 0 then
      some (node (byte_frequencies byte) true (byte % 256) nullptr nullptr)
    else none

/-- The loop `while(pq.size() > 1)` of the constructor.  Each iteration lowers
`pq.size()` by one, so the initial size is enough fuel. -/
def mergeLoop (P : PriorityQueue) : Nat → P.Q → P.Q
  | 0, pq => pq
  | fuel + 1, pq =>
    if P.size pq > 1 then
      let left_child := P.top pq
      let pq1 := P.pop pq
      let right_child := P.top pq1
      let pq2 := P.pop pq1
      let nd := node (wrapInt32 (left_child.frequency + right_child.frequency))
        false 0 left_child right_child
      mergeLoop P fuel (P.push pq2 nd)
    else pq

/-- Constructor `HuffmanTree::HuffmanTree(int byte_frequencies[256])`. -/
def HuffmanTree.ofFrequencies (P : PriorityQueue) (byte_frequencies : Nat → Int) :
    HuffmanTree :=
  let v := leafVector byte_frequencies
  let pq := P.make v
  if P.size pq = 0 then ⟨nullptr⟩
  else if P.size pq = 1 then
    ⟨node (P.top pq).frequency false 0 (P.top pq) nullptr⟩
  else ⟨P.top (mergeLoop P (P.size pq) pq)⟩

/-- Member `root()`. -/
def HuffmanTree.root (t : HuffmanTree) : BitNodePtr := t.root_

/-- The type `std::unordered_map<unsigned char, std::vector<bool>>`. -/
abbrev EncodingMap := Nat → Option (List Bool)

/-- Assignment `map[key] = value`. -/
def EncodingMap.assign (map : EncodingMap) (key : Nat) (value : List Bool) : EncodingMap :=
  fun k => if k = key then some value else map k

/-- Read access `map[key]`: an absent key yields a default-constructed (empty) vector. -/
def EncodingMap.get (map : EncodingMap) (key : Nat) : List Bool :=
  (map key).getD []

/-- The helper `GetEncodingMap(node, encoded, map)`; `encoded` is passed with the
pushed bit and so needs no `pop_back`, `map` is threaded through. -/
def GetEncodingMapHelper : BitNodePtr → List Bool → EncodingMap → EncodingMap
  | nullptr, _, map => map
  | node _ terminal byte left right, encoded, map =>
    let map1 := if terminal then map.assign byte encoded else map
    let map2 := GetEncodingMapHelper left (encoded ++ [false]) map1
    GetEncodingMapHelper right (encoded ++ [true]) map2

/-- Member `GetEncodingMap()`. -/
def HuffmanTree.GetEncodingMap (t : HuffmanTree) : EncodingMap :=
  GetEncodingMapHelper t.root_ [] (fun _ => none)

/-- The helper `Flatten(node, encoding)`; the out-parameter `encoding` is threaded. -/
def FlattenHelper : BitNodePtr → List Nat → List Nat
  | nullptr, encoding => encoding
  | node _ terminal byte left right, encoding =>
    if terminal then encoding ++ [49] ++ [byte]
    else FlattenHelper right (FlattenHelper left (encoding ++ [48]))

/-- Member `Flatten()`. -/
def HuffmanTree.Flatten (t : HuffmanTree) : List Nat :=
  FlattenHelper t.root_ []

/-! ## Compressor.cpp -/

/-- Faults that end an execution: a string iterator dereferenced beyond the
terminator of its string, a null `BitNode*` dereferenced, `top()` of an empty
stack, or the loop fuel of the model exhausted. -/
inductive Fault where
  | outOfBounds (pos : Nat) : Fault
  | nullDeref : Fault
  | emptyStack : Fault
  | fuel : Fault
  deriving DecidableEq

/-- The function `CountByteFrequencies`: `frequency[c]++` for every byte of the file,
starting from the zero-initialised table. -/
def CountByteFrequencies (file : List Nat) : Nat → Int :=
  file.foldl (fun frequency c => fun k =>
    if k = c % 256 then wrapInt32 (frequency k + 1) else frequency k) (fun _ => 0)

/-- The value of `std::bitset<8>::to_ulong()`; the bitset is the list of its bits,
bit 0 first. -/
def to_ulong (bits : List Bool) : Nat :=
  bits.foldr (fun b n => 2 * n + (if b then 1 else 0)) 0

/-- Local state of the bit-packing loop of `compress`. -/
structure PackState where
  bit_accumulator : List Bool
  bit_index : Nat
  outfile : List Nat
  deriving DecidableEq

/-- Body of `for(bool bit : encoded_byte)` in `compress`. -/
def packBit (st : PackState) (bit : Bool) : PackState :=
  let acc := st.bit_accumulator.set st.bit_index bit
  let idx := st.bit_index + 1
  if idx = 8 then
    ⟨List.replicate 8 false, 0, st.outfile ++ [to_ulong acc &&& 0xFF]⟩
  else ⟨acc, idx, st.outfile⟩

/-- Body of `while(file.get(c))` in `compress`. -/
def packByte (encode_map : EncodingMap) (st : PackState) (c : Nat) : PackState :=
  (encode_map.get (c % 256)).foldl packBit st

/-- Part 5 of `compress`: the packed bit stream written for the bytes of `file`. -/
def packStream (encode_map : EncodingMap) (file : List Nat) : List Nat :=
  let st := file.foldl (packByte encode_map) ⟨List.replicate 8 false, 0, []⟩
  if st.bit_index > 0 then st.outfile ++ [to_ulong st.bit_accumulator &&& 0xFF]
  else st.outfile

/-- What `compress` writes after the file extension. -/
structure CompressedFile where
  file_length : Int
  flat_tree : List Nat
  content : List Nat
  deriving DecidableEq

/-- The function `Compressor::compress` on the bytes of the input file. -/
def compress (P : PriorityQueue) (file : List Nat) : CompressedFile :=
  let frequencyTable := CountByteFrequencies file
  let tree := HuffmanTree.ofFrequencies P frequencyTable
  let encode_map := tree.GetEncodingMap
  { file_length := wrapInt32 file.length
    flat_tree := tree.Flatten
    content := packStream encode_map file }

namespace BitNodePtr

/-- The node reached from `p` along a path of child selections
(`false` = `left`, `true` = `right`). -/
def subtree : BitNodePtr → List Bool → BitNodePtr
  | p, [] => p
  | nullptr, _ :: _ => nullptr
  | node _ _ _ l r, d :: ds => if d then r.subtree ds else l.subtree ds

/-- In-place update of the node reached from `p` along a path. -/
def modifyAt (g : BitNodePtr → BitNodePtr) : BitNodePtr → List Bool → BitNodePtr
  | p, [] => g p
  | nullptr, _ :: _ => nullptr
  | node f t b l r, d :: ds =>
    if d then node f t b l (modifyAt g r ds) else node f t b (modifyAt g l ds) r

/-- Assignment `p->left = q`. -/
def setLeft : BitNodePtr → BitNodePtr → BitNodePtr
  | nullptr, _ => nullptr
  | node f t b _ r, q => node f t b q r

/-- Assignment `p->right = q`. -/
def setRight : BitNodePtr → BitNodePtr → BitNodePtr
  | nullptr, _ => nullptr
  | node f t b l _, q => node f t b l q

/-- Assignment `p->terminal = v`. -/
def setTerminal : BitNodePtr → Bool → BitNodePtr
  | nullptr, _ => nullptr
  | node f _ b l r, v => node f v b l r

/-- Assignment `p->byte = v`. -/
def setByte : BitNodePtr → Nat → BitNodePtr
  | nullptr, _ => nullptr
  | node f t _ l r, v => node f t v l r

end BitNodePtr

/-- Evaluation of `*it` for an iterator at offset `it` of `encoding`.  At
`encoding.end()` the string terminator `'\0'` is read, which is reported by the
flag; further on the read is a fault. -/
def readChar (encoding : List Nat) (it : Nat) : Except Fault (Nat × Bool) :=
  if it < encoding.length then .ok (encoding.getD it 0, false)
  else if it = encoding.length then .ok (0, true)
  else .error (.outOfBounds it)

/-- Local state of `Unflatten`.  A `BitNode*` on the stack points into the tree
under `root` and is held as the path from `root` to the node; the head of `s`
is `s.top()`.  `readEnd` records whether `*it` was evaluated at `encoding.end()`. -/
structure UnflattenState where
  root : BitNodePtr
  s : List (List Bool)
  it : Nat
  readEnd : Bool
  deriving DecidableEq

/-- The loop `while (!s.empty() && s.top()->right != nullptr) s.pop();`. -/
def unwind (root : BitNodePtr) : List (List Bool) → List (List Bool)
  | [] => []
  | top :: rest =>
    if (root.subtree top).right.isNull then top :: rest else unwind root rest

/-- Body of the main loop of `Unflatten`. -/
def UnflattenBody (encoding : List Nat) (st : UnflattenState) :
    Except Fault UnflattenState :=
  match st.s with
  | [] => .error .emptyStack
  | top :: rest =>
    let toRight := !(st.root.subtree top).left.isNull
    let nd := top ++ [toRight]
    let root1 := st.root.modifyAt
      (fun p => if toRight then p.setRight newBitNode else p.setLeft newBitNode) top
    match readChar encoding st.it with
    | .error e => .error e
    | .ok (c, e1) =>
      let root2 := if c = 48 then root1.modifyAt (fun p => p.setTerminal false) nd else root1
      let s2 := if c = 48 then nd :: top :: rest else top :: rest
      if c = 49 then
        match readChar encoding (st.it + 1) with
        | .error e => .error e
        | .ok (b, e2) =>
          let root3 := root2.modifyAt (fun p => (p.setTerminal true).setByte b) nd
          .ok ⟨root3, unwind root3 s2, st.it + 2, st.readEnd || e1 || e2⟩
      else .ok ⟨root2, unwind root2 s2, st.it + 1, st.readEnd || e1⟩

/-- The main loop `while(!s.empty() && it != encoding.end())` of `Unflatten`. -/
def UnflattenLoop (encoding : List Nat) : Nat → UnflattenState → Except Fault UnflattenState
  | 0, st => if st.s ≠ [] ∧ st.it ≠ encoding.length then .error .fuel else .ok st
  | fuel + 1, st =>
    if st.s ≠ [] ∧ st.it ≠ encoding.length then
      match UnflattenBody encoding st with
      | .error e => .error e
      | .ok st1 => UnflattenLoop encoding fuel st1
    else .ok st

/-- Outcome of `Unflatten`: the tree returned, whether each of the two error
messages was printed, and whether the string was read at its end. -/
structure UnflattenResult where
  tree : HuffmanTree
  tooShort : Bool
  tooLong : Bool
  readEnd : Bool
  deriving DecidableEq

/-- The function `Compressor::Unflatten`. -/
def Unflatten (encoding : List Nat) : Except Fault UnflattenResult :=
  match readChar encoding 0 with
  | .error e => .error e
  | .ok (c, e0) =>
    let st0 : UnflattenState :=
      if c = 48 then ⟨newBitNode.setTerminal false, [[]], 1, e0⟩
      else ⟨nullptr, [], 0, e0⟩
    match UnflattenLoop encoding (encoding.length + 1) st0 with
    | .error e => .error e
    | .ok st =>
      .ok ⟨⟨st.root⟩, decide (st.s ≠ []), decide (st.it ≠ encoding.length), st.readEnd⟩

/-- Local state of the decoding loop of `decompress`. -/
structure DecodeState where
  current_node : BitNodePtr
  decoded_bytes_written : Int
  decompressed_file : List Nat
  deriving DecidableEq

/-- The loop `for(int i = 0; i < 8; i++)` of `decompress` over the remaining bit
indices of the byte `c`; `break` returns the state at once. -/
def decodeBits (root : BitNodePtr) (decompressed_file_length : Int) (c : Nat) :
    List Nat → DecodeState → Except Fault DecodeState
  | [], st => .ok st
  | i :: is, st =>
    match st.current_node with
    | nullptr => .error .nullDeref
    | node _ _ _ l r =>
      match (if c.testBit i then r else l) with
      | nullptr => .error .nullDeref
      | node f t b l1 r1 =>
        if t then
          let written := wrapInt32 (st.decoded_bytes_written + 1)
          let st1 : DecodeState := ⟨root, written, st.decompressed_file ++ [b]⟩
          if written = decompressed_file_length then .ok st1
          else decodeBits root decompressed_file_length c is st1
        else
          decodeBits root decompressed_file_length c is
            ⟨node f t b l1 r1, st.decoded_bytes_written, st.decompressed_file⟩

/-- The loop `while(compressed_file.get(c))` of `decompress`. -/
def decodeLoop (root : BitNodePtr) (decompressed_file_length : Int) :
    List Nat → DecodeState → Except Fault DecodeState
  | [], st => .ok st
  | c :: cs, st =>
    match decodeBits root decompressed_file_length (c % 256) (List.range 8) st with
    | .error e => .error e
    | .ok st1 => decodeLoop root decompressed_file_length cs st1

/-- Steps 4 and 5 of `decompress`, given the declared length, the flattened tree
and the rest of the file; the result is the content of the decompressed file. -/
def decompress (file : CompressedFile) : Except Fault (List Nat) :=
  match Unflatten file.flat_tree with
  | .error e => .error e
  | .ok r =>
    match decodeLoop r.tree.root file.file_length file.content ⟨r.tree.root, 0, []⟩ with
    | .error e => .error e
    | .ok st => .ok st.decompressed_file

/-! ## Vocabulary of the statements

Definitions used to state and prove the properties; none of them is part of the
program. -/

/-- The byte values of positive frequency, in increasing order. -/
def positiveBytes (byte_frequencies : Nat → Int) : List Nat :=
  (List.range 256).filter fun b => decide (byte_frequencies b > 0)

/-- The number of table entries that are positive. -/
def positiveCount (byte_frequencies : Nat → Int) : Nat :=
  (positiveBytes byte_frequencies).length

/-- A full binary tree: every terminal node has no child and every non-terminal
node has both children, which are full. -/
def isFull : BitNodePtr → Bool
  | nullptr => false
  | node _ t _ l r => if t then l.isNull && r.isNull else isFull l && isFull r

/-- The terminal nodes below a pointer, as (byte, frequency) pairs, in the order
in which `GetEncodingMap` visits them. -/
def leafList : BitNodePtr → List (Nat × Int)
  | nullptr => []
  | node f t b l r => (if t then [(b, f)] else []) ++ (leafList l ++ leafList r)

/-- The bytes of the terminal nodes below a pointer. -/
def leafBytes (p : BitNodePtr) : List Nat := (leafList p).map Prod.fst

/-- The (byte, frequency) pairs of the positive table entries. -/
def positiveEntries (byte_frequencies : Nat → Int) : List (Nat × Int) :=
  (positiveBytes byte_frequencies).map fun b => (b, byte_frequencies b)

/-- All leaves of a forest, as a multiset of (byte, frequency) pairs. -/
def forestLeaves (Q : Multiset BitNodePtr) : Multiset (Nat × Int) :=
  (Q.map fun t => (leafList t : Multiset (Nat × Int))).sum

/-- Terminal nodes have no children (non-terminal nodes may lack children). -/
def isProper : BitNodePtr → Bool
  | nullptr => true
  | node _ t _ l r => if t then l.isNull && r.isNull else isProper l && isProper r

/-- The terminal nodes below a pointer with the path leading to each
(`false` = left, `true` = right), in the order `GetEncodingMap` visits them. -/
def pathList : BitNodePtr → List (Nat × List Bool)
  | nullptr => []
  | node _ t b l r =>
    (if t then [(b, [])] else []) ++
      ((pathList l).map (fun kv => (kv.1, false :: kv.2)) ++
       (pathList r).map (fun kv => (kv.1, true :: kv.2)))

/-- Number of nodes below a pointer. -/
def nodeCount : BitNodePtr → Nat
  | nullptr => 0
  | node _ _ _ l r => 1 + nodeCount l + nodeCount r

/-- The tree as `Unflatten` can rebuild it: same nodes, same `terminal` flags,
same byte at every terminal node; every frequency and the byte of every
non-terminal node are the constructor defaults. -/
def skeleton : BitNodePtr → BitNodePtr
  | nullptr => nullptr
  | node _ t b l r => node 0 t (if t then b else 0) (skeleton l) (skeleton r)

/-- Same shape, and the same byte at every terminal node. -/
def sameShape : BitNodePtr → BitNodePtr → Bool
  | nullptr, nullptr => true
  | node _ t1 b1 l1 r1, node _ t2 b2 l2 r2 =>
    (t1 == t2) && (!t1 || b1 == b2) && sameShape l1 l2 && sameShape r1 r2
  | _, _ => false

/-- The assignment made by `Unflatten` when it links node `x` below `s.top()`:
to `left` if that is still null, else to `right`. -/
def attach (R : BitNodePtr) (top : List Bool) (x : BitNodePtr) : BitNodePtr :=
  R.modifyAt (fun p =>
    if !(R.subtree top).left.isNull then p.setRight x else p.setLeft x) top

/-- The concatenation of the codes of the bytes of the file, in order: the bits
that the loop of `compress` sends through the accumulator. -/
def codeBits (encode_map : EncodingMap) (file : List Nat) : List Bool :=
  (file.map fun c => encode_map.get (c % 256)).flatten

/-- State of the packing loop after the bits `bits` went through it. -/
structure PackInv (bits : List Bool) (st : PackState) : Prop where
  index : st.bit_index = bits.length % 8
  count : st.outfile.length = bits.length / 8
  width : st.bit_accumulator.length = 8
  written : ∀ k, k < 8 * (bits.length / 8) →
    (st.outfile.getD (k / 8) 0).testBit (k % 8) = bits.getD k false
  pending : ∀ i, i < 8 → st.bit_accumulator.getD i false =
    (decide (i < bits.length % 8) && bits.getD (8 * (bits.length / 8) + i) false)

/-- The inner loop of `decompress` on the list of bits it reads, together with a
flag telling whether it ended by `break`. -/
def decodeBitList (root : BitNodePtr) (decompressed_file_length : Int) :
    List Bool → DecodeState → Except Fault (DecodeState × Bool)
  | [], st => .ok (st, false)
  | bit :: bs, st =>
    match st.current_node with
    | nullptr => .error .nullDeref
    | node _ _ _ l r =>
      match (if bit then r else l) with
      | nullptr => .error .nullDeref
      | node f t b l1 r1 =>
        if t then
          let written := wrapInt32 (st.decoded_bytes_written + 1)
          let st1 : DecodeState := ⟨root, written, st.decompressed_file ++ [b]⟩
          if written = decompressed_file_length then .ok (st1, true)
          else decodeBitList root decompressed_file_length bs st1
        else
          decodeBitList root decompressed_file_length bs
            ⟨node f t b l1 r1, st.decoded_bytes_written, st.decompressed_file⟩

/-- The eight bits of a byte, bit 0 first. -/
def byteBits (c : Nat) : List Bool := (List.range 8).map fun i => c.testBit i

/-- The codes of a list of bytes, concatenated. -/
def symbolBits (code : Nat → List Bool) (B : List Nat) : List Bool :=
  (B.map code).flatten

/-- From state `st`, the bits `todo` still to be read lead to `final`: no proper
initial part of them faults or breaks, and reading them all, whatever follows
them, ends by `break` in `final`. -/
def Decodes (root : BitNodePtr) (n : Int) (final st : DecodeState)
    (todo : List Bool) : Prop :=
  (∀ xs ys, xs ++ ys = todo → ys ≠ [] →
    ∃ st1, decodeBitList root n xs st = .ok (st1, false)) ∧
  (∀ pad, decodeBitList root n (todo ++ pad) st = .ok (final, true))

/-- Total encoded length of a tree for a frequency table: the sum over the terminal
nodes of the frequency of the byte times the depth of the node. -/
def encodedLength (byte_frequencies : Nat → Int) (p : BitNodePtr) : Int :=
  ((pathList p).map fun kv => byte_frequencies kv.1 * (kv.2.length : Int)).sum

/-- The multisets of leaf depths of full binary trees: a lone root at depth 0, and
any such multiset with one leaf replaced by two leaves one level deeper. -/
inductive KraftFull : Multiset Nat → Prop
  | root : KraftFull {0}
  | split (d : Nat) (M : Multiset Nat) :
      KraftFull (d ::ₘ M) → KraftFull ((d + 1) ::ₘ (d + 1) ::ₘ M)

/-- Cost of a multiset of (weight, depth) pairs. -/
def profileCost (Pr : Multiset (Int × Nat)) : Int :=
  (Pr.map fun e => e.1 * (e.2 : Int)).sum

/-- Sum of the table entries of the bytes at the terminal nodes below a pointer. -/
def subtreeWeight (byte_frequencies : Nat → Int) (t : BitNodePtr) : Int :=
  ((leafBytes t).map byte_frequencies).sum

/-- The (frequency, depth) pairs of the terminal nodes of a tree. -/
def treeProfile (byte_frequencies : Nat → Int) (u : BitNodePtr) : List (Int × Nat) :=
  (pathList u).map fun kv => (byte_frequencies kv.1, kv.2.length)

/-- The invariant of the merge loop behind optimality: node frequencies are exact
sums of leaf frequencies, and the forest can still be completed, with its trees
as leaves, by some full-tree profile, to a total cost of at most `C`. -/
def OptInv (byte_frequencies : Nat → Int) (S C : Int) (Q : Multiset BitNodePtr) : Prop :=
  (∀ t ∈ Q, t.frequency = subtreeWeight byte_frequencies t ∧
    0 < subtreeWeight byte_frequencies t) ∧
  (Q.map (subtreeWeight byte_frequencies)).sum = S ∧
  ∃ Pr : Multiset (Int × Nat), KraftFull (Pr.map Prod.snd) ∧
    Pr.map Prod.fst = Q.map BitNodePtr.frequency ∧
    (Q.map (encodedLength byte_frequencies)).sum + profileCost Pr ≤ C

/-- The tree with every absent child removed: a non-terminal node with a single
subtree is replaced by that subtree. -/
def contract : BitNodePtr → BitNodePtr
  | nullptr => nullptr
  | node f t b l r =>
    if t then node f t b l r
    else
      match contract l, contract r with
      | nullptr, r1 => r1
      | l1, nullptr => l1
      | l1, r1 => node f false b l1 r1

/-- A property of nodes holds at every node below a pointer. -/
def allNodes (q : BitNodePtr → Bool) : BitNodePtr → Bool
  | nullptr => true
  | node f t b l r => q (node f t b l r) && allNodes q l && allNodes q r

/-- The frequency of a non-terminal node is the sum of the frequencies of its
children. -/
def sumOfChildren (p : BitNodePtr) : Bool :=
  p.terminal || decide (p.frequency = p.left.frequency + p.right.frequency)

/-- At a non-terminal node the left child's frequency is at most the right
child's. -/
def leftLeRight (p : BitNodePtr) : Bool :=
  p.terminal || decide (p.left.frequency ≤ p.right.frequency)

/-- Number of nodes on the longest path from a node down to a terminal node. -/
def height : BitNodePtr → Nat
  | nullptr => 0
  | node _ _ _ l r => 1 + max (height l) (height r)

/-- Nesting depth of the calls of a traversal that, like `GetEncodingMap` and
`Erase`, calls itself on both children of every node and returns at once on
`nullptr`. -/
def callDepth : BitNodePtr → Nat
  | nullptr => 1
  | node _ _ _ l r => 1 + max (callDepth l) (callDepth r)

/-- Nesting depth of the calls of `Flatten`, which calls itself on both children
of a non-terminal node only and returns at once on `nullptr`. -/
def flattenDepth : BitNodePtr → Nat
  | nullptr => 1
  | node _ t _ l r => if t then 1 else 1 + max (flattenDepth l) (flattenDepth r)

/-- The tree with the byte of every terminal node replaced through `σ`. -/
def relabel (σ : Nat → Nat) : BitNodePtr → BitNodePtr
  | nullptr => nullptr
  | node f t b l r => node f t (if t then σ b else b) (relabel σ l) (relabel σ r)

/-- The non-terminal node over two subtrees, or no node when both are absent. -/
def fork : BitNodePtr → BitNodePtr → BitNodePtr
  | nullptr, nullptr => nullptr
  | l, r => node 0 false 0 l r

/-- The tree of the fixed-length code for the bytes selected by `keep`, below a
node `d` levels above the terminal nodes: every selected byte from `base` up to
`base + 2^d - 1` is a terminal node at depth `d`, reached by the `d` low bits of
the byte, most significant first; a subtree without selected byte is absent. -/
def fixedTree (keep : Nat → Bool) : Nat → Nat → BitNodePtr
  | 0, base => if keep base then node 0 true base nullptr nullptr else nullptr
  | d + 1, base => fork (fixedTree keep d base) (fixedTree keep d (base + 2 ^ d))

/-! ## A reference priority queue and sample data

An instance of `PriorityQueue` on which the model can be run: the queue is a list,
`top` is the first element of least frequency. -/

/-- First element of least frequency of a non-empty list (`nullptr` for the empty list). -/
def listTop : List BitNodePtr → BitNodePtr
  | [] => nullptr
  | x :: xs =>
    match xs with
    | [] => x
    | _ :: _ => if BitNodePtrComp x (listTop xs) then listTop xs else x

/-- The list without the element selected by `listTop`. -/
def listPop : List BitNodePtr → List BitNodePtr
  | [] => []
  | x :: xs =>
    match xs with
    | [] => []
    | _ :: _ => if BitNodePtrComp x (listTop xs) then x :: listPop xs else xs

/-- The reference priority queue: the queue is the list of its elements, `top`
the first element of least frequency. -/
def listPQ : PriorityQueue where
  Q := List BitNodePtr
  make := fun v => v
  contents := fun q => (q : Multiset BitNodePtr)
  size := List.length
  top := listTop
  pop := listPop
  push := fun q x => x :: q
  contents_make := fun _ => rfl
  size_eq := fun _ => rfl
  top_pop := fun q hq => by
    have key : ∀ l : List BitNodePtr, l ≠ [] → List.Perm (listTop l :: listPop l) l := by
      intro l
      induction l with
      | nil => intro h; exact absurd rfl h
      | cons x xs ih =>
        intro _
        cases xs with
        | nil => exact List.Perm.refl _
        | cons y ys =>
          have ih1 := ih (by simp)
          show List.Perm
            ((if BitNodePtrComp x (listTop (y :: ys)) then listTop (y :: ys) else x) ::
              (if BitNodePtrComp x (listTop (y :: ys)) then x :: listPop (y :: ys)
                else y :: ys)) (x :: y :: ys)
          by_cases hc : BitNodePtrComp x (listTop (y :: ys)) = true
          · rw [if_pos hc, if_pos hc]
            exact (List.Perm.swap _ _ _).trans (List.Perm.cons x ih1)
          · rw [if_neg hc, if_neg hc]
    exact Quot.sound (key q (fun h => hq (by simp [h])))
  top_min := fun q y hy => by
    have key : ∀ l : List BitNodePtr, ∀ z ∈ l, (listTop l).frequency ≤ z.frequency := by
      intro l
      induction l with
      | nil => intro z hz; simp at hz
      | cons x xs ih =>
        intro z hz
        cases xs with
        | nil =>
          simp only [List.mem_singleton] at hz
          subst hz
          exact le_refl _
        | cons y ys =>
          show (if BitNodePtrComp x (listTop (y :: ys)) then listTop (y :: ys)
            else x).frequency ≤ z.frequency
          by_cases hc : BitNodePtrComp x (listTop (y :: ys)) = true
          · rw [if_pos hc]
            rcases List.mem_cons.1 hz with rfl | hz
            · simp only [BitNodePtrComp, decide_eq_true_eq] at hc
              omega
            · exact ih z hz
          · rw [if_neg hc]
            rcases List.mem_cons.1 hz with rfl | hz
            · exact le_refl _
            · have := ih z hz
              simp only [BitNodePtrComp, decide_eq_true_eq] at hc
              omega
    have := key q y (by simpa using hy)
    simpa [BitNodePtrComp] using this
  contents_push := fun _ _ => rfl

/-- Table used to run the model: byte 97 once, byte 98 twice, byte 99 four times. -/
def sampleTable : Nat → Int :=
  fun b => if b = 97 then 1 else if b = 98 then 2 else if b = 99 then 4 else 0

/-- Table with positive entries at the bytes 0x00, `'0'` and `'1'`. -/
def tagByteTable : Nat → Int :=
  fun b => if b = 0 then 3 else if b = 48 then 1 else if b = 49 then 1 else 0

/-- A sample input file. -/
def sampleFile : List Nat := [97, 98, 99, 99, 99, 99, 98]

/-- Table with three entries 2^30 and one entry 2^30 + 1. -/
def largeTable : Nat → Int :=
  fun b => if b = 97 then 1073741824 else if b = 98 then 1073741824
    else if b = 99 then 1073741824 else if b = 100 then 1073741825 else 0

/-- The balanced code tree over the bytes 97, 98, 99, 100. -/
def balancedTree : BitNodePtr :=
  node 0 false 0
    (node 0 false 0 (node 0 true 97 nullptr nullptr) (node 0 true 98 nullptr nullptr))
    (node 0 false 0 (node 0 true 99 nullptr nullptr) (node 0 true 100 nullptr nullptr))

/-- A code tree over the bytes 97, 98, 99. -/
def sampleCodeTree : BitNodePtr :=
  node 0 false 0 (node 0 true 97 nullptr nullptr)
    (node 0 false 0 (node 0 true 98 nullptr nullptr) (node 0 true 99 nullptr nullptr))

/-- The all-zero frequency table. -/
def zeroTable : Nat → Int := fun _ => 0

/-- The table with every entry equal to 1. -/
def onesTable : Nat → Int := fun _ => 1

/-- Table with a single positive entry: byte 97 four times. -/
def singleTable : Nat → Int := fun b => if b = 97 then 4 else 0

/-- Table with five positive entries that sum to 2^32 + 6. -/
def skewTable : Nat → Int :=
  fun b => if b = 97 then 536870913 else if b = 98 then 536870914
    else if b = 99 then 1073741824 else if b = 100 then 1073741825
    else if b = 101 then 1073741826 else 0

/-- Table with the entry 2^b at each of the bytes b = 0, ..., 9. -/
def chainTable : Nat → Int :=
  fun b => if b < 10 then 2 ^ b else 0

/-- A file of 2^32 + 1023 bytes: 2^32 + 1 bytes 0x00, followed by 2^b bytes of
value b for b = 1, ..., 9. -/
def chainFile : List Nat :=
  List.replicate 4294967297 0 ++ (List.replicate 2 1 ++ (List.replicate 4 2 ++
    (List.replicate 8 3 ++ (List.replicate 16 4 ++ (List.replicate 32 5 ++
    (List.replicate 64 6 ++ (List.replicate 128 7 ++ (List.replicate 256 8 ++
    List.replicate 512 9))))))))

/-! ## Invariants of the constructor's merge loop -/

theorem BitNodePtrComp_eq_false {x y : BitNodePtr} :
    BitNodePtrComp x y = false ↔ x.frequency ≤ y.frequency := by
  simp [BitNodePtrComp]

/-- One iteration of the merge loop, seen on the contents of the queue: the two
nodes taken out are least, and they are replaced by their parent. -/
theorem PriorityQueue.merge_step (P : PriorityQueue) (pq : P.Q) (h : 1 < P.size pq) :
    ∃ Q2 : Multiset BitNodePtr,
      P.contents pq = P.top pq ::ₘ P.top (P.pop pq) ::ₘ Q2 ∧
      P.contents (P.pop (P.pop pq)) = Q2 ∧
      (∀ y ∈ P.contents pq, (P.top pq).frequency ≤ y.frequency) ∧
      (∀ y ∈ Q2, (P.top (P.pop pq)).frequency ≤ y.frequency) := by
  have hne : P.contents pq ≠ 0 := by
    intro h0
    rw [P.size_eq, h0] at h
    simp at h
  have h1 := P.top_pop pq hne
  have hcard : Multiset.card (P.contents (P.pop pq)) + 1 = P.size pq := by
    rw [P.size_eq, ← h1, Multiset.card_cons]
  have hne1 : P.contents (P.pop pq) ≠ 0 := by
    intro h0
    rw [h0] at hcard
    simp at hcard
    omega
  have h2 := P.top_pop (P.pop pq) hne1
  refine ⟨P.contents (P.pop (P.pop pq)), ?_, rfl, ?_, ?_⟩
  · rw [h2, h1]
  · intro y hy
    exact BitNodePtrComp_eq_false.1 (P.top_min pq y hy)
  · intro y hy
    apply BitNodePtrComp_eq_false.1
    apply P.top_min (P.pop pq) y
    rw [← h2]
    exact Multiset.mem_cons_of_mem hy

/-- Induction principle for the merge loop: a property of the queue contents that
holds initially and is kept by every merge of two least nodes holds for the
single node left at the end. -/
theorem mergeLoop_invariant (P : PriorityQueue) (I : Multiset BitNodePtr → Prop)
    (hstep : ∀ (l r : BitNodePtr) (Q : Multiset BitNodePtr), I (l ::ₘ r ::ₘ Q) →
      (∀ y ∈ r ::ₘ Q, l.frequency ≤ y.frequency) →
      (∀ y ∈ Q, r.frequency ≤ y.frequency) →
      I (node (wrapInt32 (l.frequency + r.frequency)) false 0 l r ::ₘ Q)) :
    ∀ (fuel : Nat) (pq : P.Q), P.size pq ≤ fuel + 1 → 1 ≤ P.size pq →
      I (P.contents pq) →
      I (P.contents (mergeLoop P fuel pq)) ∧ P.size (mergeLoop P fuel pq) = 1 := by
  intro fuel
  induction fuel with
  | zero =>
    intro pq h1 h2 hI
    exact ⟨hI, by simp only [mergeLoop]; omega⟩
  | succ n ih =>
    intro pq h1 h2 hI
    by_cases hs : 1 < P.size pq
    · obtain ⟨Q2, hc, hq2, hmin1, hmin2⟩ := P.merge_step pq hs
      have hsz : P.size pq = Multiset.card Q2 + 2 := by
        rw [P.size_eq, hc]; simp
      have hnew : P.contents (P.push (P.pop (P.pop pq))
          (node (wrapInt32 ((P.top pq).frequency + (P.top (P.pop pq)).frequency))
            false 0 (P.top pq) (P.top (P.pop pq)))) =
          node (wrapInt32 ((P.top pq).frequency + (P.top (P.pop pq)).frequency))
            false 0 (P.top pq) (P.top (P.pop pq)) ::ₘ Q2 := by
        rw [P.contents_push, hq2]
      have hsz2 : P.size (P.push (P.pop (P.pop pq))
          (node (wrapInt32 ((P.top pq).frequency + (P.top (P.pop pq)).frequency))
            false 0 (P.top pq) (P.top (P.pop pq)))) = Multiset.card Q2 + 1 := by
        rw [P.size_eq, hnew]; simp
      have hI2 := hstep (P.top pq) (P.top (P.pop pq)) Q2 (hc ▸ hI)
        (fun y hy => hmin1 y (by rw [hc]; exact Multiset.mem_cons_of_mem hy)) hmin2
      have := ih _ (by omega) (by omega) (hnew ▸ hI2)
      simpa only [mergeLoop, if_pos hs] using this
    · simp only [mergeLoop, if_neg hs]
      exact ⟨hI, by omega⟩

/-- A queue of size one holds exactly its top element. -/
theorem PriorityQueue.contents_of_size_one (P : PriorityQueue) (pq : P.Q)
    (h : P.size pq = 1) : P.contents pq = {P.top pq} := by
  have hne : P.contents pq ≠ 0 := by
    intro h0
    rw [P.size_eq, h0] at h
    simp at h
  have h1 := P.top_pop pq hne
  have hcard : Multiset.card (P.contents (P.pop pq)) = 0 := by
    have : Multiset.card (P.contents pq) = 1 := by rw [← P.size_eq]; exact h
    rw [← h1, Multiset.card_cons] at this
    omega
  rw [Multiset.card_eq_zero] at hcard
  rw [← h1, hcard]
  rfl

theorem filterMap_leaf_eq (byte_frequencies : Nat → Int) :
    ∀ l : List Nat, (∀ b ∈ l, b < 256) →
      (l.filterMap fun byte =>
        if byte_frequencies byte > 0 then
          some (node (byte_frequencies byte) true (byte % 256) nullptr nullptr)
        else none) =
      (l.filter fun b => decide (byte_frequencies b > 0)).map
        fun b => node (byte_frequencies b) true b nullptr nullptr
  | [], _ => rfl
  | b :: l, h => by
    have hb : b < 256 := h b (List.mem_cons_self _ _)
    have ih := filterMap_leaf_eq byte_frequencies l
      (fun c hc => h c (List.mem_cons_of_mem _ hc))
    by_cases hp : byte_frequencies b > 0
    · simp only [List.filterMap_cons, if_pos hp, List.filter_cons, decide_eq_true hp,
        if_true, List.map_cons, Nat.mod_eq_of_lt hb, ih]
    · simp only [List.filterMap_cons, if_neg hp, List.filter_cons, decide_eq_false hp,
        Bool.false_eq_true, if_false, ih]

theorem leafVector_eq (byte_frequencies : Nat → Int) :
    leafVector byte_frequencies =
      (positiveBytes byte_frequencies).map
        fun b => node (byte_frequencies b) true b nullptr nullptr :=
  filterMap_leaf_eq byte_frequencies (List.range 256) (fun _ hb => List.mem_range.1 hb)

theorem leafVector_length (byte_frequencies : Nat → Int) :
    (leafVector byte_frequencies).length = positiveCount byte_frequencies := by
  rw [positiveCount, leafVector_eq, List.length_map]

/-- Invariant principle for the constructor on a table with at least two positive
entries. -/
theorem ofFrequencies_invariant (P : PriorityQueue) (byte_frequencies : Nat → Int)
    (I : Multiset BitNodePtr → Prop)
    (h2 : 2 ≤ positiveCount byte_frequencies)
    (hinit : I (leafVector byte_frequencies : Multiset BitNodePtr))
    (hstep : ∀ (l r : BitNodePtr) (Q : Multiset BitNodePtr), I (l ::ₘ r ::ₘ Q) →
      (∀ y ∈ r ::ₘ Q, l.frequency ≤ y.frequency) →
      (∀ y ∈ Q, r.frequency ≤ y.frequency) →
      I (node (wrapInt32 (l.frequency + r.frequency)) false 0 l r ::ₘ Q)) :
    I {(HuffmanTree.ofFrequencies P byte_frequencies).root_} := by
  have hsize : P.size (P.make (leafVector byte_frequencies)) =
      positiveCount byte_frequencies := by
    rw [P.size_eq, P.contents_make, Multiset.coe_card, leafVector_length]
  have hI0 : I (P.contents (P.make (leafVector byte_frequencies))) := by
    rw [P.contents_make]; exact hinit
  obtain ⟨hI, h1⟩ := mergeLoop_invariant P I hstep
    (P.size (P.make (leafVector byte_frequencies)))
    (P.make (leafVector byte_frequencies)) (by omega) (by omega) hI0
  rw [P.contents_of_size_one _ h1] at hI
  have : HuffmanTree.ofFrequencies P byte_frequencies =
      ⟨P.top (mergeLoop P (P.size (P.make (leafVector byte_frequencies)))
        (P.make (leafVector byte_frequencies)))⟩ := by
    simp only [HuffmanTree.ofFrequencies]
    rw [if_neg (by omega), if_neg (by omega)]
  rw [this]
  exact hI

/-! ## Shape of the built tree -/

theorem isNull_iff {p : BitNodePtr} : p.isNull = true ↔ p = nullptr := by
  cases p <;> simp [isNull]

theorem mem_positiveBytes {byte_frequencies : Nat → Int} {b : Nat} :
    b ∈ positiveBytes byte_frequencies ↔ b < 256 ∧ byte_frequencies b > 0 := by
  simp [positiveBytes]

theorem positiveBytes_nodup (byte_frequencies : Nat → Int) :
    (positiveBytes byte_frequencies).Nodup :=
  List.Nodup.filter _ (List.nodup_range 256)

theorem forestLeaves_cons (t : BitNodePtr) (Q : Multiset BitNodePtr) :
    forestLeaves (t ::ₘ Q) = (leafList t : Multiset (Nat × Int)) + forestLeaves Q := by
  simp [forestLeaves]

theorem forestLeaves_leafVector (byte_frequencies : Nat → Int) :
    forestLeaves (leafVector byte_frequencies : Multiset BitNodePtr) =
      (positiveEntries byte_frequencies : Multiset (Nat × Int)) := by
  rw [leafVector_eq, positiveEntries]
  induction positiveBytes byte_frequencies with
  | nil => rfl
  | cons b l ih =>
    rw [List.map_cons, List.map_cons, ← Multiset.cons_coe, forestLeaves_cons, ih]
    simp [leafList]

/-- The built tree is full and its leaves are exactly the positive table entries,
each once. -/
theorem ofFrequencies_full_leaves (P : PriorityQueue) (byte_frequencies : Nat → Int)
    (h2 : 2 ≤ positiveCount byte_frequencies) :
    isFull (HuffmanTree.ofFrequencies P byte_frequencies).root_ = true ∧
    List.Perm (leafList (HuffmanTree.ofFrequencies P byte_frequencies).root_)
      (positiveEntries byte_frequencies) := by
  have key := ofFrequencies_invariant P byte_frequencies
    (fun Q => (∀ t ∈ Q, isFull t = true) ∧
      forestLeaves Q = (positiveEntries byte_frequencies : Multiset (Nat × Int)))
    h2 ?_ ?_
  · obtain ⟨hf, hl⟩ := key
    refine ⟨hf _ (Multiset.mem_singleton_self _), ?_⟩
    have : forestLeaves {(HuffmanTree.ofFrequencies P byte_frequencies).root_} =
        (leafList (HuffmanTree.ofFrequencies P byte_frequencies).root_ :
          Multiset (Nat × Int)) := by
      simp [forestLeaves]
    rw [this] at hl
    exact Multiset.coe_eq_coe.1 hl
  · refine ⟨?_, forestLeaves_leafVector byte_frequencies⟩
    intro t ht
    rw [leafVector_eq] at ht
    simp only [Multiset.mem_coe, List.mem_map] at ht
    obtain ⟨b, _, rfl⟩ := ht
    rfl
  · rintro l r Q ⟨hf, hl⟩ _ _
    refine ⟨?_, ?_⟩
    · intro t ht
      rcases Multiset.mem_cons.1 ht with rfl | ht
      · simp only [isFull, Bool.false_eq_true, if_false, Bool.and_eq_true]
        exact ⟨hf _ (Multiset.mem_cons_self _ _),
          hf _ (Multiset.mem_cons_of_mem (Multiset.mem_cons_self _ _))⟩
      · exact hf _ (Multiset.mem_cons_of_mem (Multiset.mem_cons_of_mem ht))
    · rw [← hl, forestLeaves_cons, forestLeaves_cons, forestLeaves_cons]
      simp only [leafList, Bool.false_eq_true, if_false, List.nil_append,
        ← Multiset.coe_add, add_assoc]

theorem PriorityQueue.size_make (P : PriorityQueue) (byte_frequencies : Nat → Int) :
    P.size (P.make (leafVector byte_frequencies)) = positiveCount byte_frequencies := by
  rw [P.size_eq, P.contents_make, Multiset.coe_card, leafVector_length]

/-- With no positive entry the constructor sets `root_ = nullptr`. -/
theorem ofFrequencies_of_count_zero (P : PriorityQueue) (byte_frequencies : Nat → Int)
    (h : positiveCount byte_frequencies = 0) :
    HuffmanTree.ofFrequencies P byte_frequencies = ⟨nullptr⟩ := by
  simp only [HuffmanTree.ofFrequencies]
  rw [if_pos (by rw [P.size_make]; exact h)]

/-- With one positive entry, at byte `b`, the constructor builds a non-terminal
root whose only child is the leaf of `b`, on the left. -/
theorem ofFrequencies_of_count_one (P : PriorityQueue) (byte_frequencies : Nat → Int)
    (b : Nat) (h : positiveBytes byte_frequencies = [b]) :
    HuffmanTree.ofFrequencies P byte_frequencies =
      ⟨node (byte_frequencies b) false 0
        (node (byte_frequencies b) true b nullptr nullptr) nullptr⟩ := by
  have hc : positiveCount byte_frequencies = 1 := by rw [positiveCount, h]; rfl
  have hs := P.size_make byte_frequencies
  rw [hc] at hs
  have htop := P.contents_of_size_one _ hs
  rw [P.contents_make] at htop
  have hlv : leafVector byte_frequencies =
      [node (byte_frequencies b) true b nullptr nullptr] := by
    rw [leafVector_eq, h]; rfl
  have ht : P.top (P.make (leafVector byte_frequencies)) =
      node (byte_frequencies b) true b nullptr nullptr := by
    have hm : (node (byte_frequencies b) true b nullptr nullptr) ∈
        (leafVector byte_frequencies : Multiset BitNodePtr) := by
      rw [hlv]; simp
    rw [htop] at hm
    exact (Multiset.mem_singleton.1 hm).symm
  simp only [HuffmanTree.ofFrequencies]
  rw [if_neg (by omega), if_pos hs, ht]
  rfl

theorem isProper_of_isFull : ∀ p : BitNodePtr, isFull p = true → isProper p = true
  | nullptr, h => by simp [isFull] at h
  | node _ t _ l r, h => by
    cases t
    · simp only [isFull, Bool.false_eq_true, if_false, Bool.and_eq_true] at h
      simp only [isProper, Bool.false_eq_true, if_false, Bool.and_eq_true]
      exact ⟨isProper_of_isFull l h.1, isProper_of_isFull r h.2⟩
    · simpa [isFull, isProper] using h

/-- For every table, terminal nodes of the built tree have no children and the
leaves are exactly the positive table entries, each once. -/
theorem ofFrequencies_proper_leaves (P : PriorityQueue) (byte_frequencies : Nat → Int) :
    isProper (HuffmanTree.ofFrequencies P byte_frequencies).root_ = true ∧
    List.Perm (leafList (HuffmanTree.ofFrequencies P byte_frequencies).root_)
      (positiveEntries byte_frequencies) := by
  by_cases h2 : 2 ≤ positiveCount byte_frequencies
  · obtain ⟨hf, hl⟩ := ofFrequencies_full_leaves P byte_frequencies h2
    exact ⟨isProper_of_isFull _ hf, hl⟩
  · by_cases h0 : positiveCount byte_frequencies = 0
    · rw [ofFrequencies_of_count_zero P _ h0]
      have : positiveBytes byte_frequencies = [] := List.length_eq_zero.1 h0
      simp [isProper, leafList, positiveEntries, this]
    · have h1 : (positiveBytes byte_frequencies).length = 1 := by
        have : positiveCount byte_frequencies = 1 := by omega
        exact this
      obtain ⟨b, hb⟩ := List.length_eq_one.1 h1
      rw [ofFrequencies_of_count_one P _ b hb]
      simp [isProper, leafList, positiveEntries, hb, isNull]

/-! ## The encoding map -/

theorem pathList_map_fst : ∀ p : BitNodePtr, (pathList p).map Prod.fst = leafBytes p
  | nullptr => rfl
  | node f t b l r => by
    have hl := pathList_map_fst l
    have hr := pathList_map_fst r
    simp only [leafBytes] at hl hr ⊢
    cases t <;>
      simp [pathList, leafList, List.map_append, List.map_map, Function.comp_def, hl, hr]

theorem mem_leafBytes_of_mem_pathList {p : BitNodePtr} {k : Nat} {c : List Bool}
    (h : (k, c) ∈ pathList p) : k ∈ leafBytes p := by
  rw [← pathList_map_fst]
  exact List.mem_map_of_mem Prod.fst h

theorem leafBytes_node (f : Int) (t : Bool) (b : Nat) (l r : BitNodePtr) :
    leafBytes (node f t b l r) = (if t then [b] else []) ++ (leafBytes l ++ leafBytes r) := by
  cases t <;> simp [leafBytes, leafList]

/-- What the traversal leaves in the map: keys outside the subtree are untouched. -/
theorem GetEncodingMapHelper_not_mem : ∀ (p : BitNodePtr) (encoded : List Bool)
    (map : EncodingMap) (k : Nat), k ∉ leafBytes p →
    GetEncodingMapHelper p encoded map k = map k
  | nullptr, _, _, _, _ => rfl
  | node f t b l r, encoded, map, k, h => by
    rw [leafBytes_node] at h
    simp only [List.mem_append, not_or] at h
    simp only [GetEncodingMapHelper]
    rw [GetEncodingMapHelper_not_mem r _ _ k h.2.2,
      GetEncodingMapHelper_not_mem l _ _ k h.2.1]
    cases t
    · simp
    · have : k ≠ b := by simpa using h.1
      simp [EncodingMap.assign, this]

/-- What the traversal leaves in the map: the byte of each terminal node is mapped
to the path accumulated on the way to it, provided no byte occurs twice. -/
theorem GetEncodingMapHelper_mem : ∀ (p : BitNodePtr) (encoded : List Bool)
    (map : EncodingMap) (k : Nat) (c : List Bool), (leafBytes p).Nodup →
    (k, c) ∈ pathList p →
    GetEncodingMapHelper p encoded map k = some (encoded ++ c)
  | nullptr, _, _, _, _, _, h => by simp [pathList] at h
  | node f t b l r, encoded, map, k, c, hnd, h => by
    rw [leafBytes_node] at hnd
    have hnd2 := (List.nodup_append.1 hnd).2.1
    have hdis1 := (List.nodup_append.1 hnd).2.2
    have hndl := (List.nodup_append.1 hnd2).1
    have hndr := (List.nodup_append.1 hnd2).2.1
    have hdis2 := (List.nodup_append.1 hnd2).2.2
    simp only [pathList, List.mem_append, List.mem_map, Prod.mk.injEq] at h
    simp only [GetEncodingMapHelper]
    rcases h with h | h | h
    · cases t
      · simp at h
      · simp only [if_true, List.mem_singleton, Prod.mk.injEq] at h
        obtain ⟨rfl, rfl⟩ := h
        have hkl : k ∉ leafBytes l := fun hm =>
          hdis1 (by simp) (List.mem_append_left _ hm)
        have hkr : k ∉ leafBytes r := fun hm =>
          hdis1 (by simp) (List.mem_append_right _ hm)
        rw [GetEncodingMapHelper_not_mem r _ _ k hkr,
          GetEncodingMapHelper_not_mem l _ _ k hkl]
        simp [EncodingMap.assign]
    · obtain ⟨⟨k1, c1⟩, hm, rfl, rfl⟩ := h
      have hkl : k1 ∈ leafBytes l := mem_leafBytes_of_mem_pathList hm
      have hkr : k1 ∉ leafBytes r := fun hm2 => hdis2 hkl hm2
      rw [GetEncodingMapHelper_not_mem r _ _ k1 hkr,
        GetEncodingMapHelper_mem l _ _ k1 c1 hndl hm]
      simp
    · obtain ⟨⟨k1, c1⟩, hm, rfl, rfl⟩ := h
      rw [GetEncodingMapHelper_mem r _ _ k1 c1 hndr hm]
      simp

theorem subtree_nullptr (c : List Bool) : subtree nullptr c = nullptr := by
  cases c <;> rfl

/-- In a tree whose terminal nodes have no children, the path recorded for a
terminal node leads to it, and every proper initial part of the path leads to a
non-terminal node. -/
theorem subtree_of_mem_pathList : ∀ (p : BitNodePtr) (k : Nat) (c : List Bool),
    isProper p = true → (k, c) ∈ pathList p →
    (∃ f, subtree p c = node f true k nullptr nullptr) ∧
    ∀ q : List Bool, q <+: c → q ≠ c →
      (subtree p q).isNull = false ∧ (subtree p q).terminal = false
  | nullptr, _, _, _, h => by simp [pathList] at h
  | node f t b l r, k, c, hp, h => by
    simp only [pathList, List.mem_append, List.mem_map, Prod.mk.injEq] at h
    cases t
    · simp only [isProper, Bool.false_eq_true, if_false, Bool.and_eq_true] at hp
      simp only [Bool.false_eq_true, if_false, List.not_mem_nil, false_or] at h
      rcases h with h | h
      · obtain ⟨⟨k1, c1⟩, hm, rfl, rfl⟩ := h
        obtain ⟨h1, h2⟩ := subtree_of_mem_pathList l k1 c1 hp.1 hm
        refine ⟨by simpa [subtree] using h1, ?_⟩
        intro q hq hne
        cases q with
        | nil => simp [subtree, isNull, terminal]
        | cons d q1 =>
          obtain ⟨rfl, hq1⟩ := List.cons_prefix_cons.1 hq
          have := h2 q1 hq1 (fun he => hne (by rw [he]))
          simpa [subtree] using this
      · obtain ⟨⟨k1, c1⟩, hm, rfl, rfl⟩ := h
        obtain ⟨h1, h2⟩ := subtree_of_mem_pathList r k1 c1 hp.2 hm
        refine ⟨by simpa [subtree] using h1, ?_⟩
        intro q hq hne
        cases q with
        | nil => simp [subtree, isNull, terminal]
        | cons d q1 =>
          obtain ⟨rfl, hq1⟩ := List.cons_prefix_cons.1 hq
          have := h2 q1 hq1 (fun he => hne (by rw [he]))
          simpa [subtree] using this
    · simp only [isProper, if_true, Bool.and_eq_true, isNull_iff] at hp
      obtain ⟨rfl, rfl⟩ := hp
      simp only [pathList, List.map_nil, List.append_nil, if_true, List.mem_singleton,
        Prod.mk.injEq, List.not_mem_nil, false_and, exists_false, or_false] at h
      obtain ⟨rfl, rfl⟩ := h
      refine ⟨⟨f, rfl⟩, ?_⟩
      intro q hq hne
      exact absurd (List.prefix_nil.1 hq) hne

/-- The map returned for a tree without repeated bytes holds exactly the recorded
paths. -/
theorem GetEncodingMap_eq_some_iff (p : BitNodePtr) (hnd : (leafBytes p).Nodup)
    (k : Nat) (c : List Bool) :
    GetEncodingMapHelper p [] (fun _ => none) k = some c ↔ (k, c) ∈ pathList p := by
  constructor
  · intro h
    by_cases hk : k ∈ leafBytes p
    · rw [← pathList_map_fst] at hk
      obtain ⟨⟨k1, c1⟩, hm, rfl⟩ := List.mem_map.1 hk
      have := GetEncodingMapHelper_mem p [] (fun _ => none) k1 c1 hnd hm
      rw [h] at this
      simp only [List.nil_append, Option.some.injEq] at this
      rw [this]; exact hm
    · rw [GetEncodingMapHelper_not_mem p [] _ k hk] at h
      exact absurd h (by simp)
  · intro h
    simpa using GetEncodingMapHelper_mem p [] (fun _ => none) k c hnd h

theorem ofFrequencies_leafBytes_perm (P : PriorityQueue) (byte_frequencies : Nat → Int) :
    List.Perm (leafBytes (HuffmanTree.ofFrequencies P byte_frequencies).root_)
      (positiveBytes byte_frequencies) := by
  have h := ((ofFrequencies_proper_leaves P byte_frequencies).2).map Prod.fst
  have e : (positiveEntries byte_frequencies).map Prod.fst =
      positiveBytes byte_frequencies := by
    simp [positiveEntries, List.map_map, Function.comp_def]
  rw [e] at h
  exact h

theorem ofFrequencies_leafBytes_nodup (P : PriorityQueue) (byte_frequencies : Nat → Int) :
    (leafBytes (HuffmanTree.ofFrequencies P byte_frequencies).root_).Nodup :=
  (ofFrequencies_leafBytes_perm P byte_frequencies).nodup_iff.2
    (positiveBytes_nodup byte_frequencies)

/-- The encoding map of the built tree maps `k` to `c` exactly when a terminal
node with byte `k` was recorded with path `c`. -/
theorem ofFrequencies_map_iff (P : PriorityQueue) (byte_frequencies : Nat → Int)
    (k : Nat) (c : List Bool) :
    (HuffmanTree.ofFrequencies P byte_frequencies).GetEncodingMap k = some c ↔
      (k, c) ∈ pathList (HuffmanTree.ofFrequencies P byte_frequencies).root_ :=
  GetEncodingMap_eq_some_iff _ (ofFrequencies_leafBytes_nodup P byte_frequencies) k c

/-! ## Claims about the encoding map -/

/-- C3: for every frequency table with at least two positive entries, the map
returned by `GetEncodingMap` for the built tree is a prefix code: for two distinct
keys `a` and `b`, the code of `a` is neither an initial part of the code of `b`
nor equal to it. -/
theorem C3_prefix_code (P : PriorityQueue) (byte_frequencies : Nat → Int)
    (h2 : 2 ≤ positiveCount byte_frequencies) (a b : Nat) (ca cb : List Bool)
    (ha : (HuffmanTree.ofFrequencies P byte_frequencies).GetEncodingMap a = some ca)
    (hb : (HuffmanTree.ofFrequencies P byte_frequencies).GetEncodingMap b = some cb)
    (hab : a ≠ b) : ¬ ca <+: cb := by
  have _ := h2
  intro hpre
  have hp := (ofFrequencies_proper_leaves P byte_frequencies).1
  obtain ⟨⟨fa, hla⟩, _⟩ := subtree_of_mem_pathList _ a ca hp
    ((ofFrequencies_map_iff P byte_frequencies a ca).1 ha)
  obtain ⟨⟨fb, hlb⟩, hproper⟩ := subtree_of_mem_pathList _ b cb hp
    ((ofFrequencies_map_iff P byte_frequencies b cb).1 hb)
  by_cases he : ca = cb
  · rw [he, hlb] at hla
    injection hla with _ _ h3
    exact hab h3.symm
  · have := (hproper ca hpre he).2
    rw [hla] at this
    simp [terminal] at this

/-- C3 at the table `sampleTable`, for the keys 97 and 99. -/
theorem C3_prefix_code_witness :
    2 ≤ positiveCount sampleTable ∧
    (HuffmanTree.ofFrequencies listPQ sampleTable).GetEncodingMap 97 = some [false, false] ∧
    (HuffmanTree.ofFrequencies listPQ sampleTable).GetEncodingMap 99 = some [true] ∧
    97 ≠ 99 ∧ ¬ [false, false] <+: [true] :=
  ⟨by decide, by decide, by decide, by decide,
    C3_prefix_code listPQ sampleTable (by decide) 97 99 [false, false] [true]
      (by decide) (by decide) (by decide)⟩

/-- C5: for every tree built by the constructor from a frequency table and every
key `b` of the map returned by `GetEncodingMap`, following the bits of the code of
`b` from the root (bit 0 to the left child, bit 1 to the right child) ends exactly
at the childless terminal node whose byte is `b`, and every node met before the
last step exists and is non-terminal. -/
theorem C5_code_leads_to_leaf (P : PriorityQueue) (byte_frequencies : Nat → Int)
    (b : Nat) (c : List Bool)
    (hb : (HuffmanTree.ofFrequencies P byte_frequencies).GetEncodingMap b = some c) :
    (∃ f, (HuffmanTree.ofFrequencies P byte_frequencies).root.subtree c =
        node f true b nullptr nullptr) ∧
    ∀ q : List Bool, q <+: c → q ≠ c →
      ((HuffmanTree.ofFrequencies P byte_frequencies).root.subtree q).isNull = false ∧
      ((HuffmanTree.ofFrequencies P byte_frequencies).root.subtree q).terminal = false :=
  subtree_of_mem_pathList _ b c (ofFrequencies_proper_leaves P byte_frequencies).1
    ((ofFrequencies_map_iff P byte_frequencies b c).1 hb)

/-- C5 at the table `sampleTable`, for the key 98. -/
theorem C5_code_leads_to_leaf_witness :
    (HuffmanTree.ofFrequencies listPQ sampleTable).GetEncodingMap 98 = some [false, true] ∧
    ((∃ f, (HuffmanTree.ofFrequencies listPQ sampleTable).root.subtree [false, true] =
        node f true 98 nullptr nullptr) ∧
    ∀ q : List Bool, q <+: [false, true] → q ≠ [false, true] →
      ((HuffmanTree.ofFrequencies listPQ sampleTable).root.subtree q).isNull = false ∧
      ((HuffmanTree.ofFrequencies listPQ sampleTable).root.subtree q).terminal = false) :=
  ⟨by decide, C5_code_leads_to_leaf listPQ sampleTable 98 [false, true] (by decide)⟩

/-- The keys of the encoding map of the built tree are the byte values whose table
entry is positive. -/
theorem mapKeys_iff_positive (P : PriorityQueue) (byte_frequencies : Nat → Int)
    (b : Nat) (hb : b < 256) :
    ((HuffmanTree.ofFrequencies P byte_frequencies).GetEncodingMap b).isSome = true ↔
      byte_frequencies b > 0 := by
  have hperm := ofFrequencies_leafBytes_perm P byte_frequencies
  have hnd := ofFrequencies_leafBytes_nodup P byte_frequencies
  constructor
  · intro h
    obtain ⟨c, hc⟩ := Option.isSome_iff_exists.1 h
    have hm := mem_leafBytes_of_mem_pathList
      ((ofFrequencies_map_iff P byte_frequencies b c).1 hc)
    exact (mem_positiveBytes.1 (hperm.mem_iff.1 hm)).2
  · intro h
    have hm : b ∈ leafBytes (HuffmanTree.ofFrequencies P byte_frequencies).root_ :=
      hperm.mem_iff.2 (mem_positiveBytes.2 ⟨hb, h⟩)
    rw [← pathList_map_fst] at hm
    obtain ⟨⟨k1, c1⟩, hm1, rfl⟩ := List.mem_map.1 hm
    rw [(ofFrequencies_map_iff P byte_frequencies k1 c1).2 hm1]
    rfl

/-- C6: for every 256-entry frequency table, a byte value is a key of the encoding
map derived from the built tree if and only if its frequency in the table is
greater than zero. -/
theorem C6_keys_iff_positive (P : PriorityQueue) (byte_frequencies : Nat → Int)
    (b : Nat) (hb : b < 256) :
    ((HuffmanTree.ofFrequencies P byte_frequencies).GetEncodingMap b).isSome = true ↔
      byte_frequencies b > 0 :=
  mapKeys_iff_positive P byte_frequencies b hb

/-- C6 at the table `sampleTable`, for the byte 97. -/
theorem C6_keys_iff_positive_witness :
    97 < 256 ∧
    (((HuffmanTree.ofFrequencies listPQ sampleTable).GetEncodingMap 97).isSome = true ↔
      sampleTable 97 > 0) :=
  ⟨by decide, C6_keys_iff_positive listPQ sampleTable 97 (by decide)⟩

/-! ## Flatten and Unflatten -/

theorem sameShape_skeleton : ∀ p : BitNodePtr, sameShape (skeleton p) p = true
  | nullptr => rfl
  | node _ t b l r => by
    cases t <;> simp [skeleton, sameShape, sameShape_skeleton l, sameShape_skeleton r]

theorem FlattenHelper_append : ∀ (p : BitNodePtr) (encoding : List Nat),
    FlattenHelper p encoding = encoding ++ FlattenHelper p []
  | nullptr, encoding => by simp [FlattenHelper]
  | node _ t b l r, encoding => by
    cases t
    · simp only [FlattenHelper, Bool.false_eq_true, if_false]
      rw [FlattenHelper_append r (FlattenHelper l (encoding ++ [48])),
        FlattenHelper_append l (encoding ++ [48]),
        FlattenHelper_append r (FlattenHelper l ([] ++ [48])),
        FlattenHelper_append l ([] ++ [48])]
      simp
    · simp [FlattenHelper]

theorem FlattenHelper_terminal (f : Int) (b : Nat) (l r : BitNodePtr) :
    FlattenHelper (node f true b l r) [] = [49, b] := by
  simp [FlattenHelper]

theorem FlattenHelper_inner (f : Int) (b : Nat) (l r : BitNodePtr) :
    FlattenHelper (node f false b l r) [] =
      48 :: (FlattenHelper l [] ++ FlattenHelper r []) := by
  simp only [FlattenHelper, Bool.false_eq_true, if_false]
  rw [FlattenHelper_append r, FlattenHelper_append l]
  simp

theorem nodeCount_le_flatten : ∀ p : BitNodePtr, isFull p = true →
    nodeCount p ≤ (FlattenHelper p []).length
  | nullptr, h => by simp [isFull] at h
  | node f t b l r, h => by
    cases t
    · simp only [isFull, Bool.false_eq_true, if_false, Bool.and_eq_true] at h
      have hl := nodeCount_le_flatten l h.1
      have hr := nodeCount_le_flatten r h.2
      rw [FlattenHelper_inner]
      simp only [nodeCount, List.length_cons, List.length_append]
      omega
    · simp only [isFull, if_true, Bool.and_eq_true, isNull_iff] at h
      obtain ⟨rfl, rfl⟩ := h
      simp [FlattenHelper_terminal, nodeCount]

theorem readChar_append (before after : List Nat) (c : Nat) :
    readChar (before ++ c :: after) before.length = .ok (c, false) := by
  have hget : (before ++ c :: after).getD before.length 0 = c := by
    rw [List.getD_eq_getElem?_getD, List.getElem?_append_right (le_refl _)]
    simp
  simp only [readChar, List.length_append, List.length_cons]
  rw [if_pos (by omega), hget]

theorem subtree_modifyAt_append (g : BitNodePtr → BitNodePtr) :
    ∀ (p : List Bool) (R : BitNodePtr) (q : List Bool), (R.subtree p).isNull = false →
      subtree (modifyAt g R p) (p ++ q) = subtree (g (R.subtree p)) q
  | [], R, q, _ => by simp [modifyAt, subtree]
  | d :: ps, nullptr, q, h => by simp [subtree, isNull] at h
  | d :: ps, node f t b l r, q, h => by
    cases d
    · simp only [subtree, Bool.false_eq_true, if_false] at h
      simpa [modifyAt, subtree] using subtree_modifyAt_append g ps l q h
    · simp only [subtree, if_true] at h
      simpa [modifyAt, subtree] using subtree_modifyAt_append g ps r q h

theorem modifyAt_modifyAt_append (g h : BitNodePtr → BitNodePtr) :
    ∀ (p : List Bool) (R : BitNodePtr) (q : List Bool),
      modifyAt g (modifyAt h R p) (p ++ q) = modifyAt (fun x => modifyAt g (h x) q) R p
  | [], R, q => by simp [modifyAt]
  | d :: ps, nullptr, q => by simp [modifyAt]
  | d :: ps, node f t b l r, q => by
    cases d
    · simp [modifyAt, modifyAt_modifyAt_append g h ps l q]
    · simp [modifyAt, modifyAt_modifyAt_append g h ps r q]

theorem modifyAt_attach (g : BitNodePtr → BitNodePtr) (R : BitNodePtr) (top : List Bool)
    (x : BitNodePtr) :
    modifyAt g (attach R top x) (top ++ [!(R.subtree top).left.isNull]) =
      attach R top (g x) := by
  unfold attach
  rw [modifyAt_modifyAt_append]
  congr 1
  funext p
  cases p with
  | nullptr => cases (R.subtree top).left.isNull <;> simp [setLeft, setRight, modifyAt]
  | node f t b l r =>
    cases (R.subtree top).left.isNull <;> simp [setLeft, setRight, modifyAt]

theorem subtree_attach_child (R : BitNodePtr) (top : List Bool) (x : BitNodePtr)
    (h : (R.subtree top).isNull = false) :
    subtree (attach R top x) (top ++ [!(R.subtree top).left.isNull]) = x := by
  unfold attach
  rw [subtree_modifyAt_append _ top R _ h]
  cases hR : R.subtree top with
  | nullptr => rw [hR] at h; simp [isNull] at h
  | node f t b l r =>
    cases hl : l.isNull <;> simp [left, hl, setLeft, setRight, subtree]

theorem subtree_attach_self (R : BitNodePtr) (top : List Bool) (x : BitNodePtr)
    (f : Int) (t : Bool) (b : Nat) (L : BitNodePtr)
    (h : R.subtree top = node f t b L nullptr) :
    subtree (attach R top x) top =
      if L.isNull then node f t b x nullptr else node f t b L x := by
  have hn : (R.subtree top).isNull = false := by rw [h]; rfl
  have := subtree_modifyAt_append
    (fun p => if !(R.subtree top).left.isNull then p.setRight x else p.setLeft x)
    top R [] hn
  rw [List.append_nil] at this
  unfold attach
  rw [this, h]
  cases hl : L.isNull <;> simp [left, hl, setLeft, setRight, subtree]

theorem unwind_keep (root : BitNodePtr) (top : List Bool) (rest : List (List Bool))
    (h : (root.subtree top).right.isNull = true) :
    unwind root (top :: rest) = top :: rest := by
  simp only [unwind]
  rw [if_pos h]

theorem unwind_pop (root : BitNodePtr) (top : List Bool) (rest : List (List Bool))
    (h : (root.subtree top).right.isNull = false) :
    unwind root (top :: rest) = unwind root rest := by
  simp only [unwind]
  rw [if_neg (by simp [h])]

theorem UnflattenLoop_succ (encoding : List Nat) (fuel : Nat) (st st1 : UnflattenState)
    (hs : st.s ≠ []) (hit : st.it ≠ encoding.length)
    (hb : UnflattenBody encoding st = .ok st1) :
    UnflattenLoop encoding (fuel + 1) st = UnflattenLoop encoding fuel st1 := by
  simp only [UnflattenLoop]
  rw [if_pos ⟨hs, hit⟩, hb]

theorem UnflattenLoop_done (encoding : List Nat) (fuel : Nat) (st : UnflattenState)
    (h : st.s = [] ∨ st.it = encoding.length) :
    UnflattenLoop encoding fuel st = .ok st := by
  have hc : ¬ (st.s ≠ [] ∧ st.it ≠ encoding.length) := by
    rintro ⟨h1, h2⟩
    rcases h with h | h
    · exact h1 h
    · exact h2 h
  cases fuel <;> simp only [UnflattenLoop] <;> rw [if_neg hc]

/-- The body of the loop at a `'1'` tag followed by its symbol byte. -/
theorem UnflattenBody_terminal (before after : List Nat) (b : Nat) (R : BitNodePtr)
    (top : List Bool) (rest : List (List Bool)) (e : Bool) :
    UnflattenBody (before ++ 49 :: b :: after) ⟨R, top :: rest, before.length, e⟩ =
      .ok ⟨attach R top (node 0 true b nullptr nullptr),
        unwind (attach R top (node 0 true b nullptr nullptr)) (top :: rest),
        before.length + 2, e⟩ := by
  have h1 := readChar_append before (b :: after) 49
  have h2 : readChar (before ++ 49 :: b :: after) (before.length + 1) = .ok (b, false) := by
    have := readChar_append (before ++ [49]) after b
    simpa using this
  have h3 := modifyAt_attach (fun p => (p.setTerminal true).setByte b) R top newBitNode
  simp only [UnflattenBody, h1, h2]
  simp only [attach] at h3 ⊢
  simp only [show (49 : Nat) = 48 ↔ False by decide, if_false, if_true, h3]
  simp [newBitNode, setTerminal, setByte]

/-- The body of the loop at a `'0'` tag. -/
theorem UnflattenBody_inner (before after : List Nat) (R : BitNodePtr)
    (top : List Bool) (rest : List (List Bool)) (e : Bool)
    (h : (R.subtree top).isNull = false) :
    UnflattenBody (before ++ 48 :: after) ⟨R, top :: rest, before.length, e⟩ =
      .ok ⟨attach R top (node 0 false 0 nullptr nullptr),
        (top ++ [!(R.subtree top).left.isNull]) :: top :: rest,
        before.length + 1, e⟩ := by
  have h1 := readChar_append before after 48
  have h3 := modifyAt_attach (fun p => p.setTerminal false) R top newBitNode
  have h4 := subtree_attach_child R top (node 0 false 0 nullptr nullptr) h
  have h5 : (newBitNode.setTerminal false) = node 0 false 0 nullptr nullptr := rfl
  rw [h5] at h3
  simp only [UnflattenBody, h1]
  simp only [attach] at h3 h4 ⊢
  simp only [show (48 : Nat) = 49 ↔ False by decide, if_false, if_true, h3]
  rw [unwind_keep _ _ _ (by rw [h4]; rfl)]
  simp

theorem skeleton_isNull_of_isFull (t : BitNodePtr) (h : isFull t = true) :
    (skeleton t).isNull = false := by
  cases t with
  | nullptr => simp [isFull] at h
  | node f t b l r => rfl

theorem attach_of_left_null (R : BitNodePtr) (top : List Bool) (x : BitNodePtr)
    (h : (R.subtree top).left.isNull = true) :
    attach R top x = modifyAt (fun p => p.setLeft x) R top := by
  unfold attach
  simp [h]

theorem attach_of_left_node (R : BitNodePtr) (top : List Bool) (x : BitNodePtr)
    (h : (R.subtree top).left.isNull = false) :
    attach R top x = modifyAt (fun p => p.setRight x) R top := by
  unfold attach
  simp [h]

theorem attach_child_left (R : BitNodePtr) (top : List Bool) (x y : BitNodePtr)
    (hR : (R.subtree top).isNull = false) (hx : x.left.isNull = true) :
    attach (attach R top x) (top ++ [!(R.subtree top).left.isNull]) y =
      attach R top (x.setLeft y) := by
  have h1 := subtree_attach_child R top x hR
  have h2 := modifyAt_attach (fun p => p.setLeft y) R top x
  rw [attach_of_left_null _ _ _ (by rw [h1]; exact hx)]
  exact h2

theorem attach_child_right (R : BitNodePtr) (top : List Bool) (x y : BitNodePtr)
    (hR : (R.subtree top).isNull = false) (hx : x.left.isNull = false) :
    attach (attach R top x) (top ++ [!(R.subtree top).left.isNull]) y =
      attach R top (x.setRight y) := by
  have h1 := subtree_attach_child R top x hR
  have h2 := modifyAt_attach (fun p => p.setRight y) R top x
  rw [attach_of_left_node _ _ _ (by rw [h1]; exact hx)]
  exact h2

/-- Reading the flattened form of a full subtree `t` links the rebuilt `t` below
the node on top of the stack and consumes exactly the characters of `t`. -/
theorem UnflattenLoop_subtree (encoding : List Nat) : ∀ (t : BitNodePtr),
    isFull t = true →
    ∀ (R : BitNodePtr) (top : List Bool) (rest : List (List Bool)) (e : Bool)
      (fuel it : Nat) (before after : List Nat),
      encoding = before ++ (FlattenHelper t [] ++ after) → it = before.length →
      (R.subtree top).isNull = false → (R.subtree top).right.isNull = true →
      UnflattenLoop encoding (fuel + nodeCount t) ⟨R, top :: rest, it, e⟩ =
        UnflattenLoop encoding fuel
          ⟨attach R top (skeleton t), unwind (attach R top (skeleton t)) (top :: rest),
            it + (FlattenHelper t []).length, e⟩
  | nullptr, h => by simp [isFull] at h
  | node f true b l r, h => by
    intro R top rest e fuel it before after henc hit hR _
    simp only [isFull, if_true, Bool.and_eq_true, isNull_iff] at h
    obtain ⟨rfl, rfl⟩ := h
    rw [FlattenHelper_terminal] at henc ⊢
    subst hit
    have henc2 : encoding = before ++ 49 :: b :: after := by rw [henc]; simp
    subst henc2
    have hb := UnflattenBody_terminal before after b R top rest e
    have := UnflattenLoop_succ (before ++ 49 :: b :: after) fuel _ _
      (by simp) (by simp) hb
    simpa [nodeCount, skeleton] using this
  | node f false b l r, h => by
    intro R top rest e fuel it before after henc hit hR hRr
    simp only [isFull, Bool.false_eq_true, if_false, Bool.and_eq_true] at h
    obtain ⟨hfl, hfr⟩ := h
    rw [FlattenHelper_inner] at henc ⊢
    subst hit
    have henc2 : encoding =
        before ++ 48 :: (FlattenHelper l [] ++ (FlattenHelper r [] ++ after)) := by
      rw [henc]; simp
    have hb := UnflattenBody_inner before
      (FlattenHelper l [] ++ (FlattenHelper r [] ++ after)) R top rest e hR
    rw [← henc2] at hb
    have hfuel : fuel + nodeCount (node f false b l r) =
        (fuel + nodeCount r + nodeCount l) + 1 := by
      simp only [nodeCount]; omega
    rw [hfuel, UnflattenLoop_succ encoding _ _ _ (by simp)
      (by rw [henc2]; simp) hb]
    -- the left subtree
    have hsub1 := subtree_attach_child R top (node 0 false 0 nullptr nullptr) hR
    have ih1 := UnflattenLoop_subtree encoding l hfl
      (attach R top (node 0 false 0 nullptr nullptr))
      (top ++ [!(R.subtree top).left.isNull]) (top :: rest) e (fuel + nodeCount r)
      (before.length + 1) (before ++ [48]) (FlattenHelper r [] ++ after)
      (by rw [henc2]; simp) (by simp) (by rw [hsub1]; rfl) (by rw [hsub1]; rfl)
    rw [ih1]
    have ha1 := attach_child_left R top (node 0 false 0 nullptr nullptr) (skeleton l) hR rfl
    rw [ha1]
    have hsub2 := subtree_attach_child R top
      ((node 0 false 0 nullptr nullptr).setLeft (skeleton l)) hR
    rw [unwind_keep _ _ _ (by rw [hsub2]; rfl)]
    -- the right subtree
    have ih2 := UnflattenLoop_subtree encoding r hfr
      (attach R top ((node 0 false 0 nullptr nullptr).setLeft (skeleton l)))
      (top ++ [!(R.subtree top).left.isNull]) (top :: rest) e fuel
      (before.length + 1 + (FlattenHelper l []).length)
      (before ++ [48] ++ FlattenHelper l []) after
      (by rw [henc2]; simp) (by simp; omega) (by rw [hsub2]; rfl) (by rw [hsub2]; rfl)
    rw [ih2]
    have ha2 := attach_child_right R top
      ((node 0 false 0 nullptr nullptr).setLeft (skeleton l)) (skeleton r) hR
      (skeleton_isNull_of_isFull l hfl)
    rw [ha2]
    have hsub3 := subtree_attach_child R top
      (((node 0 false 0 nullptr nullptr).setLeft (skeleton l)).setRight (skeleton r)) hR
    rw [unwind_pop _ _ _ (by rw [hsub3]; exact skeleton_isNull_of_isFull r hfr)]
    simp only [skeleton, setLeft, setRight, Bool.false_eq_true, if_false,
      List.length_cons, List.length_append]
    congr 2
    omega

/-- `Unflatten` applied to the flattened form of a full tree with a non-terminal
root rebuilds the tree and prints no error. -/
theorem Unflatten_Flatten_of_full (f : Int) (b : Nat) (l r : BitNodePtr)
    (hl : isFull l = true) (hr : isFull r = true) :
    Unflatten (FlattenHelper (node f false b l r) []) =
      .ok ⟨⟨node 0 false 0 (skeleton l) (skeleton r)⟩, false, false, false⟩ := by
  have henc := FlattenHelper_inner f b l r
  have hread : readChar (FlattenHelper (node f false b l r) []) 0 = .ok (48, false) := by
    rw [henc]
    exact readChar_append [] _ 48
  have hlen : (FlattenHelper (node f false b l r) []).length =
      1 + (FlattenHelper l []).length + (FlattenHelper r []).length := by
    rw [henc]; simp; omega
  have hcl := nodeCount_le_flatten l hl
  have hcr := nodeCount_le_flatten r hr
  obtain ⟨k, hk⟩ : ∃ k, (FlattenHelper (node f false b l r) []).length + 1 =
      k + nodeCount r + nodeCount l := ⟨(FlattenHelper (node f false b l r) []).length + 1
        - nodeCount r - nodeCount l, by omega⟩
  have s1 := UnflattenLoop_subtree (FlattenHelper (node f false b l r) []) l hl
    (node 0 false 0 nullptr nullptr) [] [] false (k + nodeCount r) 1 [48]
    (FlattenHelper r []) (by rw [henc]; simp) rfl rfl rfl
  have a1 : attach (node 0 false 0 nullptr nullptr) [] (skeleton l) =
      node 0 false 0 (skeleton l) nullptr := by
    simp [attach, subtree, modifyAt, left, isNull, setLeft]
  rw [a1, unwind_keep _ _ _ (by rfl)] at s1
  have s2 := UnflattenLoop_subtree (FlattenHelper (node f false b l r) []) r hr
    (node 0 false 0 (skeleton l) nullptr) [] [] false k
    (1 + (FlattenHelper l []).length) (48 :: FlattenHelper l []) []
    (by rw [henc]; simp) (by simp; omega) rfl rfl
  have a2 : attach (node 0 false 0 (skeleton l) nullptr) [] (skeleton r) =
      node 0 false 0 (skeleton l) (skeleton r) := by
    have := skeleton_isNull_of_isFull l hl
    simp [attach, subtree, modifyAt, left, this, setRight]
  rw [a2, unwind_pop _ _ _ (by
    simp only [subtree, right]; exact skeleton_isNull_of_isFull r hr)] at s2
  simp only [unwind] at s2
  rw [UnflattenLoop_done _ k ⟨node 0 false 0 (skeleton l) (skeleton r), [],
    1 + (FlattenHelper l []).length + (FlattenHelper r []).length, false⟩
    (Or.inl rfl)] at s2
  simp only [Unflatten, hread, if_true]
  rw [hk]
  simp only [newBitNode, setTerminal]
  rw [s1, s2]
  simp [hlen]

/-- A full tree with at least two terminal nodes has a non-terminal root. -/
theorem isFull_two_leaves (p : BitNodePtr) (hf : isFull p = true)
    (h2 : 2 ≤ (leafList p).length) :
    ∃ f b l r, p = node f false b l r ∧ isFull l = true ∧ isFull r = true := by
  cases p with
  | nullptr => simp [isFull] at hf
  | node f t b l r =>
    cases t
    · simp only [isFull, Bool.false_eq_true, if_false, Bool.and_eq_true] at hf
      exact ⟨f, b, l, r, rfl, hf.1, hf.2⟩
    · simp only [isFull, if_true, Bool.and_eq_true, isNull_iff] at hf
      obtain ⟨rfl, rfl⟩ := hf
      simp [leafList] at h2

theorem ofFrequencies_root_inner (P : PriorityQueue) (byte_frequencies : Nat → Int)
    (h2 : 2 ≤ positiveCount byte_frequencies) :
    ∃ f b l r, (HuffmanTree.ofFrequencies P byte_frequencies).root_ = node f false b l r ∧
      isFull l = true ∧ isFull r = true := by
  obtain ⟨hf, hl⟩ := ofFrequencies_full_leaves P byte_frequencies h2
  apply isFull_two_leaves _ hf
  rw [hl.length_eq, positiveEntries, List.length_map]
  exact h2

/-- C4: for every tree `T` built by the constructor from a frequency table with at
least two positive entries, `Unflatten(Flatten(T))` returns, without printing an
error, a tree with the same shape as `T` and the same byte at every leaf
position; leaf bytes equal to `'0'`, `'1'` or 0x00 are no exception, since
the byte after a `'1'` tag is read as data. -/
theorem C4_unflatten_flatten (P : PriorityQueue) (byte_frequencies : Nat → Int)
    (h2 : 2 ≤ positiveCount byte_frequencies) :
    ∃ res : UnflattenResult,
      Unflatten (HuffmanTree.ofFrequencies P byte_frequencies).Flatten = .ok res ∧
      sameShape res.tree.root (HuffmanTree.ofFrequencies P byte_frequencies).root = true ∧
      res.tooShort = false ∧ res.tooLong = false ∧ res.readEnd = false := by
  obtain ⟨f, b, l, r, hroot, hl, hr⟩ := ofFrequencies_root_inner P byte_frequencies h2
  refine ⟨⟨⟨node 0 false 0 (skeleton l) (skeleton r)⟩, false, false, false⟩, ?_, ?_,
    rfl, rfl, rfl⟩
  · simp only [HuffmanTree.Flatten]
    rw [hroot]
    exact Unflatten_Flatten_of_full f b l r hl hr
  · simp only [HuffmanTree.root]
    rw [hroot]
    exact sameShape_skeleton (node f false b l r)

/-- C4 at the table `tagByteTable`, whose leaves are the bytes 0x00, `'0'` and `'1'`. -/
theorem C4_unflatten_flatten_witness :
    2 ≤ positiveCount tagByteTable ∧
    ∃ res : UnflattenResult,
      Unflatten (HuffmanTree.ofFrequencies listPQ tagByteTable).Flatten = .ok res ∧
      sameShape res.tree.root (HuffmanTree.ofFrequencies listPQ tagByteTable).root = true ∧
      res.tooShort = false ∧ res.tooLong = false ∧ res.readEnd = false :=
  ⟨by decide, C4_unflatten_flatten listPQ tagByteTable (by decide)⟩

/-! ## Bit packing -/

theorem foldl_packByte (encode_map : EncodingMap) : ∀ (file : List Nat) (st : PackState),
    file.foldl (packByte encode_map) st = (codeBits encode_map file).foldl packBit st
  | [], _ => rfl
  | c :: cs, st => by
    simp only [List.foldl_cons, codeBits, List.map_cons, List.flatten_cons,
      List.foldl_append]
    exact foldl_packByte encode_map cs _

theorem to_ulong_testBit : ∀ (bits : List Bool) (i : Nat),
    (to_ulong bits).testBit i = bits.getD i false
  | [], i => by simp [to_ulong]
  | b :: bs, 0 => by
    cases b <;> simp [to_ulong, Nat.testBit_zero, Nat.add_mod]
  | b :: bs, i + 1 => by
    have ih := to_ulong_testBit bs i
    have h2 : (to_ulong (b :: bs)) / 2 = to_ulong bs := by
      cases b <;> simp only [to_ulong, List.foldr_cons, Bool.false_eq_true, if_true, if_false] <;> omega
    rw [Nat.testBit_succ, h2, ih]
    simp

theorem testBit_and_255 (x i : Nat) (hi : i < 8) :
    (x &&& 0xFF).testBit i = x.testBit i := by
  have h : ∀ j < 8, (255 : Nat).testBit j = true := by decide
  rw [Nat.testBit_and, h i hi, Bool.and_true]

theorem getD_set_eq (l : List Bool) (i j : Nat) (b : Bool) (hi : i < l.length) :
    (l.set i b).getD j false = if i = j then b else l.getD j false := by
  rw [List.getD_eq_getElem?_getD, List.getElem?_set, List.getD_eq_getElem?_getD]
  by_cases h : i = j
  · subst h
    simp [hi]
  · simp [h]

theorem getD_replicate_false (n i : Nat) : (List.replicate n false).getD i false = false := by
  rw [List.getD_eq_getElem?_getD, List.getElem?_replicate]
  by_cases h : i < n <;> simp [h]

theorem getD_snoc (l : List Bool) (b : Bool) (k : Nat) :
    (l ++ [b]).getD k false =
      if k < l.length then l.getD k false else if k = l.length then b else false := by
  by_cases h : k < l.length
  · rw [if_pos h, List.getD_append _ _ _ _ h]
  · rw [if_neg h, List.getD_append_right _ _ _ _ (by omega)]
    by_cases h2 : k = l.length
    · simp [h2]
    · rw [if_neg h2, List.getD_eq_getElem?_getD]
      have : k - l.length ≠ 0 := by omega
      obtain ⟨m, hm⟩ := Nat.exists_eq_succ_of_ne_zero this
      rw [hm]
      simp

theorem PackInv_init : PackInv [] ⟨List.replicate 8 false, 0, []⟩ where
  index := rfl
  count := rfl
  width := rfl
  written := fun k hk => by simp at hk
  pending := fun i _ => by rw [getD_replicate_false]; simp

theorem PackInv_step (bits : List Bool) (st : PackState) (b : Bool)
    (h : PackInv bits st) : PackInv (bits ++ [b]) (packBit st b) := by
  obtain ⟨hidx, hcnt, hw, hwr, hpe⟩ := h
  have hlt : bits.length % 8 < 8 := Nat.mod_lt _ (by norm_num)
  have hdm := Nat.div_add_mod bits.length 8
  by_cases h8 : st.bit_index + 1 = 8
  · have hm : bits.length % 8 = 7 := by omega
    have hd1 : (bits.length + 1) / 8 = bits.length / 8 + 1 := by omega
    have hm1 : (bits.length + 1) % 8 = 0 := by omega
    simp only [packBit, if_pos h8]
    refine ⟨by simp [hm1], by simp [hcnt, hd1], by simp, ?_, ?_⟩
    · intro k hk
      simp only [List.length_append, List.length_singleton, hd1] at hk
      have hkdm := Nat.div_add_mod k 8
      have hklt : k % 8 < 8 := Nat.mod_lt _ (by norm_num)
      by_cases hk2 : k < 8 * (bits.length / 8)
      · have hk3 : k / 8 < st.outfile.length := by omega
        rw [List.getD_append _ _ _ _ hk3, hwr k hk2, getD_snoc, if_pos (by omega)]
      · have hk3 : k / 8 = bits.length / 8 := by omega
        rw [List.getD_append_right _ _ _ _ (by omega), hk3, hcnt]
        simp only [Nat.sub_self, List.getD_cons_zero]
        rw [testBit_and_255 _ _ hklt, to_ulong_testBit, getD_set_eq _ _ _ _ (by omega),
          getD_snoc]
        by_cases hk7 : st.bit_index = k % 8
        · rw [if_pos hk7, if_neg (by omega), if_pos (by omega)]
        · rw [if_neg hk7, hpe _ hklt, if_pos (by omega)]
          have : 8 * (bits.length / 8) + k % 8 = k := by omega
          rw [this]
          have hdec : decide (k % 8 < bits.length % 8) = true := by
            simp only [decide_eq_true_eq]; omega
          rw [hdec, Bool.true_and]
    · intro i hi
      rw [getD_replicate_false]
      simp [hm1]
  · have hd1 : (bits.length + 1) / 8 = bits.length / 8 := by omega
    have hm1 : (bits.length + 1) % 8 = bits.length % 8 + 1 := by omega
    simp only [packBit, if_neg h8]
    refine ⟨by simp [hm1, hidx], by simp [hcnt, hd1], by simp [hw], ?_, ?_⟩
    · intro k hk
      simp only [List.length_append, List.length_singleton, hd1] at hk
      rw [hwr k hk, getD_snoc, if_pos (by omega)]
    · intro i hi
      simp only [List.length_append, List.length_singleton, hd1, hm1]
      rw [getD_set_eq _ _ _ _ (by omega), getD_snoc]
      by_cases hi2 : st.bit_index = i
      · rw [if_pos hi2, if_neg (by omega), if_pos (by omega)]
        simp; omega
      · rw [if_neg hi2, hpe i hi]
        by_cases hi3 : i < bits.length % 8
        · rw [if_pos (by omega)]
          simp [hi3]; omega
        · simp [hi3]; omega

theorem PackInv_foldl (bits : List Bool) :
    PackInv bits (bits.foldl packBit ⟨List.replicate 8 false, 0, []⟩) := by
  induction bits using List.reverseRecOn with
  | nil => exact PackInv_init
  | append_singleton l b ih =>
    rw [List.foldl_append]
    exact PackInv_step l _ b ih

/-- The packed stream holds the code bits, eight to a byte from bit 0 upwards,
with zeros after the last bit. -/
theorem packStream_bits (encode_map : EncodingMap) (file : List Nat) :
    (packStream encode_map file).length = ((codeBits encode_map file).length + 7) / 8 ∧
    ∀ k, k < 8 * (packStream encode_map file).length →
      ((packStream encode_map file).getD (k / 8) 0).testBit (k % 8) =
        (codeBits encode_map file).getD k false := by
  have hinv := PackInv_foldl (codeBits encode_map file)
  rw [← foldl_packByte] at hinv
  have hdef : packStream encode_map file =
      if (List.foldl (packByte encode_map) ⟨List.replicate 8 false, 0, []⟩
        file).bit_index > 0 then
        (List.foldl (packByte encode_map) ⟨List.replicate 8 false, 0, []⟩ file).outfile ++
        [to_ulong (List.foldl (packByte encode_map) ⟨List.replicate 8 false, 0, []⟩
          file).bit_accumulator &&& 0xFF]
      else (List.foldl (packByte encode_map) ⟨List.replicate 8 false, 0, []⟩
        file).outfile := rfl
  rw [hdef]
  generalize List.foldl (packByte encode_map) ⟨List.replicate 8 false, 0, []⟩ file = st
    at hinv ⊢
  generalize codeBits encode_map file = bits at hinv ⊢
  obtain ⟨hidx, hcnt, hw, hwr, hpe⟩ := hinv
  have hlt : bits.length % 8 < 8 := Nat.mod_lt _ (by norm_num)
  have hdm := Nat.div_add_mod bits.length 8
  by_cases h0 : st.bit_index > 0
  · rw [if_pos h0]
    refine ⟨by simp only [List.length_append, List.length_singleton, hcnt]; omega, ?_⟩
    intro k hk
    simp only [List.length_append, List.length_singleton, hcnt] at hk
    have hkdm := Nat.div_add_mod k 8
    have hklt : k % 8 < 8 := Nat.mod_lt _ (by norm_num)
    by_cases hk2 : k < 8 * (bits.length / 8)
    · rw [List.getD_append _ _ _ _ (by omega), hwr k hk2]
    · have hk3 : k / 8 = bits.length / 8 := by omega
      rw [List.getD_append_right _ _ _ _ (by omega), hk3, hcnt]
      simp only [Nat.sub_self, List.getD_cons_zero]
      rw [testBit_and_255 _ _ hklt, to_ulong_testBit, hpe _ hklt]
      have hk4 : 8 * (bits.length / 8) + k % 8 = k := by omega
      rw [hk4]
      by_cases hk5 : k % 8 < bits.length % 8
      · simp [hk5]
      · have hk6 : bits.length ≤ k := by omega
        rw [List.getD_eq_default _ _ hk6]
        simp
  · rw [if_neg h0]
    refine ⟨by rw [hcnt]; omega, ?_⟩
    intro k hk
    rw [hcnt] at hk
    exact hwr k hk

/-- C7: for every byte sequence and encoding map, the packed stream written by
`compress` has exactly ceil(N/8) bytes, where N is the total number of code bits;
for every k < N the k-th bit of the concatenated codes is stored at bit position
(k mod 8) of output byte (k div 8), position 0 being the least-significant bit;
and every bit position of the last byte beyond N is zero.  (The map need not even
cover the bytes: as in `operator[]`, an absent key contributes no bit.) -/
theorem C7_packed_stream_layout (encode_map : EncodingMap) (file : List Nat) :
    (packStream encode_map file).length = ((codeBits encode_map file).length + 7) / 8 ∧
    (∀ (k : Nat) (hk : k < (codeBits encode_map file).length),
      ((packStream encode_map file).getD (k / 8) 0).testBit (k % 8) =
        (codeBits encode_map file)[k]) ∧
    (∀ j : Nat, (codeBits encode_map file).length ≤ j →
      j < 8 * (packStream encode_map file).length →
      ((packStream encode_map file).getD (j / 8) 0).testBit (j % 8) = false) := by
  obtain ⟨hlen, hbits⟩ := packStream_bits encode_map file
  refine ⟨hlen, ?_, ?_⟩
  · intro k hk
    rw [hbits k (by rw [hlen]; omega), List.getD_eq_getElem _ _ hk]
  · intro j hj1 hj2
    rw [hbits j hj2, List.getD_eq_default _ _ hj1]

/-! ## Decoding -/

theorem decodeBits_eq (root : BitNodePtr) (n : Int) (c : Nat) :
    ∀ (is : List Nat) (st : DecodeState),
      decodeBits root n c is st =
        match decodeBitList root n (is.map fun i => c.testBit i) st with
        | .error e => .error e
        | .ok (st1, _) => .ok st1
  | [], st => rfl
  | i :: is, st => by
    simp only [decodeBits, List.map_cons, decodeBitList]
    cases st.current_node with
    | nullptr => rfl
    | node f0 t0 b0 l r =>
      simp only []
      cases (if c.testBit i = true then r else l) with
      | nullptr => rfl
      | node f t b l1 r1 =>
        simp only []
        cases t
        · simp only [Bool.false_eq_true, if_false]
          exact decodeBits_eq root n c is _
        · simp only [if_true]
          by_cases hw : wrapInt32 (st.decoded_bytes_written + 1) = n
          · simp only [if_pos hw]
          · simp only [if_neg hw]
            exact decodeBits_eq root n c is _

/-- Running the inner loop on a concatenation: the second part is read only if
the first part ended without fault and without `break`. -/
theorem decodeBitList_append (root : BitNodePtr) (n : Int) :
    ∀ (xs ys : List Bool) (st : DecodeState),
      decodeBitList root n (xs ++ ys) st =
        match decodeBitList root n xs st with
        | .error e => .error e
        | .ok (st1, true) => .ok (st1, true)
        | .ok (st1, false) => decodeBitList root n ys st1
  | [], ys, st => rfl
  | bit :: xs, ys, st => by
    simp only [List.cons_append, decodeBitList]
    cases st.current_node with
    | nullptr => rfl
    | node f0 t0 b0 l r =>
      simp only []
      cases (if bit = true then r else l) with
      | nullptr => rfl
      | node f t b l1 r1 =>
        simp only []
        cases t
        · simp only [Bool.false_eq_true, if_false]
          exact decodeBitList_append root n xs ys _
        · simp only [if_true]
          by_cases hw : wrapInt32 (st.decoded_bytes_written + 1) = n
          · simp only [if_pos hw]
          · simp only [if_neg hw]
            exact decodeBitList_append root n xs ys _

theorem wrapInt32_eq (x : Int) (h1 : -2147483648 ≤ x) (h2 : x < 2147483648) :
    wrapInt32 x = x := by
  unfold wrapInt32
  omega

theorem subtree_append : ∀ (R : BitNodePtr) (p q : List Bool),
    subtree R (p ++ q) = subtree (subtree R p) q
  | R, [], q => by simp [subtree]
  | nullptr, d :: p, q => by simp [subtree, subtree_nullptr]
  | node f t b l r, d :: p, q => by
    cases d
    · simpa [subtree] using subtree_append l p q
    · simpa [subtree] using subtree_append r p q

/-- Facts about a recorded path used by the decoder: its end is the leaf, and any
node strictly before the end is an existing non-terminal node. -/
theorem subtree_snoc_of_path (root : BitNodePtr) (hp : isProper root = true) (b : Nat)
    (c : List Bool) (hc : (b, c) ∈ pathList root) (p : List Bool) (bit : Bool)
    (q : List Bool) (hpq : p ++ bit :: q = c) :
    ∃ f0 b0 l r, subtree root p = node f0 false b0 l r ∧
      (if bit = true then r else l) = subtree root (p ++ [bit]) := by
  obtain ⟨_, hpre⟩ := subtree_of_mem_pathList root b c hp hc
  have h1 := hpre p ⟨bit :: q, hpq⟩ (by
    intro he
    rw [← hpq] at he
    have := congrArg List.length he
    simp at this)
  cases hs : subtree root p with
  | nullptr => rw [hs] at h1; simp [isNull] at h1
  | node f0 t0 b0 l r =>
    rw [hs] at h1
    simp only [terminal] at h1
    refine ⟨f0, b0, l, r, by rw [h1.2], ?_⟩
    rw [subtree_append, hs]
    cases bit <;> simp [subtree]

/-- Reading the rest `q` of the code of `b` from the node reached by the part `p`
already read emits `b` and returns to the root. -/
theorem decodeBitList_code (root : BitNodePtr) (hp : isProper root = true) (n : Int)
    (b : Nat) (c : List Bool) (hc : (b, c) ∈ pathList root) :
    ∀ (q p : List Bool), p ++ q = c → q ≠ [] →
      ∀ (k : Int) (out : List Nat) (ys : List Bool), 0 ≤ k → k + 1 < 2147483648 →
        decodeBitList root n (q ++ ys) ⟨subtree root p, k, out⟩ =
          if k + 1 = n then .ok (⟨root, k + 1, out ++ [b]⟩, true)
          else decodeBitList root n ys ⟨root, k + 1, out ++ [b]⟩
  | [], _, _, h => absurd rfl h
  | bit :: q, p, hpq, _ => by
    intro k out ys hk0 hk1
    obtain ⟨f0, b0, l, r, hs, hch⟩ := subtree_snoc_of_path root hp b c hc p bit q hpq
    simp only [List.cons_append, decodeBitList, hs, hch]
    by_cases hq : q = []
    · subst hq
      obtain ⟨⟨f, hleaf⟩, _⟩ := subtree_of_mem_pathList root b c hp hc
      rw [hpq, hleaf]
      simp only [if_true, wrapInt32_eq (k + 1) (by omega) hk1]
      rfl
    · have hpq2 : (p ++ [bit]) ++ q = c := by rw [← hpq]; simp
      obtain ⟨q0, qs, rfl⟩ := List.exists_cons_of_ne_nil hq
      obtain ⟨f1, b1, l1, r1, hs1, _⟩ :=
        subtree_snoc_of_path root hp b c hc (p ++ [bit]) q0 qs hpq2
      have ih := decodeBitList_code root hp n b c hc (q0 :: qs) (p ++ [bit]) hpq2
        (by simp) k out ys hk0 hk1
      rw [hs1] at ih ⊢
      simp only [Bool.false_eq_true, if_false]
      exact ih

/-- Reading a proper initial part of a code moves down the tree and emits nothing. -/
theorem decodeBitList_partial (root : BitNodePtr) (hp : isProper root = true) (n : Int)
    (b : Nat) (c : List Bool) (hc : (b, c) ∈ pathList root) :
    ∀ (xs p q : List Bool), p ++ xs ++ q = c → q ≠ [] →
      ∀ (k : Int) (out : List Nat),
        decodeBitList root n xs ⟨subtree root p, k, out⟩ =
          .ok (⟨subtree root (p ++ xs), k, out⟩, false)
  | [], p, q, _, _ => by
    intro k out
    simp [decodeBitList]
  | bit :: xs, p, q, hpq, hq => by
    intro k out
    have hpq1 : p ++ bit :: (xs ++ q) = c := by rw [← hpq]; simp
    obtain ⟨f0, b0, l, r, hs, hch⟩ :=
      subtree_snoc_of_path root hp b c hc p bit (xs ++ q) hpq1
    have hpq2 : (p ++ [bit]) ++ xs ++ q = c := by rw [← hpq]; simp
    obtain ⟨q0, qs, rfl⟩ := List.exists_cons_of_ne_nil hq
    have hnext : ∃ f1 b1 l1 r1, subtree root (p ++ [bit]) = node f1 false b1 l1 r1 := by
      cases xs with
      | nil =>
        obtain ⟨f1, b1, l1, r1, hs1, _⟩ :=
          subtree_snoc_of_path root hp b c hc (p ++ [bit]) q0 qs (by simpa using hpq2)
        exact ⟨f1, b1, l1, r1, hs1⟩
      | cons x xs1 =>
        obtain ⟨f1, b1, l1, r1, hs1, _⟩ :=
          subtree_snoc_of_path root hp b c hc (p ++ [bit]) x (xs1 ++ q0 :: qs)
            (by simpa using hpq2)
        exact ⟨f1, b1, l1, r1, hs1⟩
    obtain ⟨f1, b1, l1, r1, hs1⟩ := hnext
    have ih := decodeBitList_partial root hp n b c hc xs (p ++ [bit]) (q0 :: qs) hpq2
      (by simp) k out
    simp only [decodeBitList, hs, hch]
    rw [hs1] at ih ⊢
    simp only [Bool.false_eq_true, if_false]
    rw [ih]
    simp

theorem path_ne_nil (root : BitNodePtr) (hp : isProper root = true)
    (hnt : root.terminal = false) (b : Nat) (c : List Bool)
    (hc : (b, c) ∈ pathList root) : c ≠ [] := by
  intro h
  subst h
  obtain ⟨⟨f, hleaf⟩, _⟩ := subtree_of_mem_pathList root b [] hp hc
  simp only [subtree] at hleaf
  rw [hleaf] at hnt
  simp [terminal] at hnt

/-- Reading the codes of a non-empty list of bytes, whose length completes the
declared count, emits these bytes and ends by `break` at the last code bit. -/
theorem decodeBitList_symbols (root : BitNodePtr) (hp : isProper root = true)
    (hnt : root.terminal = false) (n : Int) (hn : n < 2147483648)
    (code : Nat → List Bool) :
    ∀ (B : List Nat) (k : Int) (out : List Nat) (pad : List Bool), B ≠ [] →
      (∀ b ∈ B, (b, code b) ∈ pathList root) → 0 ≤ k → k + B.length = n →
      decodeBitList root n (symbolBits code B ++ pad) ⟨root, k, out⟩ =
        .ok (⟨root, n, out ++ B⟩, true)
  | [], _, _, _, h, _, _, _ => absurd rfl h
  | b :: B, k, out, pad, _, hB, hk, hkn => by
    have hc := hB b (List.mem_cons_self _ _)
    have hne := path_ne_nil root hp hnt b (code b) hc
    simp only [List.length_cons, Nat.cast_add, Nat.cast_one] at hkn
    have hw := decodeBitList_code root hp n b (code b) hc (code b) [] rfl hne k out
      (symbolBits code B ++ pad) hk (by omega)
    simp only [subtree] at hw
    have hsplit : symbolBits code (b :: B) ++ pad = code b ++ (symbolBits code B ++ pad) := by
      simp [symbolBits]
    rw [hsplit, hw]
    by_cases hB0 : B = []
    · subst hB0
      simp only [List.length_nil, Nat.cast_zero] at hkn
      rw [if_pos (by omega)]
      have : k + 1 = n := by omega
      rw [this]
    · have hpos : 0 < B.length := List.length_pos.2 hB0
      rw [if_neg (by omega)]
      have ih := decodeBitList_symbols root hp hnt n hn code B (k + 1) (out ++ [b]) pad hB0
        (fun x hx => hB x (List.mem_cons_of_mem _ hx)) (by omega) (by omega)
      rw [ih]
      simp

/-- Reading a proper initial part of the code bits neither faults nor ends by
`break`. -/
theorem decodeBitList_symbols_partial (root : BitNodePtr) (hp : isProper root = true)
    (hnt : root.terminal = false) (n : Int) (hn : n < 2147483648)
    (code : Nat → List Bool) :
    ∀ (B : List Nat) (k : Int) (out : List Nat) (xs ys : List Bool),
      (∀ b ∈ B, (b, code b) ∈ pathList root) → xs ++ ys = symbolBits code B → ys ≠ [] →
      0 ≤ k → k + B.length = n →
      ∃ st1, decodeBitList root n xs ⟨root, k, out⟩ = .ok (st1, false)
  | [], _, _, xs, ys, _, hxy, hys, _, _ => by
    simp [symbolBits] at hxy
    exact absurd hxy.2 hys
  | b :: B, k, out, xs, ys, hB, hxy, hys, hk, hkn => by
    have hc := hB b (List.mem_cons_self _ _)
    have hne := path_ne_nil root hp hnt b (code b) hc
    simp only [List.length_cons, Nat.cast_add, Nat.cast_one] at hkn
    have hsplit : symbolBits code (b :: B) = code b ++ symbolBits code B := by
      simp [symbolBits]
    rw [hsplit] at hxy
    have hBne : symbolBits code B ≠ [] → 0 < B.length := by
      intro h
      apply List.length_pos.2
      intro h0
      apply h
      rw [h0]
      rfl
    rcases List.append_eq_append_iff.1 hxy with ⟨a, ha1, ha2⟩ | ⟨c1, hc1, hc2⟩
    · -- `xs` ends inside the code of `b`
      by_cases ha : a = []
      · subst ha
        simp only [List.append_nil, List.nil_append] at ha1 ha2
        have hpos := hBne (by rw [← ha2]; exact hys)
        have hw := decodeBitList_code root hp n b (code b) hc (code b) [] rfl hne k out
          [] hk (by omega)
        simp only [subtree, List.append_nil] at hw
        rw [← ha1, hw, if_neg (by omega)]
        exact ⟨_, rfl⟩
      · have hw := decodeBitList_partial root hp n b (code b) hc xs [] a
          (by simpa using ha1.symm) ha k out
        simp only [subtree] at hw
        exact ⟨_, hw⟩
    · -- `xs` covers the code of `b`
      have hpos := hBne (by
        rw [hc2]
        intro h
        exact hys (List.append_eq_nil.1 h).2)
      have hw := decodeBitList_code root hp n b (code b) hc (code b) [] rfl hne k out
        c1 hk (by omega)
      simp only [subtree] at hw
      rw [hc1, hw, if_neg (by omega)]
      exact decodeBitList_symbols_partial root hp hnt n hn code B (k + 1) (out ++ [b]) c1 ys
        (fun x hx => hB x (List.mem_cons_of_mem _ hx)) hc2.symm hys (by omega) (by omega)

theorem Decodes_advance (root : BitNodePtr) (n : Int) (final st : DecodeState)
    (xs todo : List Bool) (h : Decodes root n final st (xs ++ todo)) (hne : todo ≠ []) :
    ∃ st1, decodeBitList root n xs st = .ok (st1, false) ∧
      Decodes root n final st1 todo := by
  obtain ⟨st1, h1⟩ := h.1 xs todo rfl hne
  refine ⟨st1, h1, ?_, ?_⟩
  · intro ys zs hyz hzs
    obtain ⟨st2, h2⟩ := h.1 (xs ++ ys) zs (by rw [← hyz]; simp) hzs
    rw [decodeBitList_append, h1] at h2
    exact ⟨st2, h2⟩
  · intro pad
    have h2 := h.2 pad
    rw [List.append_assoc, decodeBitList_append, h1] at h2
    exact h2

theorem append_drop_of_getD (a b : List Bool) (hle : a.length ≤ b.length)
    (h : ∀ i, i < a.length → a.getD i false = b.getD i false) :
    b = a ++ b.drop a.length := by
  have ht : b.take a.length = a := by
    apply List.ext_getElem
    · simp [hle]
    · intro i h1 h2
      have := h i h2
      rw [List.getD_eq_getElem _ _ h2, List.getD_eq_getElem _ _ (by omega)] at this
      simp [this]
  conv_lhs => rw [← List.take_append_drop a.length b]
  rw [ht]

theorem byteBits_length (c : Nat) : (byteBits c).length = 8 := by
  simp [byteBits]

theorem byteBits_getD (c i : Nat) (hi : i < 8) :
    (byteBits (c % 256)).getD i false = c.testBit i := by
  have key : (c % 256).testBit i = c.testBit i := by
    have h256 : (256 : Nat) = 2 ^ 8 := by norm_num
    rw [h256, Nat.testBit_mod_two_pow]
    simp [hi]
  unfold byteBits
  rw [List.getD_eq_getElem?_getD, List.getElem?_map, List.getElem?_range hi]
  exact key

theorem getD_drop_eq (l : List Bool) (m k : Nat) :
    (l.drop m).getD k false = l.getD (m + k) false := by
  rw [List.getD_eq_getElem?_getD, List.getElem?_drop, List.getD_eq_getElem?_getD]

/-- The outer loop of `decompress` on a stream that carries the bits still to be
read, eight to a byte, the last byte possibly filled up with other bits. -/
theorem decodeLoop_of_Decodes (root : BitNodePtr) (n : Int) (final : DecodeState) :
    ∀ (s : List Nat) (todo : List Bool) (st : DecodeState),
      Decodes root n final st todo → todo ≠ [] →
      s.length = (todo.length + 7) / 8 →
      (∀ k, k < todo.length → (s.getD (k / 8) 0).testBit (k % 8) = todo.getD k false) →
      decodeLoop root n s st = .ok final
  | [], todo, st, _, hne, hlen, _ => by
    have : todo.length = 0 := by
      simp only [List.length_nil] at hlen
      omega
    exact absurd (List.length_eq_zero.1 this) hne
  | c :: cs, todo, st, hd, hne, hlen, hbits => by
    simp only [List.length_cons] at hlen
    simp only [decodeLoop]
    rw [decodeBits_eq]
    have hbb : (List.map (fun i => (c % 256).testBit i) (List.range 8)) =
        byteBits (c % 256) := rfl
    rw [hbb]
    have hagree : ∀ i, i < 8 → i < todo.length →
        (byteBits (c % 256)).getD i false = todo.getD i false := by
      intro i hi hi2
      rw [byteBits_getD c i hi, ← hbits i hi2]
      have h1 : i / 8 = 0 := by omega
      have h2 : i % 8 = i := by omega
      rw [h1, h2]
      rfl
    by_cases hshort : todo.length ≤ 8
    · -- the last byte
      have hcs : cs = [] := by
        apply List.length_eq_zero.1
        omega
      subst hcs
      have hsplit := append_drop_of_getD todo (byteBits (c % 256))
        (by rw [byteBits_length]; exact hshort)
        (fun i hi => (hagree i (by omega) hi).symm)
      rw [hsplit, hd.2]
      rfl
    · -- a byte followed by others
      have hsplit := append_drop_of_getD (byteBits (c % 256)) todo
        (by rw [byteBits_length]; omega)
        (fun i hi => hagree i (by rw [byteBits_length] at hi; exact hi)
          (by rw [byteBits_length] at hi; omega))
      rw [byteBits_length] at hsplit
      have hne2 : todo.drop 8 ≠ [] := by
        intro h
        have := congrArg List.length h
        simp at this
        omega
      rw [hsplit] at hd
      obtain ⟨st1, h1, hd1⟩ := Decodes_advance root n final st _ _ hd hne2
      rw [h1]
      simp only []
      apply decodeLoop_of_Decodes root n final cs (todo.drop 8) st1 hd1 hne2
      · simp only [List.length_drop]
        omega
      · intro k hk
        simp only [List.length_drop] at hk
        have hb := hbits (8 + k) (by omega)
        have h1 : (8 + k) / 8 = k / 8 + 1 := by omega
        have h2 : (8 + k) % 8 = k % 8 := by omega
        rw [h1, h2] at hb
        rw [getD_drop_eq, ← hb]
        rfl

/-- Decoding a stream that carries the codes of the bytes `B`, whatever the
padding, with declared length `|B|`, writes exactly `B`. -/
theorem decodeLoop_roundtrip (root : BitNodePtr) (hp : isProper root = true)
    (hnt : root.terminal = false) (code : Nat → List Bool) (B : List Nat)
    (hB : ∀ b ∈ B, (b, code b) ∈ pathList root) (hlen : B.length < 2147483648)
    (s : List Nat) (hs : s.length = ((symbolBits code B).length + 7) / 8)
    (hbits : ∀ k, k < (symbolBits code B).length →
      (s.getD (k / 8) 0).testBit (k % 8) = (symbolBits code B).getD k false) :
    ∃ st, decodeLoop root (B.length : Int) s ⟨root, 0, []⟩ = .ok st ∧
      st.decompressed_file = B := by
  by_cases h0 : B = []
  · subst h0
    have : s = [] := by
      apply List.length_eq_zero.1
      rw [hs]
      simp [symbolBits]
    subst this
    exact ⟨_, rfl, rfl⟩
  · obtain ⟨b, B1, rfl⟩ := List.exists_cons_of_ne_nil h0
    have hne : symbolBits code (b :: B1) ≠ [] := by
      have := path_ne_nil root hp hnt b (code b) (hB b (List.mem_cons_self _ _))
      simp [symbolBits, this]
    have hn : ((b :: B1).length : Int) < 2147483648 := by exact_mod_cast hlen
    have hd : Decodes root ((b :: B1).length : Int) ⟨root, (b :: B1).length, [] ++ (b :: B1)⟩
        ⟨root, 0, []⟩ (symbolBits code (b :: B1)) := by
      constructor
      · intro xs ys hxy hys
        exact decodeBitList_symbols_partial root hp hnt _ hn code (b :: B1) 0 [] xs ys hB hxy
          hys (le_refl _) (by simp)
      · intro pad
        exact decodeBitList_symbols root hp hnt _ hn code (b :: B1) 0 [] pad (by simp) hB
          (le_refl _) (by simp)
    exact ⟨_, decodeLoop_of_Decodes root _ _ s _ _ hd hne hs hbits, rfl⟩

/-! ## Compression followed by decompression -/

theorem wrapInt32_succ (x : Int) : wrapInt32 (wrapInt32 x + 1) = wrapInt32 (x + 1) := by
  unfold wrapInt32
  omega

theorem CountByteFrequencies_snoc (file : List Nat) (c k : Nat) :
    CountByteFrequencies (file ++ [c]) k =
      if k = c % 256 then wrapInt32 (CountByteFrequencies file k + 1)
      else CountByteFrequencies file k := by
  unfold CountByteFrequencies
  rw [List.foldl_append]
  rfl

/-- Each table entry is the number of occurrences of the byte, wrapped to `int`. -/
theorem CountByteFrequencies_eq (file : List Nat) (k : Nat) :
    CountByteFrequencies file k =
      wrapInt32 ((file.map fun c => c % 256).count k) := by
  induction file using List.reverseRecOn with
  | nil =>
    have h0 : wrapInt32 0 = 0 := by unfold wrapInt32; norm_num
    simp [CountByteFrequencies, h0]
  | append_singleton l c ih =>
    rw [CountByteFrequencies_snoc, ih]
    by_cases h : k = c % 256
    · rw [if_pos h, wrapInt32_succ]
      have hcnt : (List.count k (List.map (fun c => c % 256) (l ++ [c])) : Int) =
          ↑(List.count k (List.map (fun c => c % 256) l)) + 1 := by
        subst h
        simp [List.count_append]
      rw [hcnt]
    · rw [if_neg h]
      have hcnt : List.count k (List.map (fun c => c % 256) (l ++ [c])) =
          List.count k (List.map (fun c => c % 256) l) := by
        have : ¬ (c % 256 = k) := fun h2 => h h2.symm
        simp [List.count_append, List.count_singleton, this]
      rw [hcnt]

theorem CountByteFrequencies_pos (file : List Nat) (hbytes : ∀ b ∈ file, b < 256)
    (hlen : file.length < 2147483648) (b : Nat) (hb : b ∈ file) :
    CountByteFrequencies file b > 0 := by
  rw [CountByteFrequencies_eq]
  have hmap : (file.map fun c => c % 256) = file := by
    conv_rhs => rw [← List.map_id file]
    apply List.map_congr_left
    intro c hc
    exact Nat.mod_eq_of_lt (hbytes c hc)
  rw [hmap]
  have h1 : 0 < file.count b := List.count_pos_iff.2 hb
  have h2 : file.count b ≤ file.length := List.count_le_length _ _
  rw [wrapInt32_eq _ (by omega) (by omega)]
  exact_mod_cast h1

theorem pathList_skeleton : ∀ p : BitNodePtr, pathList (skeleton p) = pathList p
  | nullptr => rfl
  | node f t b l r => by
    cases t <;> simp [skeleton, pathList, pathList_skeleton l, pathList_skeleton r]

theorem skeleton_eq_nullptr {p : BitNodePtr} : skeleton p = nullptr ↔ p = nullptr := by
  cases p <;> simp [skeleton]

theorem isProper_skeleton : ∀ p : BitNodePtr, isProper (skeleton p) = isProper p
  | nullptr => rfl
  | node f t b l r => by
    cases t
    · simp [skeleton, isProper, isProper_skeleton l, isProper_skeleton r]
    · cases l <;> cases r <;> simp [skeleton, isProper, isNull]

theorem terminal_skeleton (p : BitNodePtr) : (skeleton p).terminal = p.terminal := by
  cases p <;> rfl

/-- For every table, the root of the built tree is not a terminal node. -/
theorem ofFrequencies_root_not_terminal (P : PriorityQueue) (byte_frequencies : Nat → Int) :
    (HuffmanTree.ofFrequencies P byte_frequencies).root_.terminal = false := by
  by_cases h2 : 2 ≤ positiveCount byte_frequencies
  · obtain ⟨f, b, l, r, hroot, _, _⟩ := ofFrequencies_root_inner P byte_frequencies h2
    rw [hroot]; rfl
  · by_cases h0 : positiveCount byte_frequencies = 0
    · rw [ofFrequencies_of_count_zero P _ h0]; rfl
    · have h1 : (positiveBytes byte_frequencies).length = 1 := by
        have : positiveCount byte_frequencies = 1 := by omega
        exact this
      obtain ⟨b, hb⟩ := List.length_eq_one.1 h1
      rw [ofFrequencies_of_count_one P _ b hb]; rfl

/-- `Unflatten` of the flattened one-leaf tree rebuilds it (and prints the
"tree incomplete" message, its stack still holding the root). -/
theorem Unflatten_one_leaf (b : Nat) :
    Unflatten [48, 49, b] =
      .ok ⟨⟨node 0 false 0 (node 0 true b nullptr nullptr) nullptr⟩, true, false, false⟩ := by
  have hread : readChar [48, 49, b] 0 = .ok (48, false) := rfl
  have hb : UnflattenBody [48, 49, b] ⟨node 0 false 0 nullptr nullptr, [[]], 1, false⟩ =
      .ok ⟨attach (node 0 false 0 nullptr nullptr) [] (node 0 true b nullptr nullptr),
        unwind (attach (node 0 false 0 nullptr nullptr) [] (node 0 true b nullptr nullptr))
          [[]], 3, false⟩ :=
    UnflattenBody_terminal [48] [] b (node 0 false 0 nullptr nullptr) [] [] false
  have a1 : attach (node 0 false 0 nullptr nullptr) [] (node 0 true b nullptr nullptr) =
      node 0 false 0 (node 0 true b nullptr nullptr) nullptr := by
    simp [attach, subtree, modifyAt, left, isNull, setLeft]
  rw [a1, unwind_keep _ _ _ (by rfl)] at hb
  have s1 := UnflattenLoop_succ [48, 49, b] 3 _ _ (by simp) (by simp) hb
  rw [UnflattenLoop_done [48, 49, b] 3 ⟨node 0 false 0 (node 0 true b nullptr nullptr) nullptr,
    [[]], 3, false⟩ (Or.inr rfl)] at s1
  simp only [Unflatten, hread, if_true]
  simp only [newBitNode, setTerminal, List.length_cons, List.length_nil]
  rw [s1]
  simp

/-- For every table, `Unflatten` of the flattened built tree returns the tree with
frequencies reset. -/
theorem Unflatten_Flatten_ofFrequencies (P : PriorityQueue) (byte_frequencies : Nat → Int) :
    ∃ res : UnflattenResult,
      Unflatten (HuffmanTree.ofFrequencies P byte_frequencies).Flatten = .ok res ∧
      res.tree.root = skeleton (HuffmanTree.ofFrequencies P byte_frequencies).root_ := by
  by_cases h2 : 2 ≤ positiveCount byte_frequencies
  · obtain ⟨f, b, l, r, hroot, hl, hr⟩ := ofFrequencies_root_inner P byte_frequencies h2
    refine ⟨⟨⟨node 0 false 0 (skeleton l) (skeleton r)⟩, false, false, false⟩, ?_, ?_⟩
    · simp only [HuffmanTree.Flatten]
      rw [hroot]
      exact Unflatten_Flatten_of_full f b l r hl hr
    · rw [hroot]; rfl
  · by_cases h0 : positiveCount byte_frequencies = 0
    · rw [ofFrequencies_of_count_zero P _ h0]
      exact ⟨⟨⟨nullptr⟩, false, false, true⟩, rfl, rfl⟩
    · have h1 : (positiveBytes byte_frequencies).length = 1 := by
        have : positiveCount byte_frequencies = 1 := by omega
        exact this
      obtain ⟨b, hb⟩ := List.length_eq_one.1 h1
      rw [ofFrequencies_of_count_one P _ b hb]
      refine ⟨⟨⟨node 0 false 0 (node 0 true b nullptr nullptr) nullptr⟩,
        true, false, false⟩, ?_, ?_⟩
      · have : (HuffmanTree.mk (node (byte_frequencies b) false 0
            (node (byte_frequencies b) true b nullptr nullptr) nullptr)).Flatten =
            [48, 49, b] := by
          simp [HuffmanTree.Flatten, FlattenHelper]
        rw [this]
        exact Unflatten_one_leaf b
      · rfl

/-- Decompression of what `compress` writes for `file`, with the packed stream
replaced by any stream of the same length carrying the same code bits. -/
theorem decompress_of_stream (P : PriorityQueue) (file : List Nat)
    (hbytes : ∀ b ∈ file, b < 256) (hlen : file.length < 2147483648)
    (content : List Nat)
    (hs : content.length = ((codeBits (HuffmanTree.ofFrequencies P
      (CountByteFrequencies file)).GetEncodingMap file).length + 7) / 8)
    (hbits : ∀ k, k < (codeBits (HuffmanTree.ofFrequencies P
        (CountByteFrequencies file)).GetEncodingMap file).length →
      (content.getD (k / 8) 0).testBit (k % 8) =
        (codeBits (HuffmanTree.ofFrequencies P
          (CountByteFrequencies file)).GetEncodingMap file).getD k false) :
    decompress ⟨(compress P file).file_length, (compress P file).flat_tree, content⟩ =
      .ok file := by
  obtain ⟨res, hres, hroot⟩ := Unflatten_Flatten_ofFrequencies P (CountByteFrequencies file)
  have hp : isProper res.tree.root = true := by
    rw [hroot, isProper_skeleton]
    exact (ofFrequencies_proper_leaves P _).1
  have hnt : res.tree.root.terminal = false := by
    rw [hroot, terminal_skeleton]
    exact ofFrequencies_root_not_terminal P _
  have hB : ∀ b ∈ file, (b, (fun c => (HuffmanTree.ofFrequencies P
      (CountByteFrequencies file)).GetEncodingMap.get (c % 256)) b) ∈
      pathList res.tree.root := by
    intro b hb
    have hb256 := hbytes b hb
    have hpos := CountByteFrequencies_pos file hbytes hlen b hb
    have hkey := (mapKeys_iff_positive P (CountByteFrequencies file) b hb256).2 hpos
    obtain ⟨c, hc⟩ := Option.isSome_iff_exists.1 hkey
    rw [hroot, pathList_skeleton]
    simp only [Nat.mod_eq_of_lt hb256, EncodingMap.get, hc, Option.getD_some]
    exact (ofFrequencies_map_iff P _ b c).1 hc
  obtain ⟨st, hst, hout⟩ := decodeLoop_roundtrip res.tree.root hp hnt _ file hB hlen content
    hs hbits
  have hfl : (compress P file).file_length = (file.length : Int) := by
    simp only [compress]
    exact wrapInt32_eq _ (by omega) (by exact_mod_cast hlen)
  have hft : (compress P file).flat_tree =
      (HuffmanTree.ofFrequencies P (CountByteFrequencies file)).Flatten := rfl
  simp only [decompress]
  rw [hft, hres, hfl]
  simp only []
  rw [hst]
  simp only [hout]

/-- C1 (amended): for every byte sequence `B` of fewer than 2^31 bytes (the empty
sequence, a sequence repeating one byte value and a sequence containing all 256
byte values included), decoding what `compress` produces for `B` (the flattened
tree passed through `Unflatten`, the packed bit stream and the declared length)
with the loop of `decompress` yields exactly `B`. -/
theorem C1_round_trip (P : PriorityQueue) (file : List Nat)
    (hbytes : ∀ b ∈ file, b < 256) (hlen : file.length < 2147483648) :
    decompress (compress P file) = .ok file := by
  obtain ⟨h1, h2⟩ := packStream_bits
    (HuffmanTree.ofFrequencies P (CountByteFrequencies file)).GetEncodingMap file
  exact decompress_of_stream P file hbytes hlen (compress P file).content h1
    (fun k hk => h2 k (by rw [h1]; omega))

/-- C1 (amended) at the seven-byte file `sampleFile`. -/
theorem C1_round_trip_witness :
    (∀ b ∈ sampleFile, b < 256) ∧ sampleFile.length < 2147483648 ∧
    decompress (compress listPQ sampleFile) = .ok sampleFile :=
  ⟨by decide, by decide, C1_round_trip listPQ sampleFile (by decide) (by decide)⟩

/-- C9 (amended): padding bits are inert: for every byte sequence `B` of fewer than
2^31 bytes, if the bit positions of the packed stream past the last code bit are
replaced by arbitrary values, decoding with the same flattened tree and declared
length still yields exactly `B`. -/
theorem C9_padding_inert (P : PriorityQueue) (file : List Nat)
    (hbytes : ∀ b ∈ file, b < 256) (hlen : file.length < 2147483648)
    (content : List Nat)
    (hsame : content.length = (compress P file).content.length)
    (hbits : ∀ k, k < (codeBits (HuffmanTree.ofFrequencies P
        (CountByteFrequencies file)).GetEncodingMap file).length →
      (content.getD (k / 8) 0).testBit (k % 8) =
        ((compress P file).content.getD (k / 8) 0).testBit (k % 8)) :
    decompress ⟨(compress P file).file_length, (compress P file).flat_tree, content⟩ =
      .ok file := by
  obtain ⟨h1, h2⟩ := packStream_bits
    (HuffmanTree.ofFrequencies P (CountByteFrequencies file)).GetEncodingMap file
  have hc : (compress P file).content = packStream
      (HuffmanTree.ofFrequencies P (CountByteFrequencies file)).GetEncodingMap file := rfl
  rw [hc] at hsame hbits
  apply decompress_of_stream P file hbytes hlen content (by rw [hsame, h1])
  intro k hk
  rw [hbits k hk]
  exact h2 k (by rw [h1]; omega)

/-- C9 (amended) at the file `sampleFile`, whose packed stream is `[248, 2]` with ten
code bits: the six padding bits of the last byte are all set. -/
theorem C9_padding_inert_witness :
    (∀ b ∈ sampleFile, b < 256) ∧ sampleFile.length < 2147483648 ∧
    [248, 254].length = (compress listPQ sampleFile).content.length ∧
    (∀ k, k < (codeBits (HuffmanTree.ofFrequencies listPQ
        (CountByteFrequencies sampleFile)).GetEncodingMap sampleFile).length →
      (([248, 254] : List Nat).getD (k / 8) 0).testBit (k % 8) =
        ((compress listPQ sampleFile).content.getD (k / 8) 0).testBit (k % 8)) ∧
    decompress ⟨(compress listPQ sampleFile).file_length,
      (compress listPQ sampleFile).flat_tree, [248, 254]⟩ = .ok sampleFile :=
  ⟨by decide, by decide, by decide, by decide,
    C9_padding_inert listPQ sampleFile (by decide) (by decide) [248, 254] (by decide)
      (by decide)⟩

/-! ## Inputs of 2^31 bytes and more -/

theorem wrapInt32_zero : wrapInt32 0 = 0 := by
  unfold wrapInt32; norm_num

/-- When the `int` counter of the only byte value of a file wraps to a value that is
not positive, `compress` builds no tree and writes no code bit. -/
theorem compress_replicate_overflow (P : PriorityQueue) (c n : Nat) (hc : c < 256)
    (hn : wrapInt32 n ≤ 0) :
    compress P (List.replicate n c) = ⟨wrapInt32 n, [], []⟩ := by
  have hfreq : ∀ k, CountByteFrequencies (List.replicate n c) k ≤ 0 := by
    intro k
    rw [CountByteFrequencies_eq, List.map_replicate, Nat.mod_eq_of_lt hc,
      List.count_replicate]
    by_cases h : c = k
    · simp only [h, beq_self_eq_true, if_true]
      exact hn
    · have : (c == k) = false := by simpa using h
      simp only [this, Bool.false_eq_true, if_false, Nat.cast_zero, wrapInt32_zero]
      exact le_refl _
  have hpos : positiveBytes (CountByteFrequencies (List.replicate n c)) = [] := by
    apply List.filter_eq_nil_iff.2
    intro k _
    have := hfreq k
    simp only [decide_eq_true_eq, not_lt]
    exact this
  have htree : HuffmanTree.ofFrequencies P (CountByteFrequencies (List.replicate n c)) =
      ⟨nullptr⟩ :=
    ofFrequencies_of_count_zero P _ (by rw [positiveCount, hpos]; rfl)
  have hmap : (HuffmanTree.mk nullptr).GetEncodingMap = fun _ => none := rfl
  have hbits : codeBits (fun _ => none) (List.replicate n c) = [] := by
    unfold codeBits
    apply List.flatten_eq_nil_iff.2
    intro l hl
    obtain ⟨_, _, rfl⟩ := List.mem_map.1 hl
    rfl
  have hcontent : packStream (fun _ => none) (List.replicate n c) = [] := by
    apply List.length_eq_zero.1
    rw [(packStream_bits _ _).1, hbits]
    rfl
  simp only [compress, htree, hmap, hcontent, List.length_replicate]
  rfl

theorem decompress_empty (n : Int) : decompress ⟨n, [], []⟩ = .ok [] := rfl

/-- C1 as stated, for every byte sequence, fails: for the file made of 2^31 bytes
0x00 the `int` counter of that byte wraps to -2^31, so no tree is built, nothing
is written, and decompression gives the empty file. -/
theorem C1_counterexample :
    decompress (compress listPQ (List.replicate 2147483648 0)) ≠
      .ok (List.replicate 2147483648 0) := by
  rw [compress_replicate_overflow listPQ 0 2147483648 (by decide) (by decide),
    decompress_empty]
  intro h
  injection h with h1
  have h2 := congrArg List.length h1
  rw [List.length_replicate] at h2
  exact absurd h2 (by decide)

/-- C9 as stated, for every non-empty byte sequence, fails: for the file made of
2^31 bytes 0x01 the packed stream is empty, and with the stream left as it is the
decoder returns the empty file. -/
theorem C9_counterexample :
    List.replicate 2147483648 1 ≠ [] ∧
    ¬ ∀ content : List Nat,
      content.length = (compress listPQ (List.replicate 2147483648 1)).content.length →
      (∀ k, k < (codeBits (HuffmanTree.ofFrequencies listPQ (CountByteFrequencies
          (List.replicate 2147483648 1))).GetEncodingMap
          (List.replicate 2147483648 1)).length →
        (content.getD (k / 8) 0).testBit (k % 8) =
          ((compress listPQ (List.replicate 2147483648 1)).content.getD (k / 8) 0).testBit
            (k % 8)) →
      decompress ⟨(compress listPQ (List.replicate 2147483648 1)).file_length,
        (compress listPQ (List.replicate 2147483648 1)).flat_tree, content⟩ =
        .ok (List.replicate 2147483648 1) := by
  constructor
  · intro h
    have h2 := congrArg List.length h
    rw [List.length_replicate] at h2
    exact absurd h2 (by decide)
  · intro h
    have h1 := h (compress listPQ (List.replicate 2147483648 1)).content rfl
      (fun _ _ => rfl)
    rw [compress_replicate_overflow listPQ 1 2147483648 (by decide) (by decide)] at h1
    rw [decompress_empty] at h1
    injection h1 with h2
    have h3 := congrArg List.length h2
    rw [List.length_replicate] at h3
    exact absurd h3 (by decide)

/-! ## Faulty paths of the decoder and of `Unflatten` -/

/-- C8 (code evaluated at a failing input): with the tree of `sampleTable`, declared
length 1 and the stream `[0x00]`, one byte is written; when a second byte 0x00 is
appended to the stream, the statement `break` has only left the inner loop, the
outer loop reads the appended byte and five bytes are written. -/
theorem C8_decode_continues :
    decodeLoop (HuffmanTree.ofFrequencies listPQ sampleTable).root 1 [0]
        ⟨(HuffmanTree.ofFrequencies listPQ sampleTable).root, 0, []⟩ =
      .ok ⟨(HuffmanTree.ofFrequencies listPQ sampleTable).root, 1, [97]⟩ ∧
    decodeLoop (HuffmanTree.ofFrequencies listPQ sampleTable).root 1 [0, 0]
        ⟨(HuffmanTree.ofFrequencies listPQ sampleTable).root, 0, []⟩ =
      .ok ⟨(HuffmanTree.ofFrequencies listPQ sampleTable).root, 5, [97, 97, 97, 97, 97]⟩ :=
  ⟨rfl, rfl⟩

/-- C10 (code evaluated at failing inputs): the flattened tree of `sampleTable` is
`001a1b1c`.  Its first 7 bytes end right after the last `'1'` tag: `Unflatten`
reads the symbol at the end of the string, completes the tree with the byte 0x00
and prints "encoding too long", not "tree incomplete".  Its first 5 bytes end
right after the second `'1'` tag: `Unflatten` reads the end of the string and then
position 6, beyond the terminator of the 5-byte string. -/
theorem C10_truncated_after_tag :
    (HuffmanTree.ofFrequencies listPQ sampleTable).Flatten =
      [48, 48, 49, 97, 49, 98, 49, 99] ∧
    Unflatten ((HuffmanTree.ofFrequencies listPQ sampleTable).Flatten.take 7) =
      .ok ⟨⟨node 0 false 0
        (node 0 false 0 (node 0 true 97 nullptr nullptr) (node 0 true 98 nullptr nullptr))
        (node 0 true 0 nullptr nullptr)⟩, false, true, true⟩ ∧
    Unflatten ((HuffmanTree.ofFrequencies listPQ sampleTable).Flatten.take 5) =
      .error (.outOfBounds 6) :=
  ⟨by decide, rfl, rfl⟩

/-! ## Optimality of the built tree -/

theorem profileCost_cons (e : Int × Nat) (Pr : Multiset (Int × Nat)) :
    profileCost (e ::ₘ Pr) = e.1 * (e.2 : Int) + profileCost Pr := by
  simp [profileCost]

theorem KraftFull_card_pos {M : Multiset Nat} (h : KraftFull M) : 0 < Multiset.card M := by
  cases h <;> simp

theorem KraftFull_singleton {M : Multiset Nat} (h : KraftFull M)
    (h1 : Multiset.card M = 1) : M = {0} := by
  cases h with
  | root => rfl
  | split d M0 h0 => simp at h1

/-- A full-tree depth multiset with at least two leaves has two leaves of greatest
depth, and replacing them by one leaf a level higher gives such a multiset again. -/
theorem KraftFull_two_deepest {M : Multiset Nat} (h : KraftFull M) :
    2 ≤ Multiset.card M →
    ∃ (D : Nat) (M1 : Multiset Nat), M = (D + 1) ::ₘ (D + 1) ::ₘ M1 ∧
      (∀ d ∈ M1, d ≤ D + 1) ∧ KraftFull (D ::ₘ M1) := by
  induction h with
  | root => intro h2; simp at h2
  | split d M0 h0 ih =>
    intro _
    by_cases hc : 2 ≤ Multiset.card (d ::ₘ M0)
    · obtain ⟨D0, M2, heq, hle, hK⟩ := ih hc
      by_cases hd : d = D0 + 1
      · subst hd
        have hM0 : M0 = (D0 + 1) ::ₘ M2 := by
          have := (Multiset.cons_inj_right (D0 + 1)).1 heq
          exact this
        refine ⟨D0 + 1, M0, rfl, ?_, h0⟩
        intro x hx
        rw [hM0] at hx
        rcases Multiset.mem_cons.1 hx with rfl | hx
        · omega
        · have := hle x hx
          omega
      · rcases Multiset.cons_eq_cons.1 heq with ⟨h1, _⟩ | ⟨_, cs, hcs1, hcs2⟩
        · exact absurd h1 hd
        · rcases Multiset.cons_eq_cons.1 hcs2 with ⟨h1, _⟩ | ⟨_, cs2, hcs3, hcs4⟩
          · exact absurd h1.symm hd
          · -- `M2 = d ::ₘ cs2`, `M0 = (D0+1) ::ₘ (D0+1) ::ₘ cs2`
            have hdle : d ≤ D0 + 1 := hle d (by rw [hcs3]; exact Multiset.mem_cons_self _ _)
            have hdlt : d + 1 ≤ D0 + 1 := by omega
            refine ⟨D0, (d + 1) ::ₘ (d + 1) ::ₘ cs2, ?_, ?_, ?_⟩
            · rw [hcs1, hcs4]
              simp only [← Multiset.singleton_add]
              abel
            · intro x hx
              rcases Multiset.mem_cons.1 hx with rfl | hx
              · exact hdlt
              · rcases Multiset.mem_cons.1 hx with rfl | hx
                · exact hdlt
                · exact hle x (by rw [hcs3]; exact Multiset.mem_cons_of_mem hx)
            · have e1 : D0 ::ₘ (d + 1) ::ₘ (d + 1) ::ₘ cs2 =
                  (d + 1) ::ₘ (d + 1) ::ₘ D0 ::ₘ cs2 := by
                simp only [← Multiset.singleton_add]
                abel
              rw [e1]
              apply KraftFull.split
              rw [Multiset.cons_swap d D0, ← hcs3]
              exact hK
    · have hM0 : M0 = 0 := by
        apply Multiset.card_eq_zero.1
        simp only [Multiset.card_cons] at hc
        omega
      subst hM0
      exact ⟨d, 0, rfl, by simp, h0⟩

/-- Exchange step: a least weight can be moved to a greatest depth without raising
the cost. -/
theorem profile_place (R : Multiset (Int × Nat)) (a : Int) (D : Nat)
    (ha : a ∈ R.map Prod.fst) (hamin : ∀ w ∈ R.map Prod.fst, a ≤ w)
    (hD : D ∈ R.map Prod.snd) (hDmax : ∀ d ∈ R.map Prod.snd, d ≤ D) :
    ∃ R1 : Multiset (Int × Nat), R.map Prod.fst = a ::ₘ R1.map Prod.fst ∧
      R.map Prod.snd = D ::ₘ R1.map Prod.snd ∧
      profileCost ((a, D) ::ₘ R1) ≤ profileCost R := by
  obtain ⟨⟨a1, d1⟩, he1, hfa⟩ := Multiset.mem_map.1 ha
  simp only at hfa
  subst hfa
  obtain ⟨R0, rfl⟩ := Multiset.exists_cons_of_mem he1
  simp only [Multiset.map_cons, Multiset.mem_cons] at hD
  rcases hD with hD | hD
  · subst hD
    exact ⟨R0, by simp, by simp, le_refl _⟩
  · obtain ⟨⟨x, d2⟩, he2, hfd⟩ := Multiset.mem_map.1 hD
    simp only at hfd
    subst hfd
    obtain ⟨R2, rfl⟩ := Multiset.exists_cons_of_mem he2
    have hax : a1 ≤ x := hamin x (by simp)
    have hdd : d1 ≤ d2 := hDmax d1 (by simp)
    refine ⟨(x, d1) ::ₘ R2, by simp, ?_, ?_⟩
    · simp only [Multiset.map_cons]
      exact Multiset.cons_swap _ _ _
    · simp only [profileCost_cons]
      have hdd2 : (d1 : Int) ≤ (d2 : Int) := by exact_mod_cast hdd
      nlinarith [mul_nonneg (sub_nonneg.2 hax) (sub_nonneg.2 hdd2)]

/-- Merging step: in any full-tree profile the two least weights can be replaced by
their sum, one level higher, lowering the cost by at least that sum. -/
theorem profile_merge (Pr : Multiset (Int × Nat)) (a b : Int) (W : Multiset Int)
    (hK : KraftFull (Pr.map Prod.snd)) (hW : Pr.map Prod.fst = a ::ₘ b ::ₘ W)
    (ha : ∀ w ∈ b ::ₘ W, a ≤ w) (hb : ∀ w ∈ W, b ≤ w) :
    ∃ Pr1 : Multiset (Int × Nat), KraftFull (Pr1.map Prod.snd) ∧
      Pr1.map Prod.fst = (a + b) ::ₘ W ∧ profileCost Pr1 + a + b ≤ profileCost Pr := by
  have hcard : 2 ≤ Multiset.card (Pr.map Prod.snd) := by
    have := congrArg Multiset.card hW
    simp only [Multiset.card_map, Multiset.card_cons] at this ⊢
    omega
  obtain ⟨D, M1, hM, hle, hK1⟩ := KraftFull_two_deepest hK hcard
  -- place `a` at depth `D + 1`
  obtain ⟨R1, hf1, hs1, hc1⟩ := profile_place Pr a (D + 1)
    (by rw [hW]; exact Multiset.mem_cons_self _ _)
    (by
      intro w hw
      rw [hW] at hw
      rcases Multiset.mem_cons.1 hw with rfl | hw
      · exact le_refl _
      · exact ha w hw)
    (by rw [hM]; exact Multiset.mem_cons_self _ _)
    (by
      intro d hd
      rw [hM] at hd
      rcases Multiset.mem_cons.1 hd with rfl | hd
      · exact le_refl _
      · rcases Multiset.mem_cons.1 hd with rfl | hd
        · exact le_refl _
        · exact hle d hd)
  have hf1a : R1.map Prod.fst = b ::ₘ W := by
    rw [hW] at hf1
    exact ((Multiset.cons_inj_right a).1 hf1).symm
  have hs1a : R1.map Prod.snd = (D + 1) ::ₘ M1 := by
    rw [hM] at hs1
    exact ((Multiset.cons_inj_right (D + 1)).1 hs1).symm
  -- place `b` at depth `D + 1`
  obtain ⟨R2, hf2, hs2, hc2⟩ := profile_place R1 b (D + 1)
    (by rw [hf1a]; exact Multiset.mem_cons_self _ _)
    (by
      intro w hw
      rw [hf1a] at hw
      rcases Multiset.mem_cons.1 hw with rfl | hw
      · exact le_refl _
      · exact hb w hw)
    (by rw [hs1a]; exact Multiset.mem_cons_self _ _)
    (by
      intro d hd
      rw [hs1a] at hd
      rcases Multiset.mem_cons.1 hd with rfl | hd
      · exact le_refl _
      · exact hle d hd)
  have hf2a : R2.map Prod.fst = W := by
    rw [hf1a] at hf2
    exact ((Multiset.cons_inj_right b).1 hf2).symm
  have hs2a : R2.map Prod.snd = M1 := by
    rw [hs1a] at hs2
    exact ((Multiset.cons_inj_right (D + 1)).1 hs2).symm
  refine ⟨(a + b, D) ::ₘ R2, ?_, ?_, ?_⟩
  · simp only [Multiset.map_cons, hs2a]
    exact hK1
  · simp only [Multiset.map_cons, hf2a]
  · simp only [profileCost_cons] at hc1 hc2 ⊢
    push_cast at hc1 hc2 ⊢
    nlinarith

theorem profileCost_treeProfile (byte_frequencies : Nat → Int) (u : BitNodePtr) :
    profileCost (treeProfile byte_frequencies u : Multiset (Int × Nat)) =
      encodedLength byte_frequencies u := by
  simp [profileCost, treeProfile, encodedLength, List.map_map, Function.comp_def]

theorem treeProfile_map_fst (byte_frequencies : Nat → Int) (u : BitNodePtr) :
    (treeProfile byte_frequencies u).map Prod.fst = (leafBytes u).map byte_frequencies := by
  rw [← pathList_map_fst]
  simp [treeProfile, List.map_map, Function.comp_def]

theorem subtreeWeight_eq (byte_frequencies : Nat → Int) (u : BitNodePtr) :
    subtreeWeight byte_frequencies u =
      ((pathList u).map fun kv => byte_frequencies kv.1).sum := by
  rw [subtreeWeight, ← pathList_map_fst]
  simp [List.map_map, Function.comp_def]

theorem subtreeWeight_inner (byte_frequencies : Nat → Int) (f : Int) (b : Nat)
    (l r : BitNodePtr) :
    subtreeWeight byte_frequencies (node f false b l r) =
      subtreeWeight byte_frequencies l + subtreeWeight byte_frequencies r := by
  simp [subtreeWeight, leafBytes_node]

theorem sum_map_succ (byte_frequencies : Nat → Int) (d : Bool) :
    ∀ L : List (Nat × List Bool),
      ((L.map fun kv => (kv.1, d :: kv.2)).map
        fun kv => byte_frequencies kv.1 * (kv.2.length : Int)).sum =
      (L.map fun kv => byte_frequencies kv.1 * (kv.2.length : Int)).sum +
        (L.map fun kv => byte_frequencies kv.1).sum
  | [] => by simp
  | kv :: L => by
    have ih := sum_map_succ byte_frequencies d L
    simp only [List.map_cons, List.sum_cons, List.length_cons, Nat.cast_add, Nat.cast_one]
    rw [ih]
    ring

/-- Putting two trees under a new parent lengthens every code by one bit. -/
theorem encodedLength_inner (byte_frequencies : Nat → Int) (f : Int) (b : Nat)
    (l r : BitNodePtr) :
    encodedLength byte_frequencies (node f false b l r) =
      encodedLength byte_frequencies l + encodedLength byte_frequencies r +
      subtreeWeight byte_frequencies l + subtreeWeight byte_frequencies r := by
  simp only [encodedLength, pathList, Bool.false_eq_true, if_false, List.nil_append,
    List.map_append, List.sum_append, sum_map_succ, subtreeWeight_eq]
  ring

/-- The leaf depths of a full tree hung at depth `k` in place of a leaf. -/
theorem KraftFull_of_isFull : ∀ (u : BitNodePtr), isFull u = true →
    ∀ (k : Nat) (M : Multiset Nat), KraftFull (k ::ₘ M) →
      KraftFull (((pathList u).map fun kv => kv.2.length + k : List Nat) + M)
  | nullptr, h => by simp [isFull] at h
  | node f true b l r, h => by
    intro k M hK
    simp only [isFull, if_true, Bool.and_eq_true, isNull_iff] at h
    obtain ⟨rfl, rfl⟩ := h
    simpa [pathList] using hK
  | node f false b l r, h => by
    intro k M hK
    simp only [isFull, Bool.false_eq_true, if_false, Bool.and_eq_true] at h
    have h1 := KraftFull.split k M hK
    have h2 := KraftFull_of_isFull l h.1 (k + 1) ((k + 1) ::ₘ M) h1
    have e2 : (((pathList l).map fun kv => kv.2.length + (k + 1) : List Nat) :
        Multiset Nat) + (k + 1) ::ₘ M =
        (k + 1) ::ₘ ((((pathList l).map fun kv => kv.2.length + (k + 1) : List Nat) :
          Multiset Nat) + M) := by
      simp only [← Multiset.singleton_add]
      abel
    rw [e2] at h2
    have h3 := KraftFull_of_isFull r h.2 (k + 1) _ h2
    have e3 : (((pathList (node f false b l r)).map fun kv => kv.2.length + k : List Nat) :
        Multiset Nat) =
        (((pathList r).map fun kv => kv.2.length + (k + 1) : List Nat) : Multiset Nat) +
        (((pathList l).map fun kv => kv.2.length + (k + 1) : List Nat) : Multiset Nat) := by
      simp only [pathList, Bool.false_eq_true, if_false, List.nil_append, List.map_append,
        List.map_map, Function.comp_def, List.length_cons, ← Multiset.coe_add]
      apply Multiset.coe_eq_coe.2
      have e4 : ∀ x : Nat × List Bool, x.2.length + 1 + k = x.2.length + (k + 1) := by
        intro x; omega
      simp only [e4]
      exact List.perm_append_comm
    rw [e3, add_assoc]
    exact h3

theorem KraftFull_treeProfile (byte_frequencies : Nat → Int) (u : BitNodePtr)
    (h : isFull u = true) :
    KraftFull ((treeProfile byte_frequencies u : Multiset (Int × Nat)).map Prod.snd) := by
  have := KraftFull_of_isFull u h 0 0 KraftFull.root
  simpa [treeProfile, List.map_map, Function.comp_def] using this

theorem OptInv_init (byte_frequencies : Nat → Int) (u : BitNodePtr)
    (hu : isFull u = true)
    (hleaves : List.Perm (leafBytes u) (positiveBytes byte_frequencies)) :
    OptInv byte_frequencies ((positiveBytes byte_frequencies).map byte_frequencies).sum
      (encodedLength byte_frequencies u)
      (leafVector byte_frequencies : Multiset BitNodePtr) := by
  rw [leafVector_eq]
  have hw : ∀ b, subtreeWeight byte_frequencies
      (node (byte_frequencies b) true b nullptr nullptr) = byte_frequencies b := by
    intro b
    simp [subtreeWeight, leafBytes, leafList]
  have he : ∀ b, encodedLength byte_frequencies
      (node (byte_frequencies b) true b nullptr nullptr) = 0 := by
    intro b
    simp [encodedLength, pathList]
  refine ⟨?_, ?_, (treeProfile byte_frequencies u : Multiset (Int × Nat)),
    KraftFull_treeProfile byte_frequencies u hu, ?_, ?_⟩
  · intro t ht
    simp only [Multiset.mem_coe, List.mem_map] at ht
    obtain ⟨b, hb, rfl⟩ := ht
    rw [hw]
    exact ⟨rfl, (mem_positiveBytes.1 hb).2⟩
  · simp only [Multiset.map_coe, Multiset.sum_coe, List.map_map, Function.comp_def, hw]
  · simp only [Multiset.map_coe, treeProfile_map_fst, List.map_map, Function.comp_def,
      BitNodePtr.frequency]
    exact Multiset.coe_eq_coe.2 (hleaves.map _)
  · rw [profileCost_treeProfile]
    simp only [Multiset.map_coe, Multiset.sum_coe, List.map_map, Function.comp_def, he]
    simp

theorem OptInv_step (byte_frequencies : Nat → Int) (S C : Int) (hS : S < 2147483648)
    (l r : BitNodePtr) (Q : Multiset BitNodePtr)
    (h : OptInv byte_frequencies S C (l ::ₘ r ::ₘ Q))
    (hl : ∀ y ∈ r ::ₘ Q, l.frequency ≤ y.frequency)
    (hr : ∀ y ∈ Q, r.frequency ≤ y.frequency) :
    OptInv byte_frequencies S C
      (node (wrapInt32 (l.frequency + r.frequency)) false 0 l r ::ₘ Q) := by
  obtain ⟨hw, hsum, Pr, hK, hfst, hcost⟩ := h
  obtain ⟨hwl, hpl⟩ := hw l (Multiset.mem_cons_self _ _)
  obtain ⟨hwr, hpr⟩ := hw r (Multiset.mem_cons_of_mem (Multiset.mem_cons_self _ _))
  have hrest : 0 ≤ (Q.map (subtreeWeight byte_frequencies)).sum := by
    apply Multiset.sum_nonneg
    intro x hx
    obtain ⟨t, ht, rfl⟩ := Multiset.mem_map.1 hx
    exact le_of_lt (hw t (Multiset.mem_cons_of_mem (Multiset.mem_cons_of_mem ht))).2
  simp only [Multiset.map_cons, Multiset.sum_cons] at hsum hfst hcost
  have hfreq : wrapInt32 (l.frequency + r.frequency) =
      subtreeWeight byte_frequencies l + subtreeWeight byte_frequencies r := by
    rw [hwl, hwr]
    exact wrapInt32_eq _ (by omega) (by omega)
  obtain ⟨Pr1, hK1, hfst1, hcost1⟩ := profile_merge Pr l.frequency r.frequency
    (Q.map BitNodePtr.frequency) hK hfst
    (by
      intro w hw1
      rcases Multiset.mem_cons.1 hw1 with rfl | hw1
      · exact hl r (Multiset.mem_cons_self _ _)
      · obtain ⟨t, ht, rfl⟩ := Multiset.mem_map.1 hw1
        exact hl t (Multiset.mem_cons_of_mem ht))
    (by
      intro w hw1
      obtain ⟨t, ht, rfl⟩ := Multiset.mem_map.1 hw1
      exact hr t ht)
  refine ⟨?_, ?_, Pr1, hK1, ?_, ?_⟩
  · intro t ht
    rcases Multiset.mem_cons.1 ht with rfl | ht
    · rw [subtreeWeight_inner]
      exact ⟨hfreq, by omega⟩
    · exact hw t (Multiset.mem_cons_of_mem (Multiset.mem_cons_of_mem ht))
  · simp only [Multiset.map_cons, Multiset.sum_cons, subtreeWeight_inner]
    omega
  · rw [Multiset.map_cons, hfst1]
    have : (node (wrapInt32 (l.frequency + r.frequency)) false 0 l r).frequency =
        wrapInt32 (l.frequency + r.frequency) := rfl
    rw [this, hfreq, hwl, hwr]
  · simp only [Multiset.map_cons, Multiset.sum_cons, encodedLength_inner]
    rw [hwl, hwr] at hcost1
    omega

/-- Optimality among full binary trees, for tables whose positive entries sum to
less than 2^31. -/
theorem ofFrequencies_optimal_full (P : PriorityQueue) (byte_frequencies : Nat → Int)
    (h2 : 2 ≤ positiveCount byte_frequencies)
    (hsum : ((positiveBytes byte_frequencies).map byte_frequencies).sum < 2147483648)
    (u : BitNodePtr) (hu : isFull u = true)
    (hleaves : List.Perm (leafBytes u) (positiveBytes byte_frequencies)) :
    encodedLength byte_frequencies (HuffmanTree.ofFrequencies P byte_frequencies).root_ ≤
      encodedLength byte_frequencies u := by
  have key := ofFrequencies_invariant P byte_frequencies
    (OptInv byte_frequencies ((positiveBytes byte_frequencies).map byte_frequencies).sum
      (encodedLength byte_frequencies u)) h2
    (OptInv_init byte_frequencies u hu hleaves)
    (fun l r Q h hl hr => OptInv_step byte_frequencies _ _ hsum l r Q h hl hr)
  obtain ⟨_, _, Pr, hK, hfst, hcost⟩ := key
  have hcard : Multiset.card Pr = 1 := by
    have := congrArg Multiset.card hfst
    simpa using this
  obtain ⟨e, rfl⟩ := Multiset.card_eq_one.1 hcard
  have h0 := KraftFull_singleton hK (by simp)
  have he : e.2 = 0 := by
    have : e.2 ∈ Multiset.map Prod.snd {e} := by simp
    rw [h0] at this
    exact Multiset.mem_singleton.1 this
  have hc0 : profileCost {e} = 0 := by
    simp [profileCost, he]
  rw [hc0] at hcost
  simpa using hcost

theorem subtreeWeight_nullptr (byte_frequencies : Nat → Int) :
    subtreeWeight byte_frequencies nullptr = 0 := rfl

theorem encodedLength_nullptr (byte_frequencies : Nat → Int) :
    encodedLength byte_frequencies nullptr = 0 := rfl

theorem leafBytes_nullptr : leafBytes nullptr = [] := rfl

theorem subtreeWeight_nonneg (byte_frequencies : Nat → Int) (u : BitNodePtr)
    (h : ∀ b ∈ leafBytes u, 0 ≤ byte_frequencies b) :
    0 ≤ subtreeWeight byte_frequencies u := by
  apply List.sum_nonneg
  intro x hx
  obtain ⟨b, hb, rfl⟩ := List.mem_map.1 hx
  exact h b hb

theorem encodedLength_nonneg (byte_frequencies : Nat → Int) (u : BitNodePtr)
    (h : ∀ b ∈ leafBytes u, 0 ≤ byte_frequencies b) :
    0 ≤ encodedLength byte_frequencies u := by
  apply List.sum_nonneg
  intro x hx
  obtain ⟨kv, hkv, rfl⟩ := List.mem_map.1 hx
  exact mul_nonneg (h kv.1 (mem_leafBytes_of_mem_pathList hkv)) (Int.natCast_nonneg _)

/-- Removing absent children keeps the leaves, gives a full tree (or no tree), and
does not lengthen the encoding when the frequencies are not negative. -/
theorem contract_spec (byte_frequencies : Nat → Int) : ∀ (u : BitNodePtr),
    isProper u = true → (∀ b ∈ leafBytes u, 0 ≤ byte_frequencies b) →
    leafBytes (contract u) = leafBytes u ∧
    (contract u = nullptr ∧ leafBytes u = [] ∨ isFull (contract u) = true) ∧
    encodedLength byte_frequencies (contract u) ≤ encodedLength byte_frequencies u
  | nullptr, _, _ => ⟨rfl, Or.inl ⟨rfl, rfl⟩, le_refl _⟩
  | node f true b l r, hp, _ => by
    simp only [isProper, if_true] at hp
    have hc : contract (node f true b l r) = node f true b l r := by
      simp only [contract, if_true]
    rw [hc]
    exact ⟨rfl, Or.inr (by simpa [isFull] using hp), le_refl _⟩
  | node f false b l r, hp, hf => by
    simp only [isProper, Bool.false_eq_true, if_false, Bool.and_eq_true] at hp
    have hfl : ∀ x ∈ leafBytes l, 0 ≤ byte_frequencies x := fun x hx =>
      hf x (by rw [leafBytes_node]; simp [hx])
    have hfr : ∀ x ∈ leafBytes r, 0 ≤ byte_frequencies x := fun x hx =>
      hf x (by rw [leafBytes_node]; simp [hx])
    obtain ⟨hl1, hl2, hl3⟩ := contract_spec byte_frequencies l hp.1 hfl
    obtain ⟨hr1, hr2, hr3⟩ := contract_spec byte_frequencies r hp.2 hfr
    have hwl := subtreeWeight_nonneg byte_frequencies l hfl
    have hwr := subtreeWeight_nonneg byte_frequencies r hfr
    have hel := encodedLength_nonneg byte_frequencies l hfl
    have her := encodedLength_nonneg byte_frequencies r hfr
    rw [encodedLength_inner, leafBytes_node]
    simp only [contract, Bool.false_eq_true, if_false, List.nil_append]
    cases hcl : contract l with
    | nullptr =>
      rw [hcl] at hl1 hl2 hl3
      rw [leafBytes_nullptr] at hl1
      simp only []
      refine ⟨by rw [hr1, ← hl1]; simp, ?_, by omega⟩
      rcases hr2 with ⟨hr2a, hr2b⟩ | hr2
      · exact Or.inl ⟨hr2a, by rw [← hl1, hr2b]; rfl⟩
      · exact Or.inr hr2
    | node fl tl bl ll rl =>
      rw [hcl] at hl1 hl2 hl3
      have hlfull : isFull (node fl tl bl ll rl) = true := by
        rcases hl2 with ⟨h0, _⟩ | h
        · exact absurd h0 (by simp)
        · exact h
      cases hcr : contract r with
      | nullptr =>
        rw [hcr] at hr1 hr2 hr3
        rw [leafBytes_nullptr] at hr1
        simp only []
        exact ⟨by rw [hl1, ← hr1]; simp, Or.inr hlfull, by omega⟩
      | node fr tr br lr rr =>
        rw [hcr] at hr1 hr2 hr3
        have hrfull : isFull (node fr tr br lr rr) = true := by
          rcases hr2 with ⟨h0, _⟩ | h
          · exact absurd h0 (by simp)
          · exact h
        simp only []
        refine ⟨by rw [leafBytes_node, hl1, hr1]; simp, Or.inr ?_, ?_⟩
        · simp only [isFull, Bool.false_eq_true, if_false, Bool.and_eq_true]
          exact ⟨hlfull, hrfull⟩
        · rw [encodedLength_inner]
          have e1 : subtreeWeight byte_frequencies (node fl tl bl ll rl) =
              subtreeWeight byte_frequencies l := by
            simp only [subtreeWeight, hl1]
          have e2 : subtreeWeight byte_frequencies (node fr tr br lr rr) =
              subtreeWeight byte_frequencies r := by
            simp only [subtreeWeight, hr1]
          rw [e1, e2]
          omega

/-- C2 (amended): for every 256-entry frequency table with at least two positive
entries whose positive entries sum to less than 2^31, the tree built by the
constructor is optimal: its total encoded length (sum over the positive-frequency
bytes of frequency times leaf depth) is at most that of every binary prefix-code
tree (terminal nodes childless, children of non-terminal nodes possibly absent)
whose leaves are exactly the same bytes, each once. -/
theorem C2_optimal (P : PriorityQueue) (byte_frequencies : Nat → Int)
    (h2 : 2 ≤ positiveCount byte_frequencies)
    (hsum : ((positiveBytes byte_frequencies).map byte_frequencies).sum < 2147483648)
    (u : BitNodePtr) (hu : isProper u = true)
    (hleaves : List.Perm (leafBytes u) (positiveBytes byte_frequencies)) :
    encodedLength byte_frequencies (HuffmanTree.ofFrequencies P byte_frequencies).root ≤
      encodedLength byte_frequencies u := by
  have hf : ∀ b ∈ leafBytes u, 0 ≤ byte_frequencies b := fun b hb =>
    le_of_lt (mem_positiveBytes.1 (hleaves.mem_iff.1 hb)).2
  obtain ⟨h1, hfull, hle⟩ := contract_spec byte_frequencies u hu hf
  have hfull2 : isFull (contract u) = true := by
    rcases hfull with ⟨_, h0⟩ | h
    · have := hleaves.length_eq
      rw [h0] at this
      have h3 : positiveCount byte_frequencies = 0 := this.symm
      omega
    · exact h
  exact le_trans
    (ofFrequencies_optimal_full P byte_frequencies h2 hsum (contract u) hfull2
      (by rw [h1]; exact hleaves)) hle

/-- C2 (amended) at the table `sampleTable`, against the tree `sampleCodeTree`. -/
theorem C2_optimal_witness :
    2 ≤ positiveCount sampleTable ∧
    ((positiveBytes sampleTable).map sampleTable).sum < 2147483648 ∧
    isProper sampleCodeTree = true ∧
    List.Perm (leafBytes sampleCodeTree) (positiveBytes sampleTable) ∧
    encodedLength sampleTable (HuffmanTree.ofFrequencies listPQ sampleTable).root ≤
      encodedLength sampleTable sampleCodeTree :=
  ⟨by decide, by decide, by decide, by decide,
    C2_optimal listPQ sampleTable (by decide) (by decide) sampleCodeTree (by decide)
      (by decide)⟩

/-- C2 as stated, for every table, fails: with three entries 2^30 and one entry
2^30 + 1 the first merged frequency wraps to -2^31, the chain-shaped tree built
costs 9 * 2^30 + 1 bits, and the balanced tree costs 8 * 2^30 + 2 bits. -/
theorem C2_counterexample :
    2 ≤ positiveCount largeTable ∧ isFull balancedTree = true ∧
    leafBytes balancedTree = positiveBytes largeTable ∧
    encodedLength largeTable balancedTree <
      encodedLength largeTable (HuffmanTree.ofFrequencies listPQ largeTable).root := by
  refine ⟨by decide, by decide, by decide, by decide⟩

/-! ## The scenarios of the specification, evaluated -/

/-- Scenario B: the empty file is compressed to no tree and no stream byte, and
decompressed to the empty file. -/
theorem scenario_empty_file :
    compress listPQ [] = ⟨0, [], []⟩ ∧ decompress (compress listPQ []) = .ok [] :=
  ⟨rfl, rfl⟩

/-- Scenario A: four bytes 0x61 are compressed to the flattened tree `01a` and the
single stream byte 0x00, and decompressed to the same four bytes. -/
theorem scenario_repeated_byte :
    compress listPQ [97, 97, 97, 97] = ⟨4, [48, 49, 97], [0]⟩ ∧
    decompress (compress listPQ [97, 97, 97, 97]) = .ok [97, 97, 97, 97] :=
  ⟨rfl, rfl⟩

/-! ## Trailing bytes after the flattened tree -/

/-- `Unflatten` applied to the flattened form of a full tree with a non-terminal
root, followed by any bytes `X`: the tree is rebuilt, the bytes of `X` are not
read, and "encoding too long" is printed exactly when `X` is not empty. -/
theorem Unflatten_Flatten_append (f : Int) (b : Nat) (l r : BitNodePtr)
    (hl : isFull l = true) (hr : isFull r = true) (X : List Nat) :
    Unflatten (FlattenHelper (node f false b l r) [] ++ X) =
      .ok ⟨⟨node 0 false 0 (skeleton l) (skeleton r)⟩, false, decide (X ≠ []), false⟩ := by
  have henc : FlattenHelper (node f false b l r) [] ++ X =
      48 :: (FlattenHelper l [] ++ (FlattenHelper r [] ++ X)) := by
    rw [FlattenHelper_inner]; simp
  rw [henc]
  have hread : readChar (48 :: (FlattenHelper l [] ++ (FlattenHelper r [] ++ X))) 0 =
      .ok (48, false) := readChar_append [] _ 48
  have hlen : (48 :: (FlattenHelper l [] ++ (FlattenHelper r [] ++ X))).length =
      1 + (FlattenHelper l []).length + (FlattenHelper r []).length + X.length := by
    simp; omega
  have hcl := nodeCount_le_flatten l hl
  have hcr := nodeCount_le_flatten r hr
  obtain ⟨k, hk⟩ : ∃ k,
      (48 :: (FlattenHelper l [] ++ (FlattenHelper r [] ++ X))).length + 1 =
      k + nodeCount r + nodeCount l :=
    ⟨(48 :: (FlattenHelper l [] ++ (FlattenHelper r [] ++ X))).length + 1
        - nodeCount r - nodeCount l, by omega⟩
  have s1 := UnflattenLoop_subtree
    (48 :: (FlattenHelper l [] ++ (FlattenHelper r [] ++ X))) l hl
    (node 0 false 0 nullptr nullptr) [] [] false (k + nodeCount r) 1 [48]
    (FlattenHelper r [] ++ X) (by simp) rfl rfl rfl
  have a1 : attach (node 0 false 0 nullptr nullptr) [] (skeleton l) =
      node 0 false 0 (skeleton l) nullptr := by
    simp [attach, subtree, modifyAt, left, isNull, setLeft]
  rw [a1, unwind_keep _ _ _ (by rfl)] at s1
  have s2 := UnflattenLoop_subtree
    (48 :: (FlattenHelper l [] ++ (FlattenHelper r [] ++ X))) r hr
    (node 0 false 0 (skeleton l) nullptr) [] [] false k
    (1 + (FlattenHelper l []).length) (48 :: FlattenHelper l []) X
    (by simp) (by simp; omega) rfl rfl
  have a2 : attach (node 0 false 0 (skeleton l) nullptr) [] (skeleton r) =
      node 0 false 0 (skeleton l) (skeleton r) := by
    have := skeleton_isNull_of_isFull l hl
    simp [attach, subtree, modifyAt, left, this, setRight]
  rw [a2, unwind_pop _ _ _ (by
    simp only [subtree, right]; exact skeleton_isNull_of_isFull r hr)] at s2
  simp only [unwind] at s2
  rw [UnflattenLoop_done _ k ⟨node 0 false 0 (skeleton l) (skeleton r), [],
    1 + (FlattenHelper l []).length + (FlattenHelper r []).length, false⟩
    (Or.inl rfl)] at s2
  simp only [Unflatten, hread, if_true]
  rw [hk]
  simp only [newBitNode, setTerminal]
  rw [s1, s2]
  simp only [hlen]
  by_cases hX : X = []
  · subst hX
    simp
  · have hpos : 0 < X.length := List.length_pos.2 hX
    have hne : 1 + (FlattenHelper l []).length + (FlattenHelper r []).length ≠
        1 + (FlattenHelper l []).length + (FlattenHelper r []).length + X.length := by
      omega
    simp [hne, hX]

/-- C11: for every tree `T` built from a frequency table with at least two positive
entries and every byte string `X`, `Unflatten(Flatten(T) followed by X)` prints
"encoding too long, extra characters unused" if and only if `X` is non-empty,
never prints "tree incomplete", reads no byte of `X`, and in both cases returns
the tree `T`: a tree with the shape of `T` and the byte of `T` at every leaf, which
is the identity of trees in the specification (the frequency fields serve the
construction only, the flattened form holds none of them, and the returned nodes
carry the constructor default 0). -/
theorem C11_trailing_data (P : PriorityQueue) (byte_frequencies : Nat → Int)
    (h2 : 2 ≤ positiveCount byte_frequencies) (X : List Nat) :
    ∃ res : UnflattenResult,
      Unflatten ((HuffmanTree.ofFrequencies P byte_frequencies).Flatten ++ X) = .ok res ∧
      (res.tooLong = true ↔ X ≠ []) ∧ res.tooShort = false ∧ res.readEnd = false ∧
      res.tree.root = skeleton (HuffmanTree.ofFrequencies P byte_frequencies).root ∧
      sameShape res.tree.root (HuffmanTree.ofFrequencies P byte_frequencies).root = true := by
  obtain ⟨f, b, l, r, hroot, hl, hr⟩ := ofFrequencies_root_inner P byte_frequencies h2
  refine ⟨⟨⟨node 0 false 0 (skeleton l) (skeleton r)⟩, false, decide (X ≠ []), false⟩,
    ?_, by simp, rfl, rfl, ?_, ?_⟩
  · simp only [HuffmanTree.Flatten]
    rw [hroot]
    exact Unflatten_Flatten_append f b l r hl hr X
  · simp only [HuffmanTree.root]
    rw [hroot]
    rfl
  · simp only [HuffmanTree.root]
    rw [hroot]
    exact sameShape_skeleton (node f false b l r)

/-- C11 at the table `sampleTable`, with the trailing bytes `[7, 48]`. -/
theorem C11_trailing_data_witness :
    2 ≤ positiveCount sampleTable ∧
    ∃ res : UnflattenResult,
      Unflatten ((HuffmanTree.ofFrequencies listPQ sampleTable).Flatten ++ [7, 48]) =
        .ok res ∧
      (res.tooLong = true ↔ [7, 48] ≠ []) ∧ res.tooShort = false ∧ res.readEnd = false ∧
      res.tree.root = skeleton (HuffmanTree.ofFrequencies listPQ sampleTable).root ∧
      sameShape res.tree.root (HuffmanTree.ofFrequencies listPQ sampleTable).root = true :=
  ⟨by decide, C11_trailing_data listPQ sampleTable (by decide) [7, 48]⟩

/-! ## The empty table and the table with one positive entry -/

theorem positiveBytes_zeroTable : positiveBytes zeroTable = [] := by
  apply List.filter_eq_nil_iff.2
  intro k _
  simp [zeroTable]

/-- C14: for the all-zero frequency table (empty input), the constructor yields no
tree (null root), `GetEncodingMap` returns the empty map, `Flatten` returns the
empty string, the packed stream has zero bytes, and `Unflatten` of the empty
string (which reads only the terminator of the string) followed by decoding the
empty stream with declared length 0 produces zero bytes. -/
theorem C14_empty_input (P : PriorityQueue) :
    CountByteFrequencies [] = zeroTable ∧
    (HuffmanTree.ofFrequencies P zeroTable).root = nullptr ∧
    (∀ k, (HuffmanTree.ofFrequencies P zeroTable).GetEncodingMap k = none) ∧
    (HuffmanTree.ofFrequencies P zeroTable).Flatten = [] ∧
    packStream (HuffmanTree.ofFrequencies P zeroTable).GetEncodingMap [] = [] ∧
    compress P [] = ⟨0, [], []⟩ ∧
    Unflatten [] = .ok ⟨⟨nullptr⟩, false, false, true⟩ ∧
    decodeLoop nullptr 0 [] ⟨nullptr, 0, []⟩ = .ok ⟨nullptr, 0, []⟩ ∧
    decompress ⟨0, [], []⟩ = .ok [] := by
  have h0 : HuffmanTree.ofFrequencies P zeroTable = ⟨nullptr⟩ :=
    ofFrequencies_of_count_zero P _ (by rw [positiveCount, positiveBytes_zeroTable]; rfl)
  have hc : CountByteFrequencies [] = zeroTable := rfl
  refine ⟨hc, ?_, ?_, ?_, ?_, ?_, rfl, rfl, rfl⟩
  · rw [h0]; rfl
  · intro k; rw [h0]; rfl
  · rw [h0]; rfl
  · rw [h0]; rfl
  · simp only [compress, hc, h0]
    rfl

/-- C15: for every frequency table with exactly one positive entry, at byte `b`
with frequency `f`, the constructor yields a non-terminal root whose left child is
a terminal node with byte `b` and no children, whose right child is absent, and
whose frequency equals `f` (as does the frequency of the leaf). -/
theorem C15_single_entry (P : PriorityQueue) (byte_frequencies : Nat → Int) (b : Nat)
    (f : Int) (h1 : positiveBytes byte_frequencies = [b]) (hf : byte_frequencies b = f) :
    (HuffmanTree.ofFrequencies P byte_frequencies).root =
      node f false 0 (node f true b nullptr nullptr) nullptr := by
  rw [← hf, ofFrequencies_of_count_one P byte_frequencies b h1]
  rfl

/-- C15 at the table `singleTable`: byte 97 with frequency 4. -/
theorem C15_single_entry_witness :
    positiveBytes singleTable = [97] ∧ singleTable 97 = 4 ∧
    (HuffmanTree.ofFrequencies listPQ singleTable).root =
      node 4 false 0 (node 4 true 97 nullptr nullptr) nullptr :=
  ⟨by decide, by decide, C15_single_entry listPQ singleTable 97 4 (by decide) (by decide)⟩

/-- The encoding map of the one-leaf tree: the byte of the leaf has the one-bit
code 0, and there is no other key. -/
theorem GetEncodingMap_one_leaf (f : Int) (b : Nat) :
    (HuffmanTree.mk (node f false 0 (node f true b nullptr nullptr)
      nullptr)).GetEncodingMap = fun k => if k = b then some [false] else none := by
  funext k
  simp [HuffmanTree.GetEncodingMap, GetEncodingMapHelper, EncodingMap.assign]

theorem codeBits_replicate (encode_map : EncodingMap) (b n : Nat) (hb : b < 256)
    (hm : encode_map b = some [false]) :
    codeBits encode_map (List.replicate n b) = List.replicate n false := by
  induction n with
  | zero => rfl
  | succ n ih =>
    have hstep : codeBits encode_map (List.replicate (n + 1) b) =
        encode_map.get (b % 256) ++ codeBits encode_map (List.replicate n b) := by
      simp [codeBits, List.replicate_succ]
    rw [hstep, ih, Nat.mod_eq_of_lt hb]
    simp [EncodingMap.get, hm, List.replicate_succ]

theorem set_replicate_false (i : Nat) :
    (List.replicate 8 false).set i false = List.replicate 8 false := by
  apply List.ext_getElem
  · simp
  · intro j h1 h2
    simp only [List.getElem_set, List.getElem_replicate, ite_self]

/-- Packing bits that are all 0 writes bytes that are all 0x00. -/
theorem foldl_packBit_false : ∀ (n idx k : Nat), idx < 8 →
    (List.replicate n false).foldl packBit ⟨List.replicate 8 false, idx, List.replicate k 0⟩ =
      ⟨List.replicate 8 false, (idx + n) % 8, List.replicate (k + (idx + n) / 8) 0⟩
  | 0, idx, k, h => by
    have h1 : (idx + 0) % 8 = idx := by omega
    have h2 : k + (idx + 0) / 8 = k := by omega
    rw [h1, h2]
    rfl
  | n + 1, idx, k, h => by
    have hz : to_ulong (List.replicate 8 false) &&& 0xFF = 0 := by decide
    have hr : List.replicate (n + 1) false = false :: List.replicate n false := rfl
    rw [hr, List.foldl_cons]
    by_cases h8 : idx + 1 = 8
    · have hstep : packBit ⟨List.replicate 8 false, idx, List.replicate k 0⟩ false =
          ⟨List.replicate 8 false, 0, List.replicate (k + 1) 0⟩ := by
        have hk : List.replicate (k + 1) (0 : Nat) = List.replicate k 0 ++ [0] :=
          List.replicate_succ' k 0
        simp only [packBit, set_replicate_false, if_pos h8, hz]
        rw [hk]
      rw [hstep, foldl_packBit_false n 0 (k + 1) (by omega)]
      have h1 : (idx + (n + 1)) % 8 = (0 + n) % 8 := by omega
      have h2 : k + (idx + (n + 1)) / 8 = k + 1 + (0 + n) / 8 := by omega
      rw [h1, h2]
    · have hstep : packBit ⟨List.replicate 8 false, idx, List.replicate k 0⟩ false =
          ⟨List.replicate 8 false, idx + 1, List.replicate k 0⟩ := by
        simp only [packBit, set_replicate_false, if_neg h8]
      rw [hstep, foldl_packBit_false n (idx + 1) k (by omega)]
      have h1 : (idx + (n + 1)) % 8 = (idx + 1 + n) % 8 := by congr 1; omega
      have h2 : k + (idx + (n + 1)) / 8 = k + (idx + 1 + n) / 8 := by
        congr 2; omega
      rw [h1, h2]

/-- The packed stream of `n` one-bit codes 0 consists of ceil(n/8) bytes 0x00. -/
theorem packStream_replicate (encode_map : EncodingMap) (b n : Nat) (hb : b < 256)
    (hm : encode_map b = some [false]) :
    packStream encode_map (List.replicate n b) = List.replicate ((n + 7) / 8) 0 := by
  have hz : to_ulong (List.replicate 8 false) &&& 0xFF = 0 := by decide
  have hfold := foldl_packBit_false n 0 0 (by omega)
  rw [← codeBits_replicate encode_map b n hb hm, ← foldl_packByte] at hfold
  simp only [packStream]
  have hnil : (List.replicate 0 0 : List Nat) = [] := rfl
  rw [hnil] at hfold
  rw [hfold]
  simp only [Nat.zero_add]
  by_cases h0 : n % 8 > 0
  · have hk : List.replicate (n / 8) (0 : Nat) ++ [0] =
        List.replicate (n / 8 + 1) 0 := (List.replicate_succ' (n / 8) 0).symm
    rw [if_pos h0, hz, hk]
    congr 1
    omega
  · rw [if_neg h0]
    congr 1
    omega

theorem positiveBytes_eq_singleton (byte_frequencies : Nat → Int) (b : Nat) (hb : b < 256)
    (hpos : byte_frequencies b > 0)
    (hz : ∀ k, k < 256 → k ≠ b → byte_frequencies k ≤ 0) :
    positiveBytes byte_frequencies = [b] := by
  apply List.perm_singleton.1
  apply (List.perm_ext_iff_of_nodup (positiveBytes_nodup _) (List.nodup_singleton b)).2
  intro k
  rw [mem_positiveBytes, List.mem_singleton]
  constructor
  · rintro ⟨hk, hkp⟩
    by_contra hne
    have := hz k hk hne
    omega
  · rintro rfl
    exact ⟨hb, hpos⟩

/-- The table counted from `n` copies of one byte, when `n` fits in an `int`. -/
theorem CountByteFrequencies_replicate (b n : Nat) (hb : b < 256) (hn : n < 2147483648)
    (k : Nat) :
    CountByteFrequencies (List.replicate n b) k = if k = b then (n : Int) else 0 := by
  rw [CountByteFrequencies_eq, List.map_replicate, Nat.mod_eq_of_lt hb, List.count_replicate]
  by_cases h : k = b
  · subst h
    simp only [beq_self_eq_true, if_true]
    exact wrapInt32_eq _ (by omega) (by omega)
  · have h1 : (b == k) = false := by simpa using fun h2 : b = k => h h2.symm
    simp only [h1, Bool.false_eq_true, if_false, if_neg h, Nat.cast_zero, wrapInt32_zero]

/-- The tree built for `n` copies of one byte, `1 ≤ n < 2^31`. -/
theorem ofFrequencies_replicate (P : PriorityQueue) (b n : Nat) (hb : b < 256)
    (h1 : 1 ≤ n) (hn : n < 2147483648) :
    HuffmanTree.ofFrequencies P (CountByteFrequencies (List.replicate n b)) =
      ⟨node n false 0 (node n true b nullptr nullptr) nullptr⟩ := by
  have hpb : positiveBytes (CountByteFrequencies (List.replicate n b)) = [b] := by
    apply positiveBytes_eq_singleton _ b hb
    · rw [CountByteFrequencies_replicate b n hb hn, if_pos rfl]
      exact_mod_cast h1
    · intro k _ hne
      rw [CountByteFrequencies_replicate b n hb hn, if_neg hne]
  rw [ofFrequencies_of_count_one P _ b hpb, CountByteFrequencies_replicate b n hb hn,
    if_pos rfl]

/-- The tree built for `n` copies of one byte when the `int` counter of the byte
ends at a value that is not positive: no tree. -/
theorem ofFrequencies_replicate_overflow (P : PriorityQueue) (c n : Nat) (hc : c < 256)
    (hn : wrapInt32 n ≤ 0) :
    HuffmanTree.ofFrequencies P (CountByteFrequencies (List.replicate n c)) = ⟨nullptr⟩ := by
  have hpos : positiveBytes (CountByteFrequencies (List.replicate n c)) = [] := by
    apply List.filter_eq_nil_iff.2
    intro k _
    simp only [decide_eq_true_eq, not_lt]
    rw [CountByteFrequencies_eq, List.map_replicate, Nat.mod_eq_of_lt hc,
      List.count_replicate]
    by_cases h : c = k
    · simp only [h, beq_self_eq_true, if_true]
      exact hn
    · have : (c == k) = false := by simpa using h
      simp only [this, Bool.false_eq_true, if_false, Nat.cast_zero, wrapInt32_zero]
      exact le_refl _
  exact ofFrequencies_of_count_zero P _ (by rw [positiveCount, hpos]; rfl)

/-- C16 (amended): for every input consisting of `n` copies of a single byte `b`,
`1 ≤ n < 2^31`, the encoding map is exactly {b: [0]} (one key, the one-bit code 0)
and the packed stream, which is the content written by `compress`, consists of
ceil(n/8) bytes that are all zero. -/
theorem C16_single_byte_input (P : PriorityQueue) (b n : Nat) (hb : b < 256)
    (h1 : 1 ≤ n) (hn : n < 2147483648) :
    (∀ k, (HuffmanTree.ofFrequencies P
        (CountByteFrequencies (List.replicate n b))).GetEncodingMap k =
      if k = b then some [false] else none) ∧
    packStream (HuffmanTree.ofFrequencies P
        (CountByteFrequencies (List.replicate n b))).GetEncodingMap (List.replicate n b) =
      List.replicate ((n + 7) / 8) 0 ∧
    (compress P (List.replicate n b)).content = List.replicate ((n + 7) / 8) 0 := by
  have hmap : (HuffmanTree.ofFrequencies P
      (CountByteFrequencies (List.replicate n b))).GetEncodingMap =
      fun k => if k = b then some [false] else none := by
    rw [ofFrequencies_replicate P b n hb h1 hn, GetEncodingMap_one_leaf]
  have hs : packStream (HuffmanTree.ofFrequencies P
      (CountByteFrequencies (List.replicate n b))).GetEncodingMap (List.replicate n b) =
      List.replicate ((n + 7) / 8) 0 :=
    packStream_replicate _ b n hb (by rw [hmap]; exact if_pos rfl)
  exact ⟨fun k => by rw [hmap], hs, hs⟩

/-- C16 for four copies of 0x61: the map is {0x61: [0]} and the packed stream is
the single byte 0x00. -/
theorem C16_single_byte_input_witness :
    (97 < 256 ∧ 1 ≤ 4 ∧ 4 < 2147483648) ∧
    List.replicate ((4 + 7) / 8) 0 = [0] ∧
    ((∀ k, (HuffmanTree.ofFrequencies listPQ
        (CountByteFrequencies (List.replicate 4 97))).GetEncodingMap k =
      if k = 97 then some [false] else none) ∧
    packStream (HuffmanTree.ofFrequencies listPQ
        (CountByteFrequencies (List.replicate 4 97))).GetEncodingMap (List.replicate 4 97) =
      List.replicate ((4 + 7) / 8) 0 ∧
    (compress listPQ (List.replicate 4 97)).content = List.replicate ((4 + 7) / 8) 0) :=
  ⟨⟨by decide, by decide, by decide⟩, by decide,
    C16_single_byte_input listPQ 97 4 (by decide) (by decide) (by decide)⟩

/-- C16 as stated, for every `n ≥ 1`, fails: for 2^31 copies of the byte 0x61 the
`int` counter of the byte wraps to -2^31, so no tree is built, the encoding map
has no key at all, and the packed stream is empty instead of 2^28 zero bytes. -/
theorem C16_counterexample :
    1 ≤ 2147483648 ∧
    (HuffmanTree.ofFrequencies listPQ
      (CountByteFrequencies (List.replicate 2147483648 97))).GetEncodingMap 97 = none ∧
    (compress listPQ (List.replicate 2147483648 97)).content = [] ∧
    (compress listPQ (List.replicate 2147483648 97)).content ≠
      List.replicate ((2147483648 + 7) / 8) 0 := by
  have ht := ofFrequencies_replicate_overflow listPQ 97 2147483648 (by decide) (by decide)
  have hc := compress_replicate_overflow listPQ 97 2147483648 (by decide) (by decide)
  refine ⟨by decide, ?_, ?_, ?_⟩
  · rw [ht]; rfl
  · rw [hc]
  · rw [hc]
    intro h
    have h2 := congrArg List.length h
    rw [List.length_replicate] at h2
    exact absurd h2 (by decide)

/-- Decoding the packed stream of `n` copies of a byte with the one-leaf tree that
`Unflatten` rebuilds gives the `n` copies back. -/
theorem decodeLoop_one_leaf (encode_map : EncodingMap) (b n : Nat) (hb : b < 256)
    (hm : encode_map b = some [false]) (hn : n < 2147483648) :
    ∃ st, decodeLoop (node 0 false 0 (node 0 true b nullptr nullptr) nullptr) (n : Int)
        (packStream encode_map (List.replicate n b))
        ⟨node 0 false 0 (node 0 true b nullptr nullptr) nullptr, 0, []⟩ = .ok st ∧
      st.decompressed_file = List.replicate n b := by
  have hbits : symbolBits (fun _ => [false]) (List.replicate n b) =
      codeBits encode_map (List.replicate n b) := by
    rw [codeBits_replicate encode_map b n hb hm]
    induction n with
    | zero => rfl
    | succ n ih =>
      have hstep : symbolBits (fun _ => [false]) (List.replicate (n + 1) b) =
          false :: symbolBits (fun _ => [false]) (List.replicate n b) := by
        simp [symbolBits, List.replicate_succ]
      rw [hstep, ih (by omega)]
      rfl
  have hps := packStream_bits encode_map (List.replicate n b)
  rw [← hbits] at hps
  have h := decodeLoop_roundtrip (node 0 false 0 (node 0 true b nullptr nullptr) nullptr)
    (by rfl) rfl (fun _ => [false]) (List.replicate n b)
    (by
      intro x hx
      rw [List.eq_of_mem_replicate hx]
      simp [pathList])
    (by rw [List.length_replicate]; exact hn)
    (packStream encode_map (List.replicate n b)) hps.1
    (by
      intro k hk
      apply hps.2 k
      rw [hps.1]
      omega)
  rw [List.length_replicate] at h
  exact h

/-- C12: for the degenerate tree T built from a frequency table with exactly one
positive entry (byte `b`), `Unflatten(Flatten(T))` rebuilds a tree identical in
shape and leaf byte to T (internal root, left leaf `b`, no right child) but
finishes with a non-empty stack and therefore reports the "tree incomplete"
structural error (and not the other one), although decoding with the rebuilt tree
still works: the packed stream of any number `n < 2^31` of copies of `b` is
decoded to these `n` copies. -/
theorem C12_single_leaf_unflatten (P : PriorityQueue) (byte_frequencies : Nat → Int)
    (b : Nat) (h1 : positiveBytes byte_frequencies = [b]) :
    ∃ res, Unflatten (HuffmanTree.ofFrequencies P byte_frequencies).Flatten = .ok res ∧
      res.tree.root = node 0 false 0 (node 0 true b nullptr nullptr) nullptr ∧
      sameShape res.tree.root (HuffmanTree.ofFrequencies P byte_frequencies).root = true ∧
      leafBytes res.tree.root =
        leafBytes (HuffmanTree.ofFrequencies P byte_frequencies).root ∧
      res.tooShort = true ∧ res.tooLong = false ∧
      ∀ n : Nat, n < 2147483648 →
        ∃ st, decodeLoop res.tree.root (n : Int)
            (packStream (HuffmanTree.ofFrequencies P byte_frequencies).GetEncodingMap
              (List.replicate n b))
            ⟨res.tree.root, 0, []⟩ = .ok st ∧
          st.decompressed_file = List.replicate n b := by
  have hb : b < 256 :=
    (mem_positiveBytes.1 (by rw [h1]; exact List.mem_singleton_self b)).1
  have hT := ofFrequencies_of_count_one P byte_frequencies b h1
  have hflat : (HuffmanTree.ofFrequencies P byte_frequencies).Flatten = [48, 49, b] := by
    rw [hT]; rfl
  refine ⟨⟨⟨node 0 false 0 (node 0 true b nullptr nullptr) nullptr⟩, true, false, false⟩,
    by rw [hflat]; exact Unflatten_one_leaf b, rfl, ?_, ?_, rfl, rfl, ?_⟩
  · rw [hT]
    simp [HuffmanTree.root, sameShape]
  · rw [hT]
    rfl
  · intro n hn
    apply decodeLoop_one_leaf _ b n hb _ hn
    rw [hT, GetEncodingMap_one_leaf]
    exact if_pos rfl

/-- C12 at the table `singleTable` (byte 0x61 with frequency 4). -/
theorem C12_single_leaf_unflatten_witness :
    positiveBytes singleTable = [97] ∧
    ∃ res, Unflatten (HuffmanTree.ofFrequencies listPQ singleTable).Flatten = .ok res ∧
      res.tree.root = node 0 false 0 (node 0 true 97 nullptr nullptr) nullptr ∧
      sameShape res.tree.root (HuffmanTree.ofFrequencies listPQ singleTable).root = true ∧
      leafBytes res.tree.root =
        leafBytes (HuffmanTree.ofFrequencies listPQ singleTable).root ∧
      res.tooShort = true ∧ res.tooLong = false ∧
      ∀ n : Nat, n < 2147483648 →
        ∃ st, decodeLoop res.tree.root (n : Int)
            (packStream (HuffmanTree.ofFrequencies listPQ singleTable).GetEncodingMap
              (List.replicate n 97))
            ⟨res.tree.root, 0, []⟩ = .ok st ∧
          st.decompressed_file = List.replicate n 97 :=
  ⟨by decide, C12_single_leaf_unflatten listPQ singleTable 97 (by decide)⟩

/-! ## Node invariants of the built tree -/

theorem allNodes_node (q : BitNodePtr → Bool) (f : Int) (t : Bool) (b : Nat)
    (l r : BitNodePtr) :
    allNodes q (node f t b l r) = true ↔
      q (node f t b l r) = true ∧ allNodes q l = true ∧ allNodes q r = true := by
  simp only [allNodes, Bool.and_eq_true, and_assoc]

/-- A property that holds at every node holds at every node reached by a path. -/
theorem allNodes_subtree (q : BitNodePtr → Bool) : ∀ (p : List Bool) (t : BitNodePtr),
    allNodes q t = true → subtree t p ≠ nullptr → q (subtree t p) = true
  | [], nullptr, _, hne => absurd rfl hne
  | [], node f t b l r, h, _ => ((allNodes_node q f t b l r).1 h).1
  | _ :: _, nullptr, _, hne => absurd rfl hne
  | d :: ds, node f t b l r, h, hne => by
    have h3 := (allNodes_node q f t b l r).1 h
    cases d
    · exact allNodes_subtree q ds l h3.2.1 hne
    · exact allNodes_subtree q ds r h3.2.2 hne

theorem allNodes_leaf (q : BitNodePtr → Bool) (f : Int) (b : Nat)
    (hq : q (node f true b nullptr nullptr) = true) :
    allNodes q (node f true b nullptr nullptr) = true := by
  simp [allNodes, hq]

/-- Every node reached by a path in a full tree is the root of a full tree. -/
theorem isFull_subtree : ∀ (p : List Bool) (t : BitNodePtr),
    isFull t = true → subtree t p ≠ nullptr → isFull (subtree t p) = true
  | [], nullptr, h, _ => h
  | [], node _ _ _ _ _, h, _ => h
  | _ :: _, nullptr, _, hne => absurd rfl hne
  | d :: ds, node f t b l r, h, hne => by
    cases t
    · simp only [isFull, Bool.false_eq_true, if_false, Bool.and_eq_true] at h
      cases d
      · exact isFull_subtree ds l h.1 hne
      · exact isFull_subtree ds r h.2 hne
    · simp only [isFull, if_true, Bool.and_eq_true, isNull_iff] at h
      obtain ⟨rfl, rfl⟩ := h
      cases d
      · exact absurd (subtree_nullptr ds) hne
      · exact absurd (subtree_nullptr ds) hne

theorem isFull_ne_nullptr {t : BitNodePtr} (h : isFull t = true) : t ≠ nullptr := by
  rintro rfl
  simp [isFull] at h

/-- C17: for every frequency table with at least two positive entries, the built
tree is a full binary tree: every terminal node has no children and every
non-terminal node has exactly two children (both left and right present). -/
theorem C17_full_binary_tree (P : PriorityQueue) (byte_frequencies : Nat → Int)
    (h2 : 2 ≤ positiveCount byte_frequencies) :
    (HuffmanTree.ofFrequencies P byte_frequencies).root ≠ nullptr ∧
    isFull (HuffmanTree.ofFrequencies P byte_frequencies).root = true ∧
    ∀ (p : List Bool) (f : Int) (t : Bool) (b : Nat) (l r : BitNodePtr),
      (HuffmanTree.ofFrequencies P byte_frequencies).root.subtree p = node f t b l r →
      (t = true → l = nullptr ∧ r = nullptr) ∧
      (t = false → l ≠ nullptr ∧ r ≠ nullptr) := by
  have hf := (ofFrequencies_full_leaves P byte_frequencies h2).1
  refine ⟨isFull_ne_nullptr hf, hf, ?_⟩
  intro p f t b l r hp
  have hsub := isFull_subtree p _ hf
    (by
      show (HuffmanTree.ofFrequencies P byte_frequencies).root.subtree p ≠ nullptr
      rw [hp]
      exact fun h => BitNodePtr.noConfusion h)
  have hsub2 : isFull (node f t b l r) = true := by
    rw [← hp]; exact hsub
  constructor
  · rintro rfl
    simpa only [isFull, if_true, Bool.and_eq_true, isNull_iff] using hsub2
  · rintro rfl
    simp only [isFull, Bool.false_eq_true, if_false, Bool.and_eq_true] at hsub2
    exact ⟨isFull_ne_nullptr hsub2.1, isFull_ne_nullptr hsub2.2⟩

/-- C17 at the table `sampleTable`. -/
theorem C17_full_binary_tree_witness :
    2 ≤ positiveCount sampleTable ∧
    (HuffmanTree.ofFrequencies listPQ sampleTable).root ≠ nullptr ∧
    isFull (HuffmanTree.ofFrequencies listPQ sampleTable).root = true ∧
    ∀ (p : List Bool) (f : Int) (t : Bool) (b : Nat) (l r : BitNodePtr),
      (HuffmanTree.ofFrequencies listPQ sampleTable).root.subtree p = node f t b l r →
      (t = true → l = nullptr ∧ r = nullptr) ∧
      (t = false → l ≠ nullptr ∧ r ≠ nullptr) :=
  ⟨by decide, C17_full_binary_tree listPQ sampleTable (by decide)⟩

/-- The left child of every non-terminal node of the built tree is at most as
frequent as the right child. -/
theorem ofFrequencies_leftLeRight (P : PriorityQueue) (byte_frequencies : Nat → Int)
    (h2 : 2 ≤ positiveCount byte_frequencies) :
    allNodes leftLeRight (HuffmanTree.ofFrequencies P byte_frequencies).root_ = true := by
  have key := ofFrequencies_invariant P byte_frequencies
    (fun Q => ∀ t ∈ Q, allNodes leftLeRight t = true) h2 ?_ ?_
  · exact key _ (Multiset.mem_singleton_self _)
  · intro t ht
    rw [leafVector_eq] at ht
    simp only [Multiset.mem_coe, List.mem_map] at ht
    obtain ⟨b, _, rfl⟩ := ht
    exact allNodes_leaf _ _ _ rfl
  · intro l r Q hI hl _ t ht
    rcases Multiset.mem_cons.1 ht with rfl | ht
    · rw [allNodes_node]
      refine ⟨?_, hI _ (Multiset.mem_cons_self _ _),
        hI _ (Multiset.mem_cons_of_mem (Multiset.mem_cons_self _ _))⟩
      simp only [leftLeRight, BitNodePtr.terminal, BitNodePtr.left, BitNodePtr.right,
        Bool.false_or, decide_eq_true_eq]
      exact hl r (Multiset.mem_cons_self _ _)
    · exact hI _ (Multiset.mem_cons_of_mem (Multiset.mem_cons_of_mem ht))

/-- C20: for every frequency table with at least two positive entries, at every
non-terminal node of the built tree the left child's frequency is less than or
equal to the right child's frequency (the first node extracted from the min-queue
becomes the left child). -/
theorem C20_left_le_right (P : PriorityQueue) (byte_frequencies : Nat → Int)
    (h2 : 2 ≤ positiveCount byte_frequencies) :
    ∀ (p : List Bool) (f : Int) (b : Nat) (l r : BitNodePtr),
      (HuffmanTree.ofFrequencies P byte_frequencies).root.subtree p = node f false b l r →
      l.frequency ≤ r.frequency := by
  intro p f b l r hp
  have h := allNodes_subtree leftLeRight p _ (ofFrequencies_leftLeRight P byte_frequencies h2)
    (by
      show (HuffmanTree.ofFrequencies P byte_frequencies).root.subtree p ≠ nullptr
      rw [hp]
      exact fun h => BitNodePtr.noConfusion h)
  have h3 : leftLeRight (node f false b l r) = true := by
    rw [← hp]; exact h
  simpa only [leftLeRight, BitNodePtr.terminal, BitNodePtr.left, BitNodePtr.right,
    Bool.false_or, decide_eq_true_eq] using h3

/-- C20 at the table `sampleTable`. -/
theorem C20_left_le_right_witness :
    2 ≤ positiveCount sampleTable ∧
    ∀ (p : List Bool) (f : Int) (b : Nat) (l r : BitNodePtr),
      (HuffmanTree.ofFrequencies listPQ sampleTable).root.subtree p = node f false b l r →
      l.frequency ≤ r.frequency :=
  ⟨by decide, C20_left_le_right listPQ sampleTable (by decide)⟩

/-- Entries that are not positive contribute nothing to the sum of a table without
negative entries. -/
theorem sum_filter_pos (byte_frequencies : Nat → Int) : ∀ (L : List Nat),
    (∀ b ∈ L, 0 ≤ byte_frequencies b) →
    ((L.filter fun b => decide (byte_frequencies b > 0)).map byte_frequencies).sum =
      (L.map byte_frequencies).sum
  | [], _ => rfl
  | a :: L, h => by
    have ih := sum_filter_pos byte_frequencies L
      (fun b hb => h b (List.mem_cons_of_mem _ hb))
    have ha := h a (List.mem_cons_self _ _)
    by_cases hp : byte_frequencies a > 0
    · rw [List.filter_cons_of_pos (by simpa using hp), List.map_cons, List.sum_cons,
        List.map_cons, List.sum_cons, ih]
    · rw [List.filter_cons_of_neg (by simpa using hp), List.map_cons, List.sum_cons, ih]
      omega

theorem sum_positiveBytes (byte_frequencies : Nat → Int)
    (hnn : ∀ b, b < 256 → 0 ≤ byte_frequencies b) :
    ((positiveBytes byte_frequencies).map byte_frequencies).sum =
      ((List.range 256).map byte_frequencies).sum :=
  sum_filter_pos byte_frequencies (List.range 256)
    (fun b hb => hnn b (List.mem_range.1 hb))

/-- When the positive entries sum to less than 2^31, every node of the built tree
carries the exact sum of the frequencies of its children, and the root carries the
sum of the positive entries. -/
theorem ofFrequencies_weights (P : PriorityQueue) (byte_frequencies : Nat → Int)
    (h2 : 2 ≤ positiveCount byte_frequencies)
    (hsum : ((positiveBytes byte_frequencies).map byte_frequencies).sum < 2147483648) :
    allNodes sumOfChildren (HuffmanTree.ofFrequencies P byte_frequencies).root_ = true ∧
    (HuffmanTree.ofFrequencies P byte_frequencies).root_.frequency =
      ((positiveBytes byte_frequencies).map byte_frequencies).sum := by
  have hw : ∀ b, subtreeWeight byte_frequencies
      (node (byte_frequencies b) true b nullptr nullptr) = byte_frequencies b := by
    intro b
    simp [subtreeWeight, leafBytes, leafList]
  have key := ofFrequencies_invariant P byte_frequencies
    (fun Q => (∀ t ∈ Q, t.frequency = subtreeWeight byte_frequencies t ∧
        0 < subtreeWeight byte_frequencies t ∧ allNodes sumOfChildren t = true) ∧
      (Q.map (subtreeWeight byte_frequencies)).sum =
        ((positiveBytes byte_frequencies).map byte_frequencies).sum) h2 ?_ ?_
  · obtain ⟨ht, hs⟩ := key
    obtain ⟨h1, _, h3⟩ := ht _ (Multiset.mem_singleton_self _)
    refine ⟨h3, ?_⟩
    rw [h1, ← hs]
    simp
  · rw [leafVector_eq]
    refine ⟨?_, ?_⟩
    · intro t ht
      simp only [Multiset.mem_coe, List.mem_map] at ht
      obtain ⟨b, hb, rfl⟩ := ht
      rw [hw]
      exact ⟨rfl, (mem_positiveBytes.1 hb).2, allNodes_leaf _ _ _ rfl⟩
    · simp only [Multiset.map_coe, Multiset.sum_coe, List.map_map, Function.comp_def, hw]
  · rintro l r Q ⟨ht, hs⟩ _ _
    obtain ⟨hwl, hpl, hal⟩ := ht l (Multiset.mem_cons_self _ _)
    obtain ⟨hwr, hpr, har⟩ := ht r (Multiset.mem_cons_of_mem (Multiset.mem_cons_self _ _))
    have hrest : 0 ≤ (Q.map (subtreeWeight byte_frequencies)).sum := by
      apply Multiset.sum_nonneg
      intro x hx
      obtain ⟨t, ht1, rfl⟩ := Multiset.mem_map.1 hx
      exact le_of_lt (ht t (Multiset.mem_cons_of_mem (Multiset.mem_cons_of_mem ht1))).2.1
    simp only [Multiset.map_cons, Multiset.sum_cons] at hs
    have hexact : wrapInt32 (l.frequency + r.frequency) = l.frequency + r.frequency :=
      wrapInt32_eq _ (by omega) (by omega)
    refine ⟨?_, ?_⟩
    · intro t ht1
      rcases Multiset.mem_cons.1 ht1 with rfl | ht1
      · rw [subtreeWeight_inner, allNodes_node]
        refine ⟨?_, by omega, ?_, hal, har⟩
        · show wrapInt32 (l.frequency + r.frequency) = _
          rw [hexact, hwl, hwr]
        · simp only [sumOfChildren, BitNodePtr.terminal, BitNodePtr.left,
            BitNodePtr.right, BitNodePtr.frequency, Bool.false_or, decide_eq_true_eq]
          exact hexact
      · exact ht t (Multiset.mem_cons_of_mem (Multiset.mem_cons_of_mem ht1))
    · simp only [Multiset.map_cons, Multiset.sum_cons, subtreeWeight_inner]
      omega

/-- C13: for every frequency table (256 entries, none negative) with at least two
positive entries, every internal node of the built tree has frequency equal to the
exact sum of its two children's frequencies, and the root's frequency equals the
sum of all 256 table entries, assuming the sum fits in an `int`. -/
theorem C13_weight_conservation (P : PriorityQueue) (byte_frequencies : Nat → Int)
    (h2 : 2 ≤ positiveCount byte_frequencies)
    (hnn : ∀ b, b < 256 → 0 ≤ byte_frequencies b)
    (hsum : ((List.range 256).map byte_frequencies).sum < 2147483648) :
    (∀ (p : List Bool) (f : Int) (b : Nat) (l r : BitNodePtr),
      (HuffmanTree.ofFrequencies P byte_frequencies).root.subtree p = node f false b l r →
      f = l.frequency + r.frequency) ∧
    (HuffmanTree.ofFrequencies P byte_frequencies).root.frequency =
      ((List.range 256).map byte_frequencies).sum := by
  have hs := sum_positiveBytes byte_frequencies hnn
  obtain ⟨ha, hr⟩ := ofFrequencies_weights P byte_frequencies h2 (by rw [hs]; exact hsum)
  refine ⟨?_, by rw [← hs]; exact hr⟩
  intro p f b l r hp
  have h := allNodes_subtree sumOfChildren p _ ha
    (by
      show (HuffmanTree.ofFrequencies P byte_frequencies).root.subtree p ≠ nullptr
      rw [hp]
      exact fun h => BitNodePtr.noConfusion h)
  have h3 : sumOfChildren (node f false b l r) = true := by
    rw [← hp]; exact h
  simpa only [sumOfChildren, BitNodePtr.terminal, BitNodePtr.left, BitNodePtr.right,
    BitNodePtr.frequency, Bool.false_or, decide_eq_true_eq] using h3

/-- C13 at the table `sampleTable`, whose entries sum to 7. -/
theorem C13_weight_conservation_witness :
    2 ≤ positiveCount sampleTable ∧
    (∀ b, b < 256 → 0 ≤ sampleTable b) ∧
    ((List.range 256).map sampleTable).sum < 2147483648 ∧
    (∀ (p : List Bool) (f : Int) (b : Nat) (l r : BitNodePtr),
      (HuffmanTree.ofFrequencies listPQ sampleTable).root.subtree p = node f false b l r →
      f = l.frequency + r.frequency) ∧
    (HuffmanTree.ofFrequencies listPQ sampleTable).root.frequency =
      ((List.range 256).map sampleTable).sum := by
  have hnn : ∀ b, b < 256 → 0 ≤ sampleTable b := by
    intro b _
    unfold sampleTable
    split_ifs <;> decide
  have hs : ((List.range 256).map sampleTable).sum < 2147483648 := by
    rw [← sum_positiveBytes sampleTable hnn]
    decide
  exact ⟨by decide, hnn, hs,
    C13_weight_conservation listPQ sampleTable (by decide) hnn hs⟩

/-! ## Leaves and depth of the built tree -/

theorem positiveBytes_onesTable : positiveBytes onesTable = List.range 256 := by
  apply List.filter_eq_self.2
  intro k _
  simp [onesTable]

/-- C18: for every frequency table, the leaves of the built tree are in one-to-one
correspondence with the bytes of positive frequency: the list of the (byte,
frequency) pairs of the terminal nodes is a rearrangement of the list of the
positive table entries, so each such byte is the symbol of exactly one leaf, that
leaf's frequency is the byte's table entry, and no other leaves exist; in
particular a table with all 256 entries equal to 1 gives a tree with 256 leaves
and 256 pairwise distinct codes. -/
theorem C18_leaves_bijection (P : PriorityQueue) (byte_frequencies : Nat → Int) :
    List.Perm (leafList (HuffmanTree.ofFrequencies P byte_frequencies).root)
      (positiveEntries byte_frequencies) ∧
    (leafBytes (HuffmanTree.ofFrequencies P byte_frequencies).root).Nodup ∧
    (∀ b f, (b, f) ∈ leafList (HuffmanTree.ofFrequencies P byte_frequencies).root ↔
      b < 256 ∧ byte_frequencies b > 0 ∧ f = byte_frequencies b) ∧
    (leafList (HuffmanTree.ofFrequencies P onesTable).root).length = 256 ∧
    (∀ a, a < 256 →
      ((HuffmanTree.ofFrequencies P onesTable).GetEncodingMap a).isSome = true) ∧
    (∀ a b ca cb, a ≠ b →
      (HuffmanTree.ofFrequencies P onesTable).GetEncodingMap a = some ca →
      (HuffmanTree.ofFrequencies P onesTable).GetEncodingMap b = some cb → ca ≠ cb) := by
  have hperm := (ofFrequencies_proper_leaves P byte_frequencies).2
  refine ⟨hperm, ofFrequencies_leafBytes_nodup P byte_frequencies, ?_, ?_, ?_, ?_⟩
  · intro b f
    show (b, f) ∈ leafList (HuffmanTree.ofFrequencies P byte_frequencies).root_ ↔ _
    rw [hperm.mem_iff, positiveEntries, List.mem_map]
    constructor
    · rintro ⟨k, hk, he⟩
      obtain ⟨rfl, rfl⟩ := Prod.mk.inj he
      exact ⟨(mem_positiveBytes.1 hk).1, (mem_positiveBytes.1 hk).2, rfl⟩
    · rintro ⟨hb, hp, rfl⟩
      exact ⟨b, mem_positiveBytes.2 ⟨hb, hp⟩, rfl⟩
  · have h := (ofFrequencies_proper_leaves P onesTable).2.length_eq
    rw [positiveEntries, List.length_map, positiveBytes_onesTable, List.length_range] at h
    exact h
  · intro a ha
    exact (mapKeys_iff_positive P onesTable a ha).2 (by simp [onesTable])
  · intro a b ca cb hne ha hb hc
    subst hc
    have hp := (ofFrequencies_proper_leaves P onesTable).1
    obtain ⟨⟨fa, h1⟩, _⟩ := subtree_of_mem_pathList _ a ca hp
      ((ofFrequencies_map_iff P onesTable a ca).1 ha)
    obtain ⟨⟨fb, h3⟩, _⟩ := subtree_of_mem_pathList _ b ca hp
      ((ofFrequencies_map_iff P onesTable b ca).1 hb)
    rw [h1] at h3
    injection h3 with _ _ hab
    exact hne hab

theorem height_pos_of_isFull {t : BitNodePtr} (h : isFull t = true) : 1 ≤ height t := by
  cases t with
  | nullptr => simp [isFull] at h
  | node f t b l r =>
    simp only [height]
    omega

/-- A full binary tree has at most as many nodes on a path as it has leaves. -/
theorem height_le_leaves : ∀ t : BitNodePtr, isFull t = true →
    height t ≤ (leafList t).length
  | nullptr, h => by simp [isFull] at h
  | node f t b l r, h => by
    cases t
    · simp only [isFull, Bool.false_eq_true, if_false, Bool.and_eq_true] at h
      have h1 := height_le_leaves l h.1
      have h3 := height_le_leaves r h.2
      have h4 := height_pos_of_isFull h.1
      have h5 := height_pos_of_isFull h.2
      have hm : max (height l) (height r) ≤
          (leafList l).length + (leafList r).length - 1 :=
        max_le (by omega) (by omega)
      simp only [height, leafList, Bool.false_eq_true, if_false, List.nil_append,
        List.length_append]
      omega
    · simp only [isFull, if_true, Bool.and_eq_true, isNull_iff] at h
      obtain ⟨rfl, rfl⟩ := h
      simp [height, leafList]

/-- The path to a terminal node is shorter than the height of the tree. -/
theorem length_lt_height : ∀ (t : BitNodePtr) (k : Nat) (c : List Bool),
    (k, c) ∈ pathList t → c.length < height t
  | nullptr, _, _, h => by simp [pathList] at h
  | node f t b l r, k, c, h => by
    simp only [pathList, List.mem_append, List.mem_map, Prod.mk.injEq] at h
    simp only [height]
    rcases h with h | ⟨⟨k1, c1⟩, hm, _, rfl⟩ | ⟨⟨k1, c1⟩, hm, _, rfl⟩
    · cases t
      · simp at h
      · simp only [if_true, List.mem_singleton, Prod.mk.injEq] at h
        rw [h.2]
        simp
    · have := length_lt_height l k1 c1 hm
      have := le_max_left (height l) (height r)
      simp only [List.length_cons]
      omega
    · have := length_lt_height r k1 c1 hm
      have := le_max_right (height l) (height r)
      simp only [List.length_cons]
      omega

theorem callDepth_le : ∀ t : BitNodePtr, callDepth t ≤ height t + 1
  | nullptr => by simp [callDepth, height]
  | node f t b l r => by
    have h1 := callDepth_le l
    have h3 := callDepth_le r
    have h4 := le_max_left (height l) (height r)
    have h5 := le_max_right (height l) (height r)
    have hm : max (callDepth l) (callDepth r) ≤ max (height l) (height r) + 1 :=
      max_le (by omega) (by omega)
    simp only [callDepth, height]
    omega

theorem flattenDepth_le : ∀ t : BitNodePtr, flattenDepth t ≤ callDepth t
  | nullptr => by simp [callDepth, flattenDepth]
  | node f t b l r => by
    have h1 := flattenDepth_le l
    have h3 := flattenDepth_le r
    have h4 := le_max_left (callDepth l) (callDepth r)
    have h5 := le_max_right (callDepth l) (callDepth r)
    have hm : max (flattenDepth l) (flattenDepth r) ≤ max (callDepth l) (callDepth r) :=
      max_le (by omega) (by omega)
    cases t
    · simp only [callDepth, flattenDepth, Bool.false_eq_true, if_false]
      omega
    · simp only [callDepth, flattenDepth, if_true]
      omega

theorem positiveCount_le (byte_frequencies : Nat → Int) :
    positiveCount byte_frequencies ≤ 256 := by
  have h := List.length_filter_le (fun b => decide (byte_frequencies b > 0))
    (List.range 256)
  rw [List.length_range] at h
  exact h

/-- The built tree has at most 256 nodes on any path from the root. -/
theorem ofFrequencies_height_le (P : PriorityQueue) (byte_frequencies : Nat → Int) :
    height (HuffmanTree.ofFrequencies P byte_frequencies).root_ ≤ 256 := by
  by_cases h2 : 2 ≤ positiveCount byte_frequencies
  · obtain ⟨hf, hl⟩ := ofFrequencies_full_leaves P byte_frequencies h2
    have h := height_le_leaves _ hf
    rw [hl.length_eq, positiveEntries, List.length_map] at h
    exact le_trans h (positiveCount_le byte_frequencies)
  · by_cases h0 : positiveCount byte_frequencies = 0
    · rw [ofFrequencies_of_count_zero P _ h0]
      simp [height]
    · have h1 : (positiveBytes byte_frequencies).length = 1 := by
        have : positiveCount byte_frequencies = 1 := by omega
        exact this
      obtain ⟨b, hb⟩ := List.length_eq_one.1 h1
      rw [ofFrequencies_of_count_one P _ b hb]
      simp [height]

/-- C19: for every 256-entry frequency table, the depth of the built tree is at
most 256 (at most 256 nodes lie on a path from the root), so every code in the
encoding map has at most 256 bits (fewer bits than the tree has levels) and the
recursive traversals (`GetEncodingMap`, `Flatten`, `Erase`) recurse to a depth
bounded by a constant, 257 nested calls. -/
theorem C19_depth_bound (P : PriorityQueue) (byte_frequencies : Nat → Int) :
    height (HuffmanTree.ofFrequencies P byte_frequencies).root ≤ 256 ∧
    (∀ k c, (HuffmanTree.ofFrequencies P byte_frequencies).GetEncodingMap k = some c →
      c.length < height (HuffmanTree.ofFrequencies P byte_frequencies).root ∧
      c.length ≤ 256) ∧
    callDepth (HuffmanTree.ofFrequencies P byte_frequencies).root ≤ 257 ∧
    flattenDepth (HuffmanTree.ofFrequencies P byte_frequencies).root ≤ 257 := by
  have hh := ofFrequencies_height_le P byte_frequencies
  have hc := callDepth_le (HuffmanTree.ofFrequencies P byte_frequencies).root_
  have hfl := flattenDepth_le (HuffmanTree.ofFrequencies P byte_frequencies).root_
  refine ⟨hh, ?_, ?_, ?_⟩
  · intro k c hkc
    have h := length_lt_height _ k c ((ofFrequencies_map_iff P byte_frequencies k c).1 hkc)
    exact ⟨h, by omega⟩
  · show callDepth (HuffmanTree.ofFrequencies P byte_frequencies).root_ ≤ 257
    omega
  · show flattenDepth (HuffmanTree.ofFrequencies P byte_frequencies).root_ ≤ 257
    omega

/-! ## Length of the flattened tree -/

/-- The flattened form of a full tree with `n` leaves has `3n - 1` bytes: one per
non-terminal node and two per terminal node. -/
theorem flatten_length_of_isFull : ∀ t : BitNodePtr, isFull t = true →
    (FlattenHelper t []).length + 1 = 3 * (leafList t).length
  | nullptr, h => by simp [isFull] at h
  | node f t b l r, h => by
    cases t
    · simp only [isFull, Bool.false_eq_true, if_false, Bool.and_eq_true] at h
      have h1 := flatten_length_of_isFull l h.1
      have h3 := flatten_length_of_isFull r h.2
      rw [FlattenHelper_inner]
      simp only [leafList, Bool.false_eq_true, if_false, List.nil_append,
        List.length_append, List.length_cons]
      omega
    · simp only [isFull, if_true, Bool.and_eq_true, isNull_iff] at h
      obtain ⟨rfl, rfl⟩ := h
      rw [FlattenHelper_terminal]
      simp [leafList]

/-- C23: for every frequency table with `k` positive entries, the length in bytes
of `Flatten` of the built tree is `3k - 1` when `k ≥ 2`, 3 when `k = 1`, and 0
when `k = 0`. -/
theorem C23_flatten_length (P : PriorityQueue) (byte_frequencies : Nat → Int) :
    (HuffmanTree.ofFrequencies P byte_frequencies).Flatten.length =
      if positiveCount byte_frequencies = 0 then 0
      else if positiveCount byte_frequencies = 1 then 3
      else 3 * positiveCount byte_frequencies - 1 := by
  by_cases h0 : positiveCount byte_frequencies = 0
  · rw [if_pos h0, ofFrequencies_of_count_zero P _ h0]
    rfl
  · rw [if_neg h0]
    by_cases h1 : positiveCount byte_frequencies = 1
    · rw [if_pos h1]
      obtain ⟨b, hb⟩ := List.length_eq_one.1 h1
      rw [ofFrequencies_of_count_one P _ b hb]
      rfl
    · rw [if_neg h1]
      obtain ⟨hf, hl⟩ := ofFrequencies_full_leaves P byte_frequencies (by omega)
      have h := flatten_length_of_isFull _ hf
      rw [hl.length_eq, positiveEntries, List.length_map] at h
      show (FlattenHelper (HuffmanTree.ofFrequencies P byte_frequencies).root_ []).length = _
      have hk : (positiveBytes byte_frequencies).length = positiveCount byte_frequencies :=
        rfl
      omega

/-! ## Code length against frequency -/

theorem isNull_relabel (σ : Nat → Nat) (t : BitNodePtr) :
    (relabel σ t).isNull = t.isNull := by
  cases t <;> rfl

theorem isFull_relabel (σ : Nat → Nat) : ∀ t : BitNodePtr,
    isFull (relabel σ t) = isFull t
  | nullptr => rfl
  | node f t b l r => by
    simp only [relabel, isFull, isNull_relabel, isFull_relabel σ l, isFull_relabel σ r]

theorem pathList_relabel (σ : Nat → Nat) : ∀ t : BitNodePtr,
    pathList (relabel σ t) = (pathList t).map fun kv => (σ kv.1, kv.2)
  | nullptr => rfl
  | node f t b l r => by
    simp only [relabel, pathList, pathList_relabel σ l, pathList_relabel σ r,
      List.map_append, List.map_map, Function.comp_def]
    cases t <;> simp

theorem leafBytes_relabel (σ : Nat → Nat) (t : BitNodePtr) :
    leafBytes (relabel σ t) = (leafBytes t).map σ := by
  rw [← pathList_map_fst, ← pathList_map_fst, pathList_relabel]
  simp [List.map_map, Function.comp_def]

theorem encodedLength_relabel (byte_frequencies : Nat → Int) (σ : Nat → Nat)
    (t : BitNodePtr) :
    encodedLength byte_frequencies (relabel σ t) =
      ((pathList t).map fun kv => byte_frequencies (σ kv.1) * (kv.2.length : Int)).sum := by
  rw [encodedLength, pathList_relabel]
  simp [List.map_map, Function.comp_def]

theorem swap_mem (L : List Nat) (a b y : Nat) (ha : a ∈ L) (hb : b ∈ L) (hy : y ∈ L) :
    Equiv.swap a b y ∈ L := by
  by_cases h1 : y = a
  · rw [h1, Equiv.swap_apply_left]; exact hb
  · by_cases h3 : y = b
    · rw [h3, Equiv.swap_apply_right]; exact ha
    · rw [Equiv.swap_apply_of_ne_of_ne h1 h3]; exact hy

/-- Exchanging two members of a list without repetition permutes the list. -/
theorem map_swap_perm (L : List Nat) (hnd : L.Nodup) (a b : Nat) (ha : a ∈ L)
    (hb : b ∈ L) : List.Perm (L.map (Equiv.swap a b)) L := by
  apply (List.perm_ext_iff_of_nodup (hnd.map (Equiv.swap a b).injective) hnd).2
  intro x
  rw [List.mem_map]
  constructor
  · rintro ⟨y, hy, rfl⟩
    exact swap_mem L a b y ha hb hy
  · intro hx
    exact ⟨Equiv.swap a b x, swap_mem L a b x ha hb hx, Equiv.swap_apply_self a b x⟩

/-- The cost of a list of (byte, path) pairs after the exchange of two bytes. -/
theorem sum_swap (byte_frequencies : Nat → Int) (L : List (Nat × List Bool))
    (hnd : (L.map Prod.fst).Nodup) (a b : Nat) (ca cb : List Bool) (hab : a ≠ b)
    (ha : (a, ca) ∈ L) (hb : (b, cb) ∈ L) :
    (L.map fun kv => byte_frequencies (Equiv.swap a b kv.1) * (kv.2.length : Int)).sum =
      (L.map fun kv => byte_frequencies kv.1 * (kv.2.length : Int)).sum +
        (byte_frequencies b - byte_frequencies a) * (ca.length : Int) +
        (byte_frequencies a - byte_frequencies b) * (cb.length : Int) := by
  obtain ⟨R1, h1⟩ : ∃ R1, List.Perm L ((a, ca) :: R1) := ⟨_, List.perm_cons_erase ha⟩
  have hb1 : (b, cb) ∈ R1 := by
    rcases List.mem_cons.1 (h1.mem_iff.1 hb) with h | h
    · exact absurd (congrArg Prod.fst h).symm hab
    · exact h
  obtain ⟨R, h2⟩ : ∃ R, List.Perm R1 ((b, cb) :: R) := ⟨_, List.perm_cons_erase hb1⟩
  have h3 : List.Perm L ((a, ca) :: (b, cb) :: R) := h1.trans (h2.cons _)
  have hnd1 : (((a, ca) :: (b, cb) :: R).map Prod.fst).Nodup :=
    (h3.map Prod.fst).nodup_iff.1 hnd
  simp only [List.map_cons, List.nodup_cons, List.mem_cons, not_or] at hnd1
  obtain ⟨⟨_, haR⟩, hbR, _⟩ := hnd1
  have hR : (R.map fun kv => byte_frequencies (Equiv.swap a b kv.1) * (kv.2.length : Int)) =
      R.map fun kv => byte_frequencies kv.1 * (kv.2.length : Int) := by
    apply List.map_congr_left
    intro kv hkv
    have hka : kv.1 ≠ a := fun h => haR (h ▸ List.mem_map_of_mem Prod.fst hkv)
    have hkb : kv.1 ≠ b := fun h => hbR (h ▸ List.mem_map_of_mem Prod.fst hkv)
    rw [Equiv.swap_apply_of_ne_of_ne hka hkb]
  rw [(h3.map _).sum_eq, (h3.map _).sum_eq]
  simp only [List.map_cons, List.sum_cons, hR, Equiv.swap_apply_left,
    Equiv.swap_apply_right]
  ring

/-- When the positive entries sum to less than 2^31, a byte with a larger table
entry lies no deeper in the built tree than a byte with a smaller positive
entry: the exchange of the two would make the tree cheaper. -/
theorem ofFrequencies_depth_monotone (P : PriorityQueue) (byte_frequencies : Nat → Int)
    (hsum : ((positiveBytes byte_frequencies).map byte_frequencies).sum < 2147483648)
    (a b : Nat) (ca cb : List Bool)
    (hab : byte_frequencies a > byte_frequencies b)
    (ha : (a, ca) ∈ pathList (HuffmanTree.ofFrequencies P byte_frequencies).root_)
    (hb : (b, cb) ∈ pathList (HuffmanTree.ofFrequencies P byte_frequencies).root_) :
    ca.length ≤ cb.length := by
  by_contra hlt
  have hne : a ≠ b := by
    rintro rfl
    exact lt_irrefl _ hab
  have hperm := ofFrequencies_leafBytes_perm P byte_frequencies
  have hnd := ofFrequencies_leafBytes_nodup P byte_frequencies
  have hma := mem_leafBytes_of_mem_pathList ha
  have hmb := mem_leafBytes_of_mem_pathList hb
  have h2 : 2 ≤ positiveCount byte_frequencies := by
    have hsub : List.Subperm [a, b]
        (leafBytes (HuffmanTree.ofFrequencies P byte_frequencies).root_) := by
      apply List.subperm_of_subset (by simp [hne])
      intro x hx
      simp only [List.mem_cons, List.mem_singleton, List.not_mem_nil, or_false] at hx
      rcases hx with rfl | rfl
      · exact hma
      · exact hmb
    have := hsub.length_le
    rw [hperm.length_eq] at this
    exact this
  obtain ⟨hf, _⟩ := ofFrequencies_full_leaves P byte_frequencies h2
  have hopt := ofFrequencies_optimal_full P byte_frequencies h2 hsum
    (relabel (Equiv.swap a b) (HuffmanTree.ofFrequencies P byte_frequencies).root_)
    (by rw [isFull_relabel]; exact hf)
    (by
      rw [leafBytes_relabel]
      exact (map_swap_perm _ hnd a b hma hmb).trans hperm)
  rw [encodedLength_relabel, sum_swap byte_frequencies _
    (by rw [pathList_map_fst]; exact hnd) a b ca cb hne ha hb] at hopt
  have hd : (0 : Int) < (byte_frequencies a - byte_frequencies b) *
      ((ca.length : Int) - (cb.length : Int)) := by
    apply mul_pos
    · omega
    · have : cb.length < ca.length := by omega
      omega
  have hexp : (byte_frequencies a - byte_frequencies b) *
      ((ca.length : Int) - (cb.length : Int)) =
      -((byte_frequencies b - byte_frequencies a) * (ca.length : Int) +
        (byte_frequencies a - byte_frequencies b) * (cb.length : Int)) := by ring
  rw [hexp] at hd
  simp only [encodedLength] at hopt
  omega

/-- C22 (amended): code length is monotone in frequency: for every frequency table
whose positive entries sum to less than 2^31 and any two bytes `a` and `b` with
`frequency(a) > frequency(b) > 0`, the code of `a` in the derived encoding map is
no longer than the code of `b`. -/
theorem C22_code_length_monotone (P : PriorityQueue) (byte_frequencies : Nat → Int)
    (hsum : ((positiveBytes byte_frequencies).map byte_frequencies).sum < 2147483648)
    (a b : Nat) (ha : a < 256) (hb : b < 256)
    (hab : byte_frequencies a > byte_frequencies b) (hpos : byte_frequencies b > 0) :
    ∃ ca cb,
      (HuffmanTree.ofFrequencies P byte_frequencies).GetEncodingMap a = some ca ∧
      (HuffmanTree.ofFrequencies P byte_frequencies).GetEncodingMap b = some cb ∧
      ca.length ≤ cb.length := by
  obtain ⟨ca, hca⟩ := Option.isSome_iff_exists.1
    ((mapKeys_iff_positive P byte_frequencies a ha).2 (lt_trans hpos hab))
  obtain ⟨cb, hcb⟩ := Option.isSome_iff_exists.1
    ((mapKeys_iff_positive P byte_frequencies b hb).2 hpos)
  exact ⟨ca, cb, hca, hcb,
    ofFrequencies_depth_monotone P byte_frequencies hsum a b ca cb hab
      ((ofFrequencies_map_iff P byte_frequencies a ca).1 hca)
      ((ofFrequencies_map_iff P byte_frequencies b cb).1 hcb)⟩

/-- C22 (amended) at the table `sampleTable`, for the bytes 99 (four times) and 97
(once). -/
theorem C22_code_length_monotone_witness :
    ((positiveBytes sampleTable).map sampleTable).sum < 2147483648 ∧
    (99 < 256 ∧ 97 < 256) ∧ sampleTable 99 > sampleTable 97 ∧ sampleTable 97 > 0 ∧
    ∃ ca cb,
      (HuffmanTree.ofFrequencies listPQ sampleTable).GetEncodingMap 99 = some ca ∧
      (HuffmanTree.ofFrequencies listPQ sampleTable).GetEncodingMap 97 = some cb ∧
      ca.length ≤ cb.length :=
  ⟨by decide, ⟨by decide, by decide⟩, by decide, by decide,
    C22_code_length_monotone listPQ sampleTable (by decide) 99 97 (by decide) (by decide)
      (by decide) (by decide)⟩

/-- C22 as stated, for every table, fails: in the table `skewTable` byte 99 has
the entry 2^30 and byte 97 the smaller entry 2^29 + 1, the sum 2^31 + 1 of
the entries of bytes 99 and 100 wraps to a negative `int`, and the code of byte 99
has three bits while that of byte 97 has two. -/
theorem C22_counterexample :
    skewTable 99 > skewTable 97 ∧ skewTable 97 > 0 ∧
    (HuffmanTree.ofFrequencies listPQ skewTable).GetEncodingMap 99 =
      some [false, false, false] ∧
    (HuffmanTree.ofFrequencies listPQ skewTable).GetEncodingMap 97 =
      some [true, false] ∧
    ¬ ([false, false, false].length ≤ [true, false].length) :=
  ⟨by decide, by decide, by decide, by decide, by decide⟩

/-! ## The packed stream against the input -/

theorem pathList_fork (l r : BitNodePtr) :
    pathList (fork l r) =
      (pathList l).map (fun kv => (kv.1, false :: kv.2)) ++
        (pathList r).map (fun kv => (kv.1, true :: kv.2)) := by
  cases l <;> cases r <;> simp [fork, pathList]

theorem isProper_fork (l r : BitNodePtr) :
    isProper (fork l r) = (isProper l && isProper r) := by
  cases l <;> cases r <;> simp [fork, isProper]

theorem isProper_fixedTree (keep : Nat → Bool) : ∀ (d base : Nat),
    isProper (fixedTree keep d base) = true
  | 0, base => by
    simp only [fixedTree]
    split_ifs <;> rfl
  | d + 1, base => by
    simp only [fixedTree, isProper_fork, isProper_fixedTree keep d, Bool.and_self]

/-- Every terminal node of the fixed-length tree lies `d` levels down. -/
theorem pathList_fixedTree_length (keep : Nat → Bool) : ∀ (d base : Nat),
    ∀ kv ∈ pathList (fixedTree keep d base), kv.2.length = d
  | 0, base, kv, h => by
    simp only [fixedTree] at h
    split_ifs at h
    · simp only [pathList, if_true, List.map_nil, List.append_nil,
        List.mem_singleton] at h
      rw [h]
      rfl
    · simp [pathList] at h
  | d + 1, base, kv, h => by
    simp only [fixedTree, pathList_fork, List.mem_append, List.mem_map] at h
    rcases h with ⟨kv1, h1, rfl⟩ | ⟨kv1, h1, rfl⟩
    · simp [pathList_fixedTree_length keep d base kv1 h1]
    · simp [pathList_fixedTree_length keep d _ kv1 h1]

/-- The terminal nodes of the fixed-length tree are the selected bytes, in
increasing order. -/
theorem leafBytes_fixedTree (keep : Nat → Bool) : ∀ (d base : Nat),
    leafBytes (fixedTree keep d base) = (List.range' base (2 ^ d)).filter keep
  | 0, base => by
    simp only [fixedTree, pow_zero, List.range'_one]
    by_cases h : keep base = true
    · rw [if_pos h, List.filter_cons_of_pos h]
      rfl
    · rw [if_neg h, List.filter_cons_of_neg h]
      rfl
  | d + 1, base => by
    have hsplit : List.range' base (2 ^ (d + 1)) =
        List.range' base (2 ^ d) ++ List.range' (base + 2 ^ d) (2 ^ d) := by
      rw [List.range'_append_1, pow_succ]
      congr 1
      omega
    rw [hsplit, List.filter_append, ← leafBytes_fixedTree keep d base,
      ← leafBytes_fixedTree keep d (base + 2 ^ d), ← pathList_map_fst, ← pathList_map_fst,
      ← pathList_map_fst]
    simp only [fixedTree, pathList_fork, List.map_append, List.map_map, Function.comp_def]

/-- The cost of a tree whose terminal nodes all lie `d` levels down. -/
theorem encodedLength_of_depth (byte_frequencies : Nat → Int) (t : BitNodePtr) (d : Nat)
    (h : ∀ kv ∈ pathList t, kv.2.length = d) :
    encodedLength byte_frequencies t = (d : Int) * subtreeWeight byte_frequencies t := by
  rw [encodedLength, subtreeWeight_eq, ← List.sum_map_mul_left]
  congr 1
  apply List.map_congr_left
  intro kv hkv
  rw [h kv hkv]
  ring

/-- Optimality among all prefix-code trees, for tables whose positive entries sum
to less than 2^31. -/
theorem ofFrequencies_optimal_proper (P : PriorityQueue) (byte_frequencies : Nat → Int)
    (h2 : 2 ≤ positiveCount byte_frequencies)
    (hsum : ((positiveBytes byte_frequencies).map byte_frequencies).sum < 2147483648)
    (u : BitNodePtr) (hu : isProper u = true)
    (hleaves : List.Perm (leafBytes u) (positiveBytes byte_frequencies)) :
    encodedLength byte_frequencies (HuffmanTree.ofFrequencies P byte_frequencies).root_ ≤
      encodedLength byte_frequencies u := by
  have hf : ∀ b ∈ leafBytes u, 0 ≤ byte_frequencies b := fun b hb =>
    le_of_lt (mem_positiveBytes.1 (hleaves.mem_iff.1 hb)).2
  obtain ⟨h1, hfull, hle⟩ := contract_spec byte_frequencies u hu hf
  have hfull2 : isFull (contract u) = true := by
    rcases hfull with ⟨_, h0⟩ | h
    · have := hleaves.length_eq
      rw [h0] at this
      have h3 : positiveCount byte_frequencies = 0 := this.symm
      omega
    · exact h
  exact le_trans
    (ofFrequencies_optimal_full P byte_frequencies h2 hsum (contract u) hfull2
      (by rw [h1]; exact hleaves)) hle

/-- When the positive entries sum to less than 2^31, the built tree costs at most
eight bits per counted byte, the cost of the fixed-length code. -/
theorem encodedLength_root_le (P : PriorityQueue) (byte_frequencies : Nat → Int)
    (hsum : ((positiveBytes byte_frequencies).map byte_frequencies).sum < 2147483648) :
    encodedLength byte_frequencies (HuffmanTree.ofFrequencies P byte_frequencies).root_ ≤
      8 * ((positiveBytes byte_frequencies).map byte_frequencies).sum := by
  by_cases h2 : 2 ≤ positiveCount byte_frequencies
  · have hl : leafBytes (fixedTree (fun b => decide (byte_frequencies b > 0)) 8 0) =
        positiveBytes byte_frequencies := by
      rw [leafBytes_fixedTree, positiveBytes, List.range_eq_range']
      rfl
    have h := ofFrequencies_optimal_proper P byte_frequencies h2 hsum
      (fixedTree (fun b => decide (byte_frequencies b > 0)) 8 0)
      (isProper_fixedTree _ 8 0) (by rw [hl])
    rw [encodedLength_of_depth byte_frequencies _ 8 (pathList_fixedTree_length _ 8 0),
      subtreeWeight, hl] at h
    exact h
  · by_cases h0 : positiveCount byte_frequencies = 0
    · rw [ofFrequencies_of_count_zero P _ h0]
      have : positiveBytes byte_frequencies = [] := List.length_eq_zero.1 h0
      rw [this]
      rfl
    · have h1 : (positiveBytes byte_frequencies).length = 1 := by
        have : positiveCount byte_frequencies = 1 := by omega
        exact this
      obtain ⟨b, hb⟩ := List.length_eq_one.1 h1
      have hpos : byte_frequencies b > 0 :=
        (mem_positiveBytes.1 (by rw [hb]; exact List.mem_singleton_self b)).2
      rw [ofFrequencies_of_count_one P _ b hb, hb]
      simp [encodedLength, pathList]
      omega

theorem sum_indicator (g : Nat → Int) (c : Nat) : ∀ (K : List Nat), K.Nodup → c ∈ K →
    (K.map fun k => (if c = k then 1 else 0 : Int) * g k).sum = g c
  | [], _, h => absurd h (List.not_mem_nil c)
  | a :: K, hnd, h => by
    obtain ⟨haK, hK⟩ := List.nodup_cons.1 hnd
    rw [List.map_cons, List.sum_cons]
    by_cases hca : c = a
    · subst hca
      have hz : (K.map fun k => (if c = k then 1 else 0 : Int) * g k) =
          K.map fun _ => 0 := by
        apply List.map_congr_left
        intro k hk
        have : c ≠ k := fun h1 => haK (h1 ▸ hk)
        rw [if_neg this, zero_mul]
      rw [hz]
      simp
    · have hcK : c ∈ K := by
        rcases List.mem_cons.1 h with h1 | h1
        · exact absurd h1 hca
        · exact h1
      rw [if_neg hca, zero_mul, zero_add, sum_indicator g c K hK hcK]

/-- A sum over the bytes of a file, grouped by byte value. -/
theorem sum_map_count (g : Nat → Int) (K : List Nat) (hK : K.Nodup) : ∀ (B : List Nat),
    (∀ c ∈ B, c ∈ K) →
    (B.map g).sum = (K.map fun k => (B.count k : Int) * g k).sum
  | [], _ => by simp
  | c :: B, h => by
    have ih := sum_map_count g K hK B (fun x hx => h x (List.mem_cons_of_mem _ hx))
    have hc := sum_indicator g c K hK (h c (List.mem_cons_self _ _))
    have hsplit : (K.map fun k => ((c :: B).count k : Int) * g k) =
        K.map fun k => (B.count k : Int) * g k + (if c = k then 1 else 0 : Int) * g k := by
      apply List.map_congr_left
      intro k _
      rw [List.count_cons]
      by_cases hck : c = k
      · subst hck
        simp only [beq_self_eq_true, if_true]
        push_cast
        ring
      · have : (c == k) = false := by simpa using hck
        simp only [this, Bool.false_eq_true, if_false, if_neg hck]
        push_cast
        ring
    rw [hsplit, List.sum_map_add, ← ih, hc, List.map_cons, List.sum_cons]
    ring

/-- For a file of fewer than 2^31 bytes each table entry is the exact count. -/
theorem CountByteFrequencies_count (file : List Nat) (hbytes : ∀ b ∈ file, b < 256)
    (hlen : file.length < 2147483648) (k : Nat) :
    CountByteFrequencies file k = (file.count k : Int) := by
  rw [CountByteFrequencies_eq]
  have hmap : (file.map fun c => c % 256) = file := by
    conv_rhs => rw [← List.map_id file]
    apply List.map_congr_left
    intro c hc
    exact Nat.mod_eq_of_lt (hbytes c hc)
  rw [hmap]
  have h2 : file.count k ≤ file.length := List.count_le_length _ _
  exact wrapInt32_eq _ (by omega) (by omega)

theorem mem_positiveBytes_of_mem (file : List Nat) (hbytes : ∀ b ∈ file, b < 256)
    (hlen : file.length < 2147483648) (c : Nat) (hc : c ∈ file) :
    c ∈ positiveBytes (CountByteFrequencies file) :=
  mem_positiveBytes.2 ⟨hbytes c hc, CountByteFrequencies_pos file hbytes hlen c hc⟩

/-- The positive entries of the table of a file of fewer than 2^31 bytes sum to
the length of the file. -/
theorem sum_table_eq_length (file : List Nat) (hbytes : ∀ b ∈ file, b < 256)
    (hlen : file.length < 2147483648) :
    ((positiveBytes (CountByteFrequencies file)).map (CountByteFrequencies file)).sum =
      (file.length : Int) := by
  have h := sum_map_count (fun _ => 1) (positiveBytes (CountByteFrequencies file))
    (positiveBytes_nodup _) file (mem_positiveBytes_of_mem file hbytes hlen)
  have hl : (file.map fun _ => (1 : Int)).sum = (file.length : Int) := by
    simp
  rw [hl] at h
  rw [h]
  congr 1
  apply List.map_congr_left
  intro k _
  rw [CountByteFrequencies_count file hbytes hlen, mul_one]

theorem codeBits_cons (encode_map : EncodingMap) (c : Nat) (file : List Nat) :
    codeBits encode_map (c :: file) =
      encode_map.get (c % 256) ++ codeBits encode_map file := by
  simp [codeBits]

theorem codeBits_length (encode_map : EncodingMap) : ∀ (file : List Nat),
    (∀ b ∈ file, b < 256) →
    ((codeBits encode_map file).length : Int) =
      (file.map fun c => ((encode_map.get c).length : Int)).sum
  | [], _ => rfl
  | c :: file, h => by
    rw [codeBits_cons, List.length_append, List.map_cons, List.sum_cons,
      ← codeBits_length encode_map file (fun b hb => h b (List.mem_cons_of_mem _ hb)),
      Nat.mod_eq_of_lt (h c (List.mem_cons_self _ _))]
    push_cast
    rfl

/-- The number of code bits of a file of fewer than 2^31 bytes is the cost of the
built tree for the table of the file. -/
theorem codeBits_length_eq (P : PriorityQueue) (file : List Nat)
    (hbytes : ∀ b ∈ file, b < 256) (hlen : file.length < 2147483648) :
    ((codeBits (HuffmanTree.ofFrequencies P
        (CountByteFrequencies file)).GetEncodingMap file).length : Int) =
      encodedLength (CountByteFrequencies file)
        (HuffmanTree.ofFrequencies P (CountByteFrequencies file)).root_ := by
  have hperm := ofFrequencies_leafBytes_perm P (CountByteFrequencies file)
  have hnd := ofFrequencies_leafBytes_nodup P (CountByteFrequencies file)
  rw [codeBits_length _ file hbytes,
    sum_map_count _ _ hnd file
      (fun c hc => hperm.mem_iff.2 (mem_positiveBytes_of_mem file hbytes hlen c hc)),
    ← pathList_map_fst, List.map_map, encodedLength]
  congr 1
  apply List.map_congr_left
  intro kv hkv
  have hm := (ofFrequencies_map_iff P (CountByteFrequencies file) kv.1 kv.2).2 hkv
  simp only [Function.comp_def, EncodingMap.get, hm, Option.getD_some,
    CountByteFrequencies_count file hbytes hlen]

/-- C21 (amended): for every byte sequence `B` of fewer than 2^31 bytes (empty or
not), the packed bit stream produced by `compress` for `B` (built from the
frequency table of `B` itself) has at most `|B|` bytes, and the total number of
code bits is at most `8 * |B|`. -/
theorem C21_stream_at_most_input (P : PriorityQueue) (file : List Nat)
    (hbytes : ∀ b ∈ file, b < 256) (hlen : file.length < 2147483648) :
    (codeBits (HuffmanTree.ofFrequencies P
        (CountByteFrequencies file)).GetEncodingMap file).length ≤ 8 * file.length ∧
    (compress P file).content.length ≤ file.length := by
  have hs := sum_table_eq_length file hbytes hlen
  have hle := encodedLength_root_le P (CountByteFrequencies file)
    (by rw [hs]; exact_mod_cast hlen)
  rw [← codeBits_length_eq P file hbytes hlen, hs] at hle
  have hbits : (codeBits (HuffmanTree.ofFrequencies P
      (CountByteFrequencies file)).GetEncodingMap file).length ≤ 8 * file.length := by
    exact_mod_cast hle
  refine ⟨hbits, ?_⟩
  have hc : (compress P file).content =
      packStream (HuffmanTree.ofFrequencies P (CountByteFrequencies file)).GetEncodingMap
        file := rfl
  rw [hc, (packStream_bits _ file).1]
  omega

/-- C21 (amended) at the seven-byte file `sampleFile`. -/
theorem C21_stream_at_most_input_witness :
    (∀ b ∈ sampleFile, b < 256) ∧ sampleFile.length < 2147483648 ∧
    (codeBits (HuffmanTree.ofFrequencies listPQ
        (CountByteFrequencies sampleFile)).GetEncodingMap sampleFile).length ≤
      8 * sampleFile.length ∧
    (compress listPQ sampleFile).content.length ≤ sampleFile.length :=
  ⟨by decide, by decide,
    C21_stream_at_most_input listPQ sampleFile (by decide) (by decide)⟩

/-! ## A file of more than 2^32 bytes -/

theorem codeBits_append (encode_map : EncodingMap) (A B : List Nat) :
    codeBits encode_map (A ++ B) = codeBits encode_map A ++ codeBits encode_map B := by
  simp [codeBits]

theorem codeBits_replicate_length (encode_map : EncodingMap) (b : Nat) : ∀ n : Nat,
    (codeBits encode_map (List.replicate n b)).length =
      n * (encode_map.get (b % 256)).length
  | 0 => by
    rw [Nat.zero_mul]
    rfl
  | n + 1 => by
    have hr : List.replicate (n + 1) b = b :: List.replicate n b := rfl
    rw [hr, codeBits_cons, List.length_append, codeBits_replicate_length encode_map b n]
    ring

theorem compress_content (P : PriorityQueue) (file : List Nat) :
    (compress P file).content =
      packStream (HuffmanTree.ofFrequencies P (CountByteFrequencies file)).GetEncodingMap
        file := rfl

theorem chainFile_length : chainFile.length = 4294968319 := by
  simp only [chainFile, List.length_append, List.length_replicate]

theorem chainFile_bytes : ∀ b ∈ chainFile, b < 256 := by
  intro b hb
  simp only [chainFile, List.mem_append, List.mem_replicate] at hb
  omega

/-- The table counted from `chainFile`: the counter of byte 0x00 passes 2^32 and
ends at 1. -/
theorem CountByteFrequencies_chainFile : CountByteFrequencies chainFile = chainTable := by
  funext k
  have hmap : (chainFile.map fun c => c % 256) = chainFile := by
    conv_rhs => rw [← List.map_id chainFile]
    apply List.map_congr_left
    intro c hc
    exact Nat.mod_eq_of_lt (chainFile_bytes c hc)
  rw [CountByteFrequencies_eq, hmap]
  simp only [chainFile, List.count_append, List.count_replicate, beq_iff_eq]
  by_cases hk : k < 10
  · interval_cases k <;> decide
  · have hne : ∀ i, i < 10 → ¬ i = k := fun i hi he => hk (he ▸ hi)
    simp only [if_neg (hne 0 (by decide)), if_neg (hne 1 (by decide)),
      if_neg (hne 2 (by decide)), if_neg (hne 3 (by decide)), if_neg (hne 4 (by decide)),
      if_neg (hne 5 (by decide)), if_neg (hne 6 (by decide)), if_neg (hne 7 (by decide)),
      if_neg (hne 8 (by decide)), if_neg (hne 9 (by decide)), chainTable, if_neg hk,
      Nat.add_zero, Nat.cast_zero, wrapInt32_zero]

/-- C21 as stated, for every non-empty byte sequence, fails: in the file
`chainFile` of 2^32 + 1023 bytes the byte 0x00 occurs 2^32 + 1 times, its `int`
counter wraps around to 1, the byte gets the longest code of the tree, nine bits,
and the packed stream is longer than the file. -/
theorem C21_counterexample :
    chainFile ≠ [] ∧ (∀ b ∈ chainFile, b < 256) ∧ chainFile.length = 4294968319 ∧
    CountByteFrequencies chainFile 0 = 1 ∧
    (HuffmanTree.ofFrequencies listPQ (CountByteFrequencies chainFile)).GetEncodingMap 0 =
      some [false, false, false, false, false, false, false, false, false] ∧
    8 * chainFile.length < (codeBits (HuffmanTree.ofFrequencies listPQ
      (CountByteFrequencies chainFile)).GetEncodingMap chainFile).length ∧
    chainFile.length < (compress listPQ chainFile).content.length := by
  have hmap0 : (HuffmanTree.ofFrequencies listPQ chainTable).GetEncodingMap 0 =
      some [false, false, false, false, false, false, false, false, false] := by decide
  have hget : ((HuffmanTree.ofFrequencies listPQ chainTable).GetEncodingMap.get
      (0 % 256)).length = 9 := by
    simp only [EncodingMap.get, Nat.zero_mod, hmap0]
    rfl
  have hbits : 4294967297 * 9 ≤ (codeBits (HuffmanTree.ofFrequencies listPQ
      chainTable).GetEncodingMap chainFile).length := by
    have hc : chainFile = List.replicate 4294967297 0 ++ (List.replicate 2 1 ++
        (List.replicate 4 2 ++ (List.replicate 8 3 ++ (List.replicate 16 4 ++
        (List.replicate 32 5 ++ (List.replicate 64 6 ++ (List.replicate 128 7 ++
        (List.replicate 256 8 ++ List.replicate 512 9)))))))) := rfl
    rw [hc, codeBits_append, List.length_append, codeBits_replicate_length, hget]
    exact Nat.le_add_right _ _
  rw [compress_content, (packStream_bits _ chainFile).1, CountByteFrequencies_chainFile,
    chainFile_length]
  refine ⟨?_, chainFile_bytes, rfl, by decide, hmap0, by omega, by omega⟩
  intro h
  have h2 := congrArg List.length h
  rw [chainFile_length] at h2
  exact absurd h2 (by decide)

end Huffman
